import Mathlib

/-!
The table `ts::NIT` (src/libtsduck/dtv/tables/tsNIT.cpp)

A shallow embedding of the Network Information Table handler of TSDuck:

* `ts.NIT.DisplaySection` : the walk over a section payload (lines 92-141),
  instrumented with the memory reads and counter updates it performs;
* `ts.NIT.buildXML` / `ts.NIT.fromXML` : the tree codec (lines 148-203).

Definitions come first, theorems after them.
-/

set_option autoImplicit false
set_option maxRecDepth 20000

namespace ts

/-! ## Part 1. The section walk: data model -/

/-- One octet of a payload (`uint8_t`). -/
abbrev Byte := Fin 256

/-- Number of values of a `size_t` (64-bit build). -/
def SIZE_T_MOD : Nat := 2 ^ 64

/-- Subtraction on `size_t`: it wraps around modulo `SIZE_T_MOD` when the
result would be negative. Both operands are `size_t` values. -/
def subSizeT (a b : Nat) : Nat := (a + SIZE_T_MOD - b) % SIZE_T_MOD

/-- The part of `ts::Section` that `DisplaySection` uses: the payload bytes
(`section.payload()`), whose number (`section.payloadSize()`) is a `size_t`. -/
structure Section where
  payload : List Byte
  fits : payload.length < SIZE_T_MOD

/-- Value of `section.payloadSize()`. -/
def Section.payloadSize (s : Section) : Nat := s.payload.length

/-- Modelled from the spec: `GetUInt16` (tsMemory.h, not in this file) reads the
big-endian 16-bit field made of the two bytes at offsets `off` and `off + 1`.
A byte outside the buffer reads as 0 here; `Event.getUInt16` records the access
so that it can be checked against the buffer bounds. -/
def GetUInt16 (p : List Byte) (off : Nat) : Nat :=
  (p.getD off 0).val * 256 + (p.getD (off + 1) 0).val

/-- What the walk does, in program order. Offsets are relative to
`section.payload()`. -/
inductive Event where
  /-- `GetUInt16(data + k)` reads the bytes at `off` and `off + 1`; `masked` tells
  whether the result goes through `& 0x0FFF` (a length field, lines 105, 118, 128)
  or not (an id, lines 126, 127). -/
  | getUInt16 (off : Nat) (masked : Bool)
  /-- `size -= amount`, with the value of `size` before the statement. -/
  | decSize (size amount : Nat)
  /-- `loop_length -= amount`, with the value of `loop_length` before it. -/
  | decLoop (loop_length amount : Nat)
  /-- The condition of `while (loop_length >= 6)` (line 125) is evaluated with the
  data pointer at offset `data` and these values of `size` and `loop_length`. -/
  | whileTest (data size loop_length : Nat)
  /-- `display.displayDescriptorList(section, data, len, indent)` (lines 112, 134)
  with `data` at offset `off`. -/
  | descriptorList (off len : Nat)
  /-- The "Transport Stream Id ..., Original Network Id ..." line (line 133). -/
  | transport (tsid nwid : Nat)
  /-- `display.displayExtraData(data, size, indent)` (line 140). -/
  | extraData (off len : Nat)
  deriving DecidableEq, Repr

namespace NIT

/-! ## Part 1. The section walk: code -/

/-- The `while (loop_length >= 6)` loop of `DisplaySection` (lines 125-136),
started with the data pointer at offset `data` and the given `size` and
`loop_length`. It returns the events of the loop with the final `data` and
`size`, or `none` when `fuel` evaluations of the loop condition do not reach
the end of the loop. -/
def transportLoop (p : List Byte) : Nat → Nat → Nat → Nat → Option (List Event × Nat × Nat)
  | 0, _, _, _ => none
  | fuel + 1, data, size, loop_length =>
    if loop_length ≥ 6 then
      let tsid := GetUInt16 p data
      let nwid := GetUInt16 p (data + 2)
      let length := GetUInt16 p (data + 4) &&& 0x0FFF
      let data1 := data + 6
      let size1 := subSizeT size 6
      let loop_length1 := subSizeT loop_length 6
      let length := if length > loop_length1 then loop_length1 else length
      match transportLoop p fuel (data1 + length) (subSizeT size1 length)
          (subSizeT loop_length1 length) with
      | none => none
      | some (t, d, s) =>
        some ([Event.whileTest data size loop_length,
               Event.getUInt16 data false,
               Event.getUInt16 (data + 2) false,
               Event.getUInt16 (data + 4) true,
               Event.decSize size 6,
               Event.decLoop loop_length 6,
               Event.transport tsid nwid,
               Event.descriptorList data1 length,
               Event.decSize size1 length,
               Event.decLoop loop_length1 length] ++ t, d, s)
    else
      some ([Event.whileTest data size loop_length], data, size)

/-- The walk of `ts::NIT::DisplaySection` (lines 98-140) over the payload of a
section: the events it performs, in order. The "Network Id" line (line 101)
does not depend on the payload and is left out, as is the "Network
information:" header that precedes the top-level descriptor list. The loop is
given `loop_length + 1` evaluations of its condition. -/
def DisplaySection (sec : Section) : Option (List Event) :=
  let p := sec.payload
  let data := 0
  let size := sec.payloadSize
  if size ≥ 2 then
    let loop_length := GetUInt16 p data &&& 0x0FFF
    let data1 := data + 2
    let size1 := subSizeT size 2
    let loop_length := if loop_length > size1 then size1 else loop_length
    let t1 := [Event.getUInt16 data true, Event.decSize size 2] ++
      (if loop_length > 0 then [Event.descriptorList data1 loop_length] else []) ++
      [Event.decSize size1 loop_length]
    let data2 := data1 + loop_length
    let size2 := subSizeT size1 loop_length
    if size2 ≥ 2 then
      let loop_length := GetUInt16 p data2 &&& 0x0FFF
      let data3 := data2 + 2
      let size3 := subSizeT size2 2
      let loop_length := if loop_length > size3 then size3 else loop_length
      match transportLoop p (loop_length + 1) data3 size3 loop_length with
      | none => none
      | some (t, d, s) =>
        some (t1 ++ [Event.getUInt16 data2 true, Event.decSize size2 2] ++ t ++
          [Event.extraData d s])
    else
      some (t1 ++ [Event.extraData data2 size2])
  else
    some [Event.extraData data size]

/-! ## Part 1. The section walk: the same steps in exact arithmetic

These definitions restate the steps of the walk with natural-number subtraction,
`min` and `% 4096`; the theorems relate them to the code above. -/

/-- Number of descriptor bytes of the entry at offset `d` when `l` bytes remain
in the entries region: the low 12 bits of the field at `d + 4`, at most what
follows the 6-byte entry header. -/
def entryLength (p : List Byte) (d l : Nat) : Nat :=
  min (GetUInt16 p (d + 4) % 4096) (l - 6)

/-- Events of one iteration of the loop, in exact arithmetic. -/
def entryEvents (p : List Byte) (d s l : Nat) : List Event :=
  [Event.whileTest d s l,
   Event.getUInt16 d false,
   Event.getUInt16 (d + 2) false,
   Event.getUInt16 (d + 4) true,
   Event.decSize s 6,
   Event.decLoop l 6,
   Event.transport (GetUInt16 p d) (GetUInt16 p (d + 2)),
   Event.descriptorList (d + 6) (entryLength p d l),
   Event.decSize (s - 6) (entryLength p d l),
   Event.decLoop (l - 6) (entryLength p d l)]

/-- Big-step description of the loop in exact arithmetic: from offset `d` with
`s` bytes left and `l` bytes left in the entries region, the loop performs the
events `t` and ends at offset `d'` with `s'` bytes left. -/
inductive LoopRun (p : List Byte) : Nat → Nat → Nat → List Event → Nat → Nat → Prop
  | done (d s l : Nat) (h : l < 6) : LoopRun p d s l [Event.whileTest d s l] d s
  | iter (d s l : Nat) (t : List Event) (d' s' : Nat) (h : 6 ≤ l)
      (rest : LoopRun p (d + 6 + entryLength p d l) (s - 6 - entryLength p d l)
        (l - 6 - entryLength p d l) t d' s') :
      LoopRun p d s l (entryEvents p d s l ++ t) d' s'

/-- Number of bytes of the top-level descriptor list. -/
def topLength (sec : Section) : Nat :=
  min (GetUInt16 sec.payload 0 % 4096) (sec.payloadSize - 2)

/-- Length of the entries region. -/
def entriesLength (sec : Section) : Nat :=
  min (GetUInt16 sec.payload (2 + topLength sec) % 4096)
    (sec.payloadSize - 2 - topLength sec - 2)

/-- Events of the top-level part (lines 105-114), in exact arithmetic. -/
def topEvents (sec : Section) : List Event :=
  [Event.getUInt16 0 true, Event.decSize sec.payloadSize 2] ++
    (if 0 < topLength sec then [Event.descriptorList 2 (topLength sec)] else []) ++
    [Event.decSize (sec.payloadSize - 2) (topLength sec)]

/-- Two payloads give the same value to the 16-bit field at `off`, after the
`& 0x0FFF` mask when the field is a length. -/
def SameField (p q : List Byte) (off : Nat) (masked : Bool) : Prop :=
  if masked then GetUInt16 p off % 4096 = GetUInt16 q off % 4096
  else GetUInt16 p off = GetUInt16 q off

end NIT

/-! ## Part 1. The section walk: properties to check -/

/-- An event is safe for a payload of `n` bytes when its memory access or region
lies inside the payload and its unsigned counter does not go below zero. -/
def Event.Safe (n : Nat) : Event → Prop
  | .getUInt16 off _ => off + 2 ≤ n
  | .decSize size amount => amount ≤ size
  | .decLoop loop_length amount => amount ≤ loop_length
  | .whileTest data size loop_length => loop_length ≤ size ∧ data + size ≤ n
  | .descriptorList off len => off + len ≤ n
  | .transport _ _ => True
  | .extraData off len => off + len ≤ n

instance (n : Nat) (e : Event) : Decidable (e.Safe n) := by
  cases e <;> unfold Event.Safe <;> infer_instance

/-- The payload `F0 00 F0 06 00 01 00 02 F0 00`: no top-level descriptor, one
entry with ids (1, 2) and no descriptor. -/
def sampleOneEntry : Section :=
  ⟨[0xF0, 0x00, 0xF0, 0x06, 0x00, 0x01, 0x00, 0x02, 0xF0, 0x00], by decide⟩

/-- A payload whose entries loop length (`FFFF`, low 12 bits 4095) exceeds the 6
bytes that follow it: a 2-byte top-level list, then one entry with ids (1, 2). -/
def sampleClamped : Section :=
  ⟨[0xF0, 0x02, 0xAA, 0xBB, 0xFF, 0xFF, 0x00, 0x01, 0x00, 0x02, 0xF0, 0x00], by decide⟩

/-- A payload whose top-level loop length field is `F123`, followed by `0x123`
bytes of descriptors and an empty entries loop. -/
def sampleHighBits : Section :=
  ⟨0xF1 :: 0x23 :: (List.replicate 0x123 0 ++ [0xF0, 0x00]), by decide⟩

/-- The payload of `sampleHighBits` with the length field `0123` instead. -/
def sampleLowBits : Section :=
  ⟨0x01 :: 0x23 :: (List.replicate 0x123 0 ++ [0xF0, 0x00]), by decide⟩

end ts


/-! ## Part 2. The tree codec: data model

`buildXML` and `fromXML` are in tsNIT.cpp; the classes they use (`xml::Element`,
`DescriptorList`, `TransportStreamId`, the transport map of
`AbstractTransportListTable`) are declared elsewhere and are modelled here. -/

namespace ts

namespace xml

/-- Modelled from the spec: `xml::Element` (tsxmlElement.h, not in this file), the
attributed tree node of the textual form: a name, attributes with their text, and
child elements in order. -/
inductive Element where
  | mk (name : String) (attributes : List (String × String)) (children : List Element)

/-- Name of the element. -/
def Element.name : Element → String
  | .mk n _ _ => n

/-- Attributes of the element, with their text. -/
def Element.attributes : Element → List (String × String)
  | .mk _ a _ => a

/-- Child elements, in document order. -/
def Element.children : Element → List Element
  | .mk _ _ c => c

/-- Text of the attribute `name`, when the element has it. -/
def Element.attribute (e : Element) (name : String) : Option String :=
  e.attributes.lookup name

/-- Modelled from the spec: `hasAttribute(name)`. -/
def Element.hasAttribute (e : Element) (name : String) : Bool :=
  (e.attribute name).isSome

/-- Replacement of the text of an attribute, or addition of the attribute after
the existing ones. -/
def setAttributeText : List (String × String) → String → String → List (String × String)
  | [], n, v => [(n, v)]
  | (n', v') :: rest, n, v =>
    if n == n' then (n, v) :: rest else (n', v') :: setAttributeText rest n v

/-- Modelled from the spec: `setAttribute(name, text)`. -/
def Element.setAttribute (e : Element) (name text : String) : Element :=
  .mk e.name (setAttributeText e.attributes name text) e.children

/-- Modelled from the spec: `addElement`, the new child comes after the existing
children. -/
def Element.addChild (e : Element) (child : Element) : Element :=
  .mk e.name e.attributes (e.children ++ [child])

end xml

/-- Modelled from the spec: a descriptor, "an opaque tagged binary blob". -/
structure Descriptor where
  tag : Nat
  payload : List Byte
  deriving DecidableEq, Repr

/-- Modelled from the spec: `DescriptorList`, an ordered sequence of descriptors. -/
abbrev DescriptorList := List Descriptor

/-- Modelled from the spec: the conversions that the tree codec calls and that are
not in this file: `UString::toInteger` and the boolean parser behind
`getBoolAttribute`, the formatting done by `setIntAttribute` (decimal or
hexadecimal) and `setBoolAttribute`, `Descriptor::fromXML` and
`Descriptor::toXML`. The codec is parametrised by them. -/
structure Conv where
  toInteger : String → Option Int
  toBool : String → Option Bool
  decimal : Int → String
  hexa : Int → String
  boolean : Bool → String
  descFromXML : xml.Element → Option Descriptor
  descToXML : Descriptor → xml.Element

/-- Modelled from the spec: `getIntAttribute(value, name, required, defValue,
minValue, maxValue)`. The result is the returned flag and the new content of
`value`: an absent attribute stores the default and succeeds unless it is
required; a text that is no integer or is out of range fails and leaves `value`
as it was. -/
def xml.Element.getIntAttribute (conv : Conv) (e : xml.Element) (value : Int) (name : String)
    (required : Bool) (defValue minValue maxValue : Int) : Bool × Int :=
  match e.attribute name with
  | none => (!required, defValue)
  | some text =>
    match conv.toInteger text with
    | none => (false, value)
    | some v => if v < minValue ∨ v > maxValue then (false, value) else (true, v)

/-- Modelled from the spec: `getBoolAttribute(value, name, required, defValue)`,
with the same conventions as `getIntAttribute`. -/
def xml.Element.getBoolAttribute (conv : Conv) (e : xml.Element) (value : Bool) (name : String)
    (required : Bool) (defValue : Bool) : Bool × Bool :=
  match e.attribute name with
  | none => (!required, defValue)
  | some text =>
    match conv.toBool text with
    | none => (false, value)
    | some b => (true, b)

/-- Modelled from the spec: `setIntAttribute(name, value, hexa)`. -/
def xml.Element.setIntAttribute (conv : Conv) (e : xml.Element) (name : String) (value : Int)
    (hexa : Bool) : xml.Element :=
  e.setAttribute name (if hexa then conv.hexa value else conv.decimal value)

/-- Modelled from the spec: `setBoolAttribute(name, value)`. -/
def xml.Element.setBoolAttribute (conv : Conv) (e : xml.Element) (name : String)
    (value : Bool) : xml.Element :=
  e.setAttribute name (conv.boolean value)

/-- Modelled from the spec: the work of `DescriptorList::fromXML` on the children
of the parent: a child whose name is one of `allowedOthers` is collected for the
caller, every other child has to be a descriptor. The result is the success
flag, the descriptors found, and the collected children, all in document order. -/
def DescriptorList.fromNodes (conv : Conv) (allowedOthers : List String) :
    List xml.Element → Bool × DescriptorList × List xml.Element
  | [] => (true, [], [])
  | node :: rest =>
    let r := DescriptorList.fromNodes conv allowedOthers rest
    if allowedOthers.contains node.name then (r.1, r.2.1, node :: r.2.2)
    else
      match conv.descFromXML node with
      | some d => (r.1, d :: r.2.1, r.2.2)
      | none => (false, r.2.1, r.2.2)

/-- Modelled from the spec: `DescriptorList::fromXML(duck, others, parent,
allowedOthers)`; the list is replaced by the descriptors of the parent. -/
def DescriptorList.fromXML (conv : Conv) (parent : xml.Element) (allowedOthers : List String) :
    Bool × DescriptorList × List xml.Element :=
  DescriptorList.fromNodes conv allowedOthers parent.children

/-- Modelled from the spec: `DescriptorList::toXML(duck, parent)`, one child per
descriptor, in order, after the existing children. -/
def DescriptorList.toXML (conv : Conv) (descs : DescriptorList) (parent : xml.Element) :
    xml.Element :=
  .mk parent.name parent.attributes (parent.children ++ descs.map conv.descToXML)

/-- Modelled from the spec: `TransportStreamId`, the composite key
(`primary_id`, `secondary_id`); a default-constructed key is (0, 0). -/
structure TransportStreamId where
  transport_stream_id : Int
  original_network_id : Int
  deriving DecidableEq, Repr

/-- Modelled from the spec: the total order of the keys, "primary then
secondary". -/
instance : LT TransportStreamId where
  lt a b := a.transport_stream_id < b.transport_stream_id ∨
    (a.transport_stream_id = b.transport_stream_id ∧
      a.original_network_id < b.original_network_id)

instance (a b : TransportStreamId) : Decidable (a < b) :=
  inferInstanceAs (Decidable (_ ∨ _))

/-- Modelled from the spec: a Sub-Record Map entry (`Transport` of
`AbstractTransportListTable`): a descriptor list and the placement hint. -/
structure Transport where
  descs : DescriptorList
  preferred_section : Int
  deriving DecidableEq, Repr

/-- Modelled from the spec: a new entry has no descriptor and no preferred
section (-1). -/
def Transport.new : Transport := { descs := [], preferred_section := -1 }

/-- Modelled from the spec: the Sub-Record Map (`TransportMap`), "ordered by key":
the entries in increasing key order, at most one per key. -/
abbrev TransportMap := List (TransportStreamId × Transport)

/-- Entry of a key, when the map has one. -/
def TransportMap.find? : TransportMap → TransportStreamId → Option Transport
  | [], _ => none
  | (k', v') :: rest, k => if k = k' then some v' else TransportMap.find? rest k

/-- Modelled from the spec: what `transports[k]` designates; `operator[]` creates
a new entry when the key has none. -/
def TransportMap.at (m : TransportMap) (k : TransportStreamId) : Transport :=
  (m.find? k).getD Transport.new

/-- Modelled from the spec: storing `v` as the entry of `k`, in key order; "a
repeated key overwrites, it does not duplicate". -/
def TransportMap.set : TransportMap → TransportStreamId → Transport → TransportMap
  | [], k, v => [(k, v)]
  | (k', v') :: rest, k, v =>
    if k < k' then (k, v) :: (k', v') :: rest
    else if k = k' then (k, v) :: rest
    else (k', v') :: TransportMap.set rest k v

/-- Modelled from the spec: the table ids of the two variants of the table
(tsTID.h): "self" (actual network) and "other". -/
def TID_NIT_ACT : Nat := 0x40

/-- See `TID_NIT_ACT`. -/
def TID_NIT_OTH : Nat := 0x41

/-- The tree tag of the table (`MY_XML_NAME`, line 38). -/
def MY_XML_NAME : String := "NIT"

/-- The Table Model: the fields of a `ts::NIT` object that the tree codec reads
or writes. `network_id` is the table id extension. -/
structure NIT where
  _table_id : Nat
  _is_valid : Bool
  version : Int
  is_current : Bool
  network_id : Int
  descs : DescriptorList
  transports : TransportMap
  deriving DecidableEq, Repr

namespace NIT

/-- Modelled from the spec: `isActual()` (tsNIT.h). -/
def isActual (self : NIT) : Bool := self._table_id == TID_NIT_ACT

/-- Modelled from the spec: `setActual(is_actual)` (tsNIT.h). -/
def setActual (self : NIT) (is_actual : Bool) : NIT :=
  { self with _table_id := if is_actual then TID_NIT_ACT else TID_NIT_OTH }

/-- Modelled from the spec: `checkXMLName(element)`, the element bears the tree
tag of the table. -/
def checkXMLName (element : xml.Element) : Bool := element.name == MY_XML_NAME

/-! ## Part 2. The tree codec: code -/

/-- `ts::NIT::buildXML` (lines 148-165). -/
def buildXML (conv : Conv) (self : NIT) (root : xml.Element) : xml.Element :=
  let root := root.setIntAttribute conv "version" self.version false
  let root := root.setBoolAttribute conv "current" self.is_current
  let root := root.setIntAttribute conv "network_id" self.network_id true
  let root := root.setBoolAttribute conv "actual" self.isActual
  let root := DescriptorList.toXML conv self.descs root
  self.transports.foldl (fun root it =>
    let e := xml.Element.mk "transport_stream" [] []
    let e := e.setIntAttribute conv "transport_stream_id" it.1.transport_stream_id true
    let e := e.setIntAttribute conv "original_network_id" it.1.original_network_id true
    let e := if it.2.preferred_section ≥ 0 then
        e.setIntAttribute conv "preferred_section" it.2.preferred_section false
      else e
    let e := DescriptorList.toXML conv it.2.descs e
    root.addChild e) root

/-- Lines 180-186 of `fromXML`: the chain of `&&` over the attributes of the
element and its descriptors, evaluated from left to right until the first
failure. The result is the object with `_is_valid` assigned, the local `actual`
and the local `children`. -/
def fromXMLHeader (conv : Conv) (element : xml.Element) (self : NIT) :
    NIT × Bool × List xml.Element :=
  if !checkXMLName element then ({ self with _is_valid := false }, true, [])
  else
    let r1 := element.getIntAttribute conv self.version "version" false 0 0 31
    let self := { self with version := r1.2 }
    if !r1.1 then ({ self with _is_valid := false }, true, [])
    else
      let r2 := element.getBoolAttribute conv self.is_current "current" false true
      let self := { self with is_current := r2.2 }
      if !r2.1 then ({ self with _is_valid := false }, true, [])
      else
        let r3 := element.getIntAttribute conv self.network_id "network_id" true 0 0x0000 0xFFFF
        let self := { self with network_id := r3.2 }
        if !r3.1 then ({ self with _is_valid := false }, true, [])
        else
          let r4 := element.getBoolAttribute conv true "actual" false true
          if !r4.1 then ({ self with _is_valid := false }, r4.2, [])
          else
            let r5 := DescriptorList.fromXML conv element ["transport_stream"]
            ({ self with descs := r5.2.1, _is_valid := r5.1 }, r4.2, r5.2.2)

/-- Body of the `for` loop of `fromXML` (lines 191-201) for one child. -/
def fromXMLChild (conv : Conv) (child : xml.Element) (self : NIT) : NIT :=
  let ts : TransportStreamId := { transport_stream_id := 0, original_network_id := 0 }
  let r1 := child.getIntAttribute conv ts.transport_stream_id "transport_stream_id" true 0
    0x0000 0xFFFF
  let ts := { ts with transport_stream_id := r1.2 }
  -- lines 192-195, from left to right until the first failure
  let r : Bool × TransportStreamId × TransportMap :=
    if !r1.1 then (false, ts, self.transports)
    else
      let r2 := child.getIntAttribute conv ts.original_network_id "original_network_id" true 0
        0x0000 0xFFFF
      let ts := { ts with original_network_id := r2.2 }
      if !r2.1 then (false, ts, self.transports)
      else
        let r3 := DescriptorList.fromXML conv child []
        (r3.1, ts, self.transports.set ts { self.transports.at ts with descs := r3.2.1 })
  let valid := r.1
  let ts := r.2.1
  let transports := r.2.2
  -- lines 196-201
  if valid && child.hasAttribute "preferred_section" then
    let r4 := child.getIntAttribute conv (transports.at ts).preferred_section
      "preferred_section" true 0 0 255
    { self with
      _is_valid := r4.1
      transports := transports.set ts { transports.at ts with preferred_section := r4.2 } }
  else
    { self with
      _is_valid := valid
      transports := transports.set ts { transports.at ts with preferred_section := -1 } }

/-- The `for` loop of `fromXML` (line 190) over the remaining children: it goes
on while `_is_valid` holds. -/
def fromXMLLoop (conv : Conv) : List xml.Element → NIT → NIT
  | [], self => self
  | child :: rest, self =>
    if self._is_valid then fromXMLLoop conv rest (fromXMLChild conv child self) else self

/-- `ts::NIT::fromXML` (lines 172-203). -/
def fromXML (conv : Conv) (element : xml.Element) (self : NIT) : NIT :=
  let self := { self with descs := [], transports := [] }
  let r := fromXMLHeader conv element self
  let self := setActual r.1 r.2.1
  fromXMLLoop conv r.2.2 self

end NIT

end ts

/-! ## Part 2. The tree codec: properties to check -/

namespace ts

/-- The keys of the map are in strictly increasing order. -/
def TransportMap.Sorted (m : TransportMap) : Prop :=
  List.Pairwise (fun a b => a.1 < b.1) m

namespace NIT

/-- The element has no attribute `name`. -/
def Absent (e : xml.Element) (name : String) : Prop := e.attribute name = none

/-- The element has the attribute `name` and its text is an integer of
`[lo, hi]`. -/
def IntAttrIn (conv : Conv) (e : xml.Element) (name : String) (lo hi : Int) : Prop :=
  ∃ text v, e.attribute name = some text ∧ conv.toInteger text = some v ∧ lo ≤ v ∧ v ≤ hi

/-- The element has the attribute `name` and its text is a boolean. -/
def BoolAttr (conv : Conv) (e : xml.Element) (name : String) : Prop :=
  ∃ text b, e.attribute name = some text ∧ conv.toBool text = some b

/-- Validity of a `transport_stream` child: both ids present and in range, a
descriptor list that parses, a `preferred_section` absent or in [0, 255]. -/
def ChildValid (conv : Conv) (c : xml.Element) : Prop :=
  IntAttrIn conv c "transport_stream_id" 0 0xFFFF ∧
  IntAttrIn conv c "original_network_id" 0 0xFFFF ∧
  (∀ n ∈ c.children, conv.descFromXML n ≠ none) ∧
  (Absent c "preferred_section" ∨ IntAttrIn conv c "preferred_section" 0 255)

/-- Validity of a tree for the table. -/
def TreeValid (conv : Conv) (element : xml.Element) : Prop :=
  element.name = MY_XML_NAME ∧
  (Absent element "version" ∨ IntAttrIn conv element "version" 0 31) ∧
  (Absent element "current" ∨ BoolAttr conv element "current") ∧
  IntAttrIn conv element "network_id" 0 0xFFFF ∧
  (Absent element "actual" ∨ BoolAttr conv element "actual") ∧
  (∀ c ∈ element.children, c.name ≠ "transport_stream" → conv.descFromXML c ≠ none) ∧
  (∀ c ∈ element.children, c.name = "transport_stream" → ChildValid conv c)

/-- Integer value of the attribute `name`, 0 when it is absent or no integer. -/
def intAttr (conv : Conv) (e : xml.Element) (name : String) : Int :=
  ((e.attribute name).bind conv.toInteger).getD 0

/-- Key that a `transport_stream` child names. -/
def childKey (conv : Conv) (c : xml.Element) : TransportStreamId :=
  { transport_stream_id := intAttr conv c "transport_stream_id",
    original_network_id := intAttr conv c "original_network_id" }

/-- Entry that a `transport_stream` child describes: its descriptors, and its
`preferred_section`, -1 when the attribute is absent. -/
def childEntry (conv : Conv) (c : xml.Element) : Transport :=
  { descs := c.children.filterMap conv.descFromXML,
    preferred_section :=
      if c.hasAttribute "preferred_section" then intAttr conv c "preferred_section" else -1 }

/-- Boolean value of the attribute `name`, false when it is absent or no
boolean. -/
def boolAttr (conv : Conv) (e : xml.Element) (name : String) : Bool :=
  ((e.attribute name).bind conv.toBool).getD false

/-- Value of an optional integer attribute: the default when it is absent. -/
def optIntAttr (conv : Conv) (e : xml.Element) (name : String) (d : Int) : Int :=
  if e.hasAttribute name then intAttr conv e name else d

/-- Value of an optional boolean attribute: the default when it is absent. -/
def optBoolAttr (conv : Conv) (e : xml.Element) (name : String) (d : Bool) : Bool :=
  if e.hasAttribute name then boolAttr conv e name else d

/-- The `transport_stream` children of an element, in document order. -/
def transportChildren (e : xml.Element) : List xml.Element :=
  e.children.filter (fun c => c.name = "transport_stream")

/-- The other children of an element, in document order. -/
def descriptorChildren (e : xml.Element) : List xml.Element :=
  e.children.filter (fun c => c.name ≠ "transport_stream")

/-- The model that a valid tree describes: attributes with their defaults, the
descriptors of the element, and the entries of its `transport_stream` children
stored one after the other, each at its key. -/
def decoded (conv : Conv) (e : xml.Element) : NIT :=
  { _table_id := if optBoolAttr conv e "actual" true then TID_NIT_ACT else TID_NIT_OTH,
    _is_valid := true,
    version := optIntAttr conv e "version" 0,
    is_current := optBoolAttr conv e "current" true,
    network_id := intAttr conv e "network_id",
    descs := (descriptorChildren e).filterMap conv.descFromXML,
    transports := (transportChildren e).foldl
      (fun m c => m.set (childKey conv c) (childEntry conv c)) [] }

/-- The `transport_stream` child that `buildXML` makes for an entry of the map. -/
def transportElement (conv : Conv) (it : TransportStreamId × Transport) : xml.Element :=
  .mk "transport_stream"
    ([("transport_stream_id", conv.hexa it.1.transport_stream_id),
      ("original_network_id", conv.hexa it.1.original_network_id)] ++
      (if it.2.preferred_section ≥ 0 then
        [("preferred_section", conv.decimal it.2.preferred_section)] else []))
    (it.2.descs.map conv.descToXML)

/-- The descriptor is found again in the node made for it, and this node is not
taken for a `transport_stream` child. -/
def DescriptorRoundTrip (conv : Conv) (d : Descriptor) : Prop :=
  conv.descFromXML (conv.descToXML d) = some d ∧
    (conv.descToXML d).name ≠ "transport_stream"

/-- The conversions are a round trip on what the model holds: each attribute
text written for the model is read back as the value it was written from, and
so is each descriptor ("the descriptor-list tree serialisation is itself a round
trip"). -/
def RoundTripOn (conv : Conv) (M : NIT) : Prop :=
  conv.toInteger (conv.decimal M.version) = some M.version ∧
  conv.toBool (conv.boolean M.is_current) = some M.is_current ∧
  conv.toInteger (conv.hexa M.network_id) = some M.network_id ∧
  conv.toBool (conv.boolean M.isActual) = some M.isActual ∧
  (∀ d ∈ M.descs, DescriptorRoundTrip conv d) ∧
  (∀ it ∈ M.transports,
    conv.toInteger (conv.hexa it.1.transport_stream_id) = some it.1.transport_stream_id ∧
    conv.toInteger (conv.hexa it.1.original_network_id) = some it.1.original_network_id ∧
    (0 ≤ it.2.preferred_section →
      conv.toInteger (conv.decimal it.2.preferred_section) = some it.2.preferred_section) ∧
    (∀ d ∈ it.2.descs, DescriptorRoundTrip conv d))

/-- What the types of the fields guarantee: `network_id` and the ids of the keys
are `uint16_t`, and the map is in key order. -/
def WellTyped (M : NIT) : Prop :=
  0 ≤ M.network_id ∧ M.network_id ≤ 0xFFFF ∧
  (∀ it ∈ M.transports,
    0 ≤ it.1.transport_stream_id ∧ it.1.transport_stream_id ≤ 0xFFFF ∧
    0 ≤ it.1.original_network_id ∧ it.1.original_network_id ≤ 0xFFFF) ∧
  TransportMap.Sorted M.transports

end NIT

end ts

/-! ## Part 2. The tree codec: a concrete set of conversions and sample trees -/

namespace ts

/-- Value of a string of decimal digits, after the digits already read. -/
def decimalValue : List Char → Nat → Option Nat
  | [], acc => some acc
  | c :: cs, acc =>
    if c.isDigit then decimalValue cs (acc * 10 + (c.toNat - 48)) else none

/-- The byte that a `byte` node of `sampleConv` holds. -/
def sampleByte (e : xml.Element) : Option Byte :=
  match e.attribute "value" with
  | none => none
  | some text =>
    match decimalValue text.data 0 with
    | none => none
    | some n => if h : n < 256 then some ⟨n, h⟩ else none

/-- The bytes that the `byte` nodes of `sampleConv` hold. -/
def sampleBytes : List xml.Element → Option (List Byte)
  | [] => some []
  | e :: es =>
    match sampleByte e, sampleBytes es with
    | some b, some bs => some (b :: bs)
    | _, _ => none

/-- A concrete set of conversions, for the examples: integers are written in
decimal, booleans as `true` and `false`, and a descriptor as a
`generic_descriptor` node with its tag and one `byte` child per payload byte. -/
def sampleConv : Conv where
  toInteger text :=
    if text.data = [] then none else (decimalValue text.data 0).map Int.ofNat
  toBool text :=
    if text = "true" then some true else if text = "false" then some false else none
  decimal n := Nat.repr n.toNat
  hexa n := Nat.repr n.toNat
  boolean b := if b then "true" else "false"
  descFromXML e :=
    if e.name = "generic_descriptor" then
      match e.attribute "tag", sampleBytes e.children with
      | some text, some bs => (decimalValue text.data 0).map (fun t => ⟨t, bs⟩)
      | _, _ => none
    else none
  descToXML d :=
    .mk "generic_descriptor" [("tag", Nat.repr d.tag)]
      (d.payload.map fun b => .mk "byte" [("value", Nat.repr b.val)] [])

/-- A table model before decoding: nothing in it. -/
def NIT.blank : NIT :=
  { _table_id := TID_NIT_ACT, _is_valid := false, version := 0, is_current := false,
    network_id := 0, descs := [], transports := [] }

/-- The tree `<NIT network_id="1"><transport_stream/></NIT>`: its only
`transport_stream` child has none of the required attributes. -/
def sampleTreeMissingIds : xml.Element :=
  .mk "NIT" [("network_id", "1")] [.mk "transport_stream" [] []]

/-- The tree `<NIT network_id="1"><transport_stream transport_stream_id="0"
original_network_id="0" preferred_section="5"/><transport_stream/></NIT>`: a valid
child with key (0, 0), then a child without ids. -/
def sampleTreeValidThenMissingIds : xml.Element :=
  .mk "NIT" [("network_id", "1")]
    [.mk "transport_stream"
        [("transport_stream_id", "0"), ("original_network_id", "0"),
          ("preferred_section", "5")] [],
      .mk "transport_stream" [] []]

/-- A table model of the "other" variant, with one top-level descriptor and two
entries. -/
def sampleModel : NIT :=
  { _table_id := TID_NIT_OTH, _is_valid := true, version := 5, is_current := false,
    network_id := 0x1234,
    descs := [⟨0x40, [1, 2]⟩],
    transports :=
      [(⟨1, 2⟩, { descs := [⟨0x41, [3]⟩], preferred_section := -1 }),
       (⟨1, 3⟩, { descs := [], preferred_section := 7 })] }

/-- A valid `transport_stream` child with key (1, 2). -/
def sampleChildA : xml.Element :=
  .mk "transport_stream"
    [("transport_stream_id", "1"), ("original_network_id", "2"), ("preferred_section", "5")]
    [.mk "generic_descriptor" [("tag", "65")] [.mk "byte" [("value", "3")] []]]

/-- A `transport_stream` child whose `transport_stream_id` is out of range. -/
def sampleChildBad : xml.Element :=
  .mk "transport_stream" [("transport_stream_id", "70000"), ("original_network_id", "2")] []

/-- A valid `transport_stream` child with key (3, 4). -/
def sampleChildC : xml.Element :=
  .mk "transport_stream" [("transport_stream_id", "3"), ("original_network_id", "4")] []

/-- A valid `transport_stream` child with key (1, 2) again, without
`preferred_section` and with another descriptor. -/
def sampleChildA2 : xml.Element :=
  .mk "transport_stream" [("transport_stream_id", "1"), ("original_network_id", "2")]
    [.mk "generic_descriptor" [("tag", "66")] []]

/-- A valid tree without `version`, `current` and `actual`, whose children name
the key (1, 2) twice. -/
def sampleTreeDuplicate : xml.Element :=
  .mk "NIT" [("network_id", "1")] [sampleChildA, sampleChildC, sampleChildA2]

end ts

/-! ## Part 3. What a trace of the walk reports -/

namespace ts

/-- The entries that a trace reports: each "Transport Stream Id" line with the
ids it prints and the descriptor region (offset, length) displayed right after
it. -/
def reportedEntries : List Event → List (Nat × Nat × Nat × Nat)
  | [] => []
  | e :: rest =>
    match e, rest with
    | .transport tsid nwid, .descriptorList off len :: _ =>
      (tsid, nwid, off, len) :: reportedEntries rest
    | _, _ => reportedEntries rest

/-- The top-level descriptor region (offset, length) that a trace displays, if
any: the descriptor list displayed before the loop is entered. -/
def topRegion : List Event → Option (Nat × Nat)
  | [] => none
  | .descriptorList off len :: _ => some (off, len)
  | .whileTest _ _ _ :: _ => none
  | _ :: rest => topRegion rest

/-- Number of bytes of the top-level descriptor list that a trace displays. -/
def topBytes (t : List Event) : Nat :=
  match topRegion t with
  | some r => r.2
  | none => 0

/-- Number of 16-bit fields that a trace reads before the loop is entered: the
loop length fields. -/
def outerFields : List Event → Nat
  | [] => 0
  | .whileTest _ _ _ :: _ => 0
  | .getUInt16 _ _ :: rest => 1 + outerFields rest
  | _ :: rest => outerFields rest

/-- Number of bytes of the entries that a trace reports: 6 bytes of header and
the descriptor bytes, for each entry. -/
def entryBytes (t : List Event) : Nat :=
  ((reportedEntries t).map (fun e => 6 + e.2.2.2)).sum

/-- The bytes of a payload in the region (offset, length). -/
def region (p : List Byte) (off len : Nat) : List Byte :=
  (p.drop off).take len

/-- The payload `00 00`: a top-level loop length of zero and nothing else. -/
def sampleZero : Section := ⟨[0x00, 0x00], by decide⟩

/-- A payload whose entries region (`F0 09`: 9 bytes) holds one entry of 6 bytes
and 3 more bytes, too few for another entry. -/
def sampleFragment : Section :=
  ⟨[0xF0, 0x00, 0xF0, 0x09, 0x00, 0x01, 0x00, 0x02, 0xF0, 0x00, 0xAA, 0xBB, 0xCC], by decide⟩

end ts

/-! ## Part 3. The layout of a well-formed payload -/

namespace ts

/-- The two bytes of a 16-bit value, most significant first. -/
def be16 (x : Nat) : List Byte :=
  [⟨x / 256 % 256, Nat.mod_lt _ (by decide)⟩, ⟨x % 256, Nat.mod_lt _ (by decide)⟩]

/-- A loop length field: the reserved high 4 bits `r` and the 12-bit length `n`. -/
def lengthField (r n : Nat) : List Byte := be16 (r % 16 * 4096 + n % 4096)

/-- An entry of a well-formed payload: two ids, the reserved bits of its length
field, and the bytes of its descriptor list. -/
structure EntryLayout where
  id1 : Nat
  id2 : Nat
  reserved : Nat
  descs : List Byte

/-- The bytes of an entry: `[id1] [id2] [len(descs)] descs`. -/
def EntryLayout.bytes (e : EntryLayout) : List Byte :=
  be16 e.id1 ++ (be16 e.id2 ++ (lengthField e.reserved e.descs.length ++ e.descs))

/-- The bytes of a sequence of entries. -/
def entriesBytes : List EntryLayout → List Byte
  | [] => []
  | e :: es => e.bytes ++ entriesBytes es

/-- The size of a sequence of entries: 6 bytes of header and the descriptor
bytes, for each entry. -/
def entriesSize : List EntryLayout → Nat
  | [] => 0
  | e :: es => 6 + e.descs.length + entriesSize es

/-- The big-endian layout `[len(t)] t [size of the entries] entries`. -/
def sectionLayout (r₁ : Nat) (t : List Byte) (r₂ : Nat) (es : List EntryLayout) : List Byte :=
  lengthField r₁ t.length ++ (t ++ (lengthField r₂ (entriesSize es) ++ entriesBytes es))

end ts

/-! ## Part 2. The tree codec: table ids -/

namespace ts

namespace NIT

/-- `ts::NIT::isValidTableId` (lines 82-85). -/
def isValidTableId (tid : Nat) : Bool := tid == TID_NIT_ACT || tid == TID_NIT_OTH

/-- The table id that the constructor `ts::NIT::NIT(is_actual, vers, cur, id)`
gives to its base class (line 51): `uint8_t(is_actual ? TID_NIT_ACT : TID_NIT_OTH)`. -/
def constructorTableId (is_actual : Bool) : Nat :=
  (if is_actual then TID_NIT_ACT else TID_NIT_OTH) % 256

/-- The table ids under which the table is registered (`TS_REGISTER_TABLE`,
line 43). -/
def registeredTableIds : List Nat := [TID_NIT_ACT, TID_NIT_OTH]

/-- A tree with all the attributes of the table, of the "other" variant, with
one descriptor and the entries of keys (1, 2) and (3, 4). -/
def sampleTreeFull : xml.Element :=
  .mk "NIT" [("version", "31"), ("current", "false"), ("network_id", "65535"),
      ("actual", "false")]
    [.mk "generic_descriptor" [("tag", "64")] [], sampleChildA, sampleChildC]

/-- A table model with content of its own, to be decoded over. -/
def sampleModelBefore : NIT :=
  { _table_id := TID_NIT_ACT, _is_valid := true, version := 9, is_current := true,
    network_id := 77, descs := [⟨0x4A, [9]⟩],
    transports := [(⟨8, 8⟩, { descs := [⟨0x4B, []⟩], preferred_section := 3 })] }

end NIT

end ts

/-! ## Theorems: the section walk -/

namespace ts
namespace NIT

theorem subSizeT_eq (a b : Nat) (hb : b ≤ a) (ha : a < SIZE_T_MOD) : subSizeT a b = a - b := by
  unfold subSizeT
  have : a + SIZE_T_MOD - b = (a - b) + SIZE_T_MOD := by omega
  rw [this, Nat.add_mod_right, Nat.mod_eq_of_lt (by omega)]

theorem land_0FFF (x : Nat) : x &&& 0x0FFF = x % 4096 :=
  Nat.and_pow_two_sub_one_eq_mod x 12

theorem clamp_eq_min (x y : Nat) : (if x > y then y else x) = min x y := by
  split <;> omega

theorem transportLoop_lt (p : List Byte) (fuel d s l : Nat) (h : l < 6) :
    transportLoop p (fuel + 1) d s l = some ([Event.whileTest d s l], d, s) := by
  simp only [transportLoop]
  rw [if_neg (by omega)]

theorem transportLoop_ge (p : List Byte) (fuel d s l : Nat) (h : 6 ≤ l) (hls : l ≤ s)
    (hs : s < SIZE_T_MOD) :
    transportLoop p (fuel + 1) d s l =
      match transportLoop p fuel (d + 6 + entryLength p d l) (s - 6 - entryLength p d l)
          (l - 6 - entryLength p d l) with
      | none => none
      | some (t, d', s') => some (entryEvents p d s l ++ t, d', s') := by
  have h1 : subSizeT s 6 = s - 6 := subSizeT_eq s 6 (by omega) hs
  have h2 : subSizeT l 6 = l - 6 := subSizeT_eq l 6 h (by omega)
  have hlen : entryLength p d l ≤ l - 6 := Nat.min_le_right _ _
  have h3 : subSizeT (s - 6) (entryLength p d l) = s - 6 - entryLength p d l :=
    subSizeT_eq _ _ (by omega) (by omega)
  have h4 : subSizeT (l - 6) (entryLength p d l) = l - 6 - entryLength p d l :=
    subSizeT_eq _ _ hlen (by omega)
  simp only [transportLoop]
  rw [if_pos h]
  simp only [h1, h2, land_0FFF, clamp_eq_min]
  change (match transportLoop p fuel (d + 6 + entryLength p d l)
      (subSizeT (s - 6) (entryLength p d l)) (subSizeT (l - 6) (entryLength p d l)) with
    | none => none
    | some (t, d', s') => some (entryEvents p d s l ++ t, d', s')) = _
  rw [h3, h4]

theorem transportLoop_run (p : List Byte) :
    ∀ (fuel d s l : Nat), l ≤ s → s < SIZE_T_MOD → l < fuel →
      ∃ t d' s', transportLoop p fuel d s l = some (t, d', s') ∧ LoopRun p d s l t d' s' := by
  intro fuel
  induction fuel with
  | zero => intro d s l _ _ h; omega
  | succ fuel ih =>
    intro d s l hls hs hf
    by_cases h6 : 6 ≤ l
    · have hlen : entryLength p d l ≤ l - 6 := Nat.min_le_right _ _
      obtain ⟨t, d', s', ht, hrun⟩ := ih (d + 6 + entryLength p d l) (s - 6 - entryLength p d l)
        (l - 6 - entryLength p d l) (by omega) (by omega) (by omega)
      refine ⟨entryEvents p d s l ++ t, d', s', ?_, LoopRun.iter d s l t d' s' h6 hrun⟩
      rw [transportLoop_ge p fuel d s l h6 hls hs, ht]
    · exact ⟨_, _, _, transportLoop_lt p fuel d s l (by omega), LoopRun.done d s l (by omega)⟩

theorem DisplaySection_short (sec : Section) (h : sec.payloadSize < 2) :
    DisplaySection sec = some [Event.extraData 0 sec.payloadSize] := by
  unfold DisplaySection
  simp only []
  rw [if_neg (by omega)]

theorem DisplaySection_noEntries (sec : Section) (h : 2 ≤ sec.payloadSize)
    (h2 : sec.payloadSize - 2 - topLength sec < 2) :
    DisplaySection sec = some (topEvents sec ++
      [Event.extraData (2 + topLength sec) (sec.payloadSize - 2 - topLength sec)]) := by
  have hf : sec.payloadSize < SIZE_T_MOD := sec.fits
  have h1 : subSizeT sec.payloadSize 2 = sec.payloadSize - 2 := subSizeT_eq _ _ h hf
  have hle : topLength sec ≤ sec.payloadSize - 2 := Nat.min_le_right _ _
  have h3 : subSizeT (sec.payloadSize - 2) (topLength sec) = sec.payloadSize - 2 - topLength sec :=
    subSizeT_eq _ _ hle (by omega)
  unfold DisplaySection
  simp only []
  rw [if_pos h]
  simp only [h1, land_0FFF, clamp_eq_min, Nat.zero_add]
  change (if subSizeT (sec.payloadSize - 2) (topLength sec) ≥ 2 then _ else _) = _
  rw [h3, if_neg (by omega)]
  change some (([Event.getUInt16 0 true, Event.decSize sec.payloadSize 2] ++
    (if topLength sec > 0 then [Event.descriptorList 2 (topLength sec)] else []) ++
    [Event.decSize (sec.payloadSize - 2) (topLength sec)]) ++
    [Event.extraData (2 + topLength sec) (subSizeT (sec.payloadSize - 2) (topLength sec))]) = _
  rw [h3]
  rfl

theorem DisplaySection_entries (sec : Section) (h : 2 ≤ sec.payloadSize)
    (h2 : 2 ≤ sec.payloadSize - 2 - topLength sec) :
    ∃ t d s, LoopRun sec.payload (2 + topLength sec + 2)
        (sec.payloadSize - 2 - topLength sec - 2) (entriesLength sec) t d s ∧
      DisplaySection sec = some (topEvents sec ++
        [Event.getUInt16 (2 + topLength sec) true,
         Event.decSize (sec.payloadSize - 2 - topLength sec) 2] ++ t ++
        [Event.extraData d s]) := by
  have hf : sec.payloadSize < SIZE_T_MOD := sec.fits
  have h1 : subSizeT sec.payloadSize 2 = sec.payloadSize - 2 := subSizeT_eq _ _ h hf
  have hle : topLength sec ≤ sec.payloadSize - 2 := Nat.min_le_right _ _
  have h3 : subSizeT (sec.payloadSize - 2) (topLength sec) = sec.payloadSize - 2 - topLength sec :=
    subSizeT_eq _ _ hle (by omega)
  have h4 : subSizeT (sec.payloadSize - 2 - topLength sec) 2 =
      sec.payloadSize - 2 - topLength sec - 2 := subSizeT_eq _ _ h2 (by omega)
  have hle2 : entriesLength sec ≤ sec.payloadSize - 2 - topLength sec - 2 := Nat.min_le_right _ _
  obtain ⟨t, d, s, ht, hrun⟩ := transportLoop_run sec.payload (entriesLength sec + 1)
    (2 + topLength sec + 2) (sec.payloadSize - 2 - topLength sec - 2) (entriesLength sec)
    hle2 (by omega) (by omega)
  refine ⟨t, d, s, hrun, ?_⟩
  unfold DisplaySection
  simp only []
  rw [if_pos h]
  simp only [h1, land_0FFF, clamp_eq_min, Nat.zero_add]
  change (if subSizeT (sec.payloadSize - 2) (topLength sec) ≥ 2 then _ else _) = _
  rw [h3, if_pos h2]
  change (match transportLoop sec.payload
      (min (GetUInt16 sec.payload (2 + topLength sec) % 4096)
        (subSizeT (subSizeT (sec.payloadSize - 2) (topLength sec)) 2) + 1)
      (2 + topLength sec + 2) (subSizeT (subSizeT (sec.payloadSize - 2) (topLength sec)) 2)
      (min (GetUInt16 sec.payload (2 + topLength sec) % 4096)
        (subSizeT (subSizeT (sec.payloadSize - 2) (topLength sec)) 2)) with
    | none => none
    | some (t, d, s) => some (([Event.getUInt16 0 true, Event.decSize sec.payloadSize 2] ++
        (if topLength sec > 0 then [Event.descriptorList 2 (topLength sec)] else []) ++
        [Event.decSize (sec.payloadSize - 2) (topLength sec)]) ++
        [Event.getUInt16 (2 + topLength sec) true,
          Event.decSize (subSizeT (sec.payloadSize - 2) (topLength sec)) 2] ++ t ++
        [Event.extraData d s])) = _
  rw [h3, h4]
  change (match transportLoop sec.payload (entriesLength sec + 1) (2 + topLength sec + 2)
      (sec.payloadSize - 2 - topLength sec - 2) (entriesLength sec) with
    | none => none
    | some (t, d, s) => some (topEvents sec ++
        [Event.getUInt16 (2 + topLength sec) true,
          Event.decSize (sec.payloadSize - 2 - topLength sec) 2] ++ t ++
        [Event.extraData d s])) = _
  rw [ht]

theorem LoopRun.head {p : List Byte} {d s l : Nat} {t : List Event} {d' s' : Nat}
    (run : LoopRun p d s l t d' s') : ∃ t', t = Event.whileTest d s l :: t' := by
  cases run with
  | done => exact ⟨[], rfl⟩
  | iter _ _ _ t₂ _ _ _ _ => exact ⟨_, rfl⟩

theorem LoopRun.safe {p : List Byte} {n d s l : Nat} {t : List Event} {d' s' : Nat}
    (run : LoopRun p d s l t d' s') (hls : l ≤ s) (hn : d + s = n) :
    (∀ e ∈ t, e.Safe n) ∧ d' + s' = n := by
  induction run with
  | done d s l h =>
    refine ⟨?_, hn⟩
    intro e he
    simp only [List.mem_singleton] at he
    subst he
    exact ⟨hls, by omega⟩
  | iter d s l t d' s' h rest ih =>
    have hlen : entryLength p d l ≤ l - 6 := Nat.min_le_right _ _
    obtain ⟨ih1, ih2⟩ := ih (by omega) (by omega)
    refine ⟨?_, ih2⟩
    intro e he
    rw [List.mem_append] at he
    rcases he with he | he
    · simp only [entryEvents, List.mem_cons, List.mem_singleton, List.not_mem_nil, or_false] at he
      rcases he with he | he | he | he | he | he | he | he | he | he <;> subst he <;>
        simp only [Event.Safe] <;> omega
    · exact ih1 e he

theorem LoopRun.steps {p : List Byte} {d s l : Nat} {t : List Event} {d' s' : Nat}
    (run : LoopRun p d s l t d' s') :
    ∀ dd ss ll post, (Event.whileTest dd ss ll :: post) <:+ (t ++ [Event.extraData d' s']) →
      (ll < 6 → post = [Event.extraData dd ss]) ∧
      (6 ≤ ll → ∃ post', post = (entryEvents p dd ss ll).tail ++
        Event.whileTest (dd + 6 + entryLength p dd ll) (ss - 6 - entryLength p dd ll)
          (ll - 6 - entryLength p dd ll) :: post') := by
  induction run with
  | done d s l h =>
    intro dd ss ll post hsuf
    simp [List.suffix_cons_iff] at hsuf
    obtain ⟨⟨rfl, rfl, rfl⟩, rfl⟩ := hsuf
    exact ⟨fun _ => rfl, fun h6 => by omega⟩
  | iter d s l t d' s' h rest ih =>
    intro dd ss ll post hsuf
    obtain ⟨t', ht'⟩ := rest.head
    simp only [entryEvents, List.cons_append, List.nil_append, List.suffix_cons_iff] at hsuf
    rcases hsuf with hsuf | hsuf | hsuf | hsuf | hsuf | hsuf | hsuf | hsuf | hsuf | hsuf | hsuf
    · simp only [List.cons.injEq, Event.whileTest.injEq] at hsuf
      obtain ⟨⟨rfl, rfl, rfl⟩, rfl⟩ := hsuf
      refine ⟨fun h6 => by omega, fun _ => ⟨t' ++ [Event.extraData d' s'], ?_⟩⟩
      simp [entryEvents, ht']
    all_goals first
      | exact ih dd ss ll post hsuf
      | (simp at hsuf)

/-- A suffix that starts with an evaluation of the loop condition lies after any
prefix that holds no such evaluation. -/
theorem whileTest_suffix_prefix (pre t : List Event) (dd ss ll : Nat)
    (post : List Event)
    (hpre : ∀ e ∈ pre, ∀ a b c, e ≠ Event.whileTest a b c)
    (h : (Event.whileTest dd ss ll :: post) <:+ (pre ++ t)) :
    (Event.whileTest dd ss ll :: post) <:+ t := by
  induction pre with
  | nil => simpa using h
  | cons x xs ih =>
    rw [List.cons_append, List.suffix_cons_iff] at h
    rcases h with h | h
    · exfalso
      simp only [List.cons.injEq] at h
      exact hpre x (List.mem_cons_self _ _) dd ss ll h.1.symm
    · exact ih (fun e he => hpre e (List.mem_cons_of_mem _ he)) h

theorem topEvents_safe (sec : Section) (h : 2 ≤ sec.payloadSize) :
    ∀ e ∈ topEvents sec, e.Safe sec.payload.length := by
  have hle : topLength sec ≤ sec.payloadSize - 2 := Nat.min_le_right _ _
  have hn : sec.payloadSize = sec.payload.length := rfl
  intro e he
  simp only [topEvents, List.mem_append, List.mem_cons, List.mem_singleton,
    List.not_mem_nil, or_false] at he
  rcases he with (he | he) | he
  · rcases he with he | he <;> subst he <;> simp only [Event.Safe] <;> omega
  · split at he
    · simp only [List.mem_singleton] at he
      subst he
      simp only [Event.Safe]
      omega
    · simp at he
  · subst he
    simp only [Event.Safe]
    omega

/-- C1. Clamping safety of the walk: for every section, the walk returns, every
16-bit read lies inside the payload, every descriptor region handed to the
display (top-level list and each entry's list) and the extra-data region lie
inside the payload, no decrement of `size` or `loop_length` goes below zero, and
at every evaluation of the loop condition `loop_length <= size`. -/
theorem DisplaySection_clamping_safety (sec : Section) :
    ∃ t, DisplaySection sec = some t ∧ ∀ e ∈ t, e.Safe sec.payload.length := by
  have hn : sec.payloadSize = sec.payload.length := rfl
  by_cases h : 2 ≤ sec.payloadSize
  · have hle : topLength sec ≤ sec.payloadSize - 2 := Nat.min_le_right _ _
    by_cases h2 : 2 ≤ sec.payloadSize - 2 - topLength sec
    · obtain ⟨t, d, s, hrun, heq⟩ := DisplaySection_entries sec h h2
      have hle2 : entriesLength sec ≤ sec.payloadSize - 2 - topLength sec - 2 :=
        Nat.min_le_right _ _
      obtain ⟨hs1, hs2⟩ := hrun.safe (n := sec.payload.length) hle2 (by omega)
      refine ⟨_, heq, ?_⟩
      intro e he
      simp only [List.mem_append, List.mem_cons, List.mem_singleton, List.not_mem_nil,
        or_false] at he
      rcases he with ((he | he) | he) | he
      · exact topEvents_safe sec h e he
      · rcases he with he | he <;> subst he <;> simp only [Event.Safe] <;> omega
      · exact hs1 e he
      · subst he
        simp only [Event.Safe]
        omega
    · refine ⟨_, DisplaySection_noEntries sec h (by omega), ?_⟩
      intro e he
      simp only [List.mem_append, List.mem_singleton] at he
      rcases he with he | he
      · exact topEvents_safe sec h e he
      · subst he
        simp only [Event.Safe]
        omega
  · refine ⟨_, DisplaySection_short sec (by omega), ?_⟩
    intro e he
    simp only [List.mem_singleton] at he
    subst he
    simp only [Event.Safe]
    omega

/-- C2. Clamping of the two outer loop lengths: for every section whose payload
has at least 2 bytes, the walk starts by reading the field at offset 0 and the
number `a` of bytes it then takes as the top-level descriptor list is the
minimum of the low 12 bits of that big-endian field and `payloadSize - 2`; when
at least 2 bytes remain after the list, it reads the field at offset `2 + a`
and enters the loop with an entries region of `b` bytes, the minimum of the low
12 bits of that field and the number of bytes that follow the field. -/
theorem DisplaySection_outer_lengths (sec : Section) (h : 2 ≤ sec.payloadSize) :
    ∀ a b : Nat,
      a = min (((sec.payload.getD 0 0).val * 256 + (sec.payload.getD 1 0).val) % 4096)
            (sec.payloadSize - 2) →
      b = min (((sec.payload.getD (2 + a) 0).val * 256 +
              (sec.payload.getD (2 + a + 1) 0).val) % 4096)
            (sec.payloadSize - 2 - a - 2) →
      ∃ rest, DisplaySection sec = some
          ([Event.getUInt16 0 true, Event.decSize sec.payloadSize 2] ++
            (if 0 < a then [Event.descriptorList 2 a] else []) ++
            Event.decSize (sec.payloadSize - 2) a :: rest) ∧
        (2 ≤ sec.payloadSize - 2 - a →
          ∃ rest', rest = Event.getUInt16 (2 + a) true ::
            Event.decSize (sec.payloadSize - 2 - a) 2 ::
            Event.whileTest (2 + a + 2) (sec.payloadSize - 2 - a - 2) b :: rest') := by
  intro a b ha hb
  have ha' : a = topLength sec := ha
  subst ha'
  have hb' : b = entriesLength sec := hb
  subst hb'
  by_cases h2 : 2 ≤ sec.payloadSize - 2 - topLength sec
  · obtain ⟨t, d, s, hrun, heq⟩ := DisplaySection_entries sec h h2
    obtain ⟨t', rfl⟩ := hrun.head
    refine ⟨_, ?_, fun _ => ⟨t' ++ [Event.extraData d s], rfl⟩⟩
    rw [heq]
    simp [topEvents]
  · refine ⟨[Event.extraData (2 + topLength sec) (sec.payloadSize - 2 - topLength sec)], ?_,
      fun h3 => absurd h3 h2⟩
    rw [DisplaySection_noEntries sec h (by omega)]
    simp [topEvents]

theorem topEvents_not_whileTest (sec : Section) :
    ∀ e ∈ topEvents sec, ∀ a b c, e ≠ Event.whileTest a b c := by
  intro e he a b c heq
  subst heq
  unfold topEvents at he
  split at he <;> simp at he

theorem mem_entryEvents_read (p : List Byte) (d s l o : Nat) (m : Bool)
    (h : Event.getUInt16 o m ∈ entryEvents p d s l) :
    (o = d ∧ m = false) ∨ (o = d + 2 ∧ m = false) ∨ (o = d + 4 ∧ m = true) := by
  simpa [entryEvents] using h

theorem LoopRun.reads_ge {p : List Byte} {d s l : Nat} {t : List Event} {d' s' : Nat}
    (run : LoopRun p d s l t d' s') :
    ∀ o m, Event.getUInt16 o m ∈ t → d ≤ o := by
  induction run with
  | done d s l h => intro o m hm; simp at hm
  | iter d s l t d' s' h rest ih =>
    intro o m hm
    rw [List.mem_append] at hm
    rcases hm with hm | hm
    · rcases mem_entryEvents_read p d s l o m hm with h | h | h <;> omega
    · have := ih o m hm
      omega

theorem LoopRun.reads_apart {p : List Byte} {d s l : Nat} {t : List Event} {d' s' : Nat}
    (run : LoopRun p d s l t d' s') :
    ∀ o m o' m', Event.getUInt16 o m ∈ t → Event.getUInt16 o' m' ∈ t →
      (o = o' ∧ m = m') ∨ o + 2 ≤ o' ∨ o' + 2 ≤ o := by
  induction run with
  | done d s l h => intro o m o' m' hm; simp at hm
  | iter d s l t d' s' h rest ih =>
    intro o m o' m' hm hm'
    rw [List.mem_append] at hm hm'
    rcases hm with hm | hm <;> rcases hm' with hm' | hm'
    · rcases mem_entryEvents_read p d s l o m hm with h | h | h <;>
        rcases mem_entryEvents_read p d s l o' m' hm' with h' | h' | h' <;>
        obtain ⟨rfl, rfl⟩ := h <;> obtain ⟨rfl, rfl⟩ := h' <;> simp
    · have h1 := rest.reads_ge o' m' hm'
      rcases mem_entryEvents_read p d s l o m hm with h | h | h <;> omega
    · have h1 := rest.reads_ge o m hm
      rcases mem_entryEvents_read p d s l o' m' hm' with h | h | h <;> omega
    · exact ih o m o' m' hm hm'

theorem LoopRun.congr {p q : List Byte} {d s l : Nat} {t : List Event} {d' s' : Nat}
    (run : LoopRun p d s l t d' s')
    (hsame : ∀ o m, Event.getUInt16 o m ∈ t → SameField p q o m) :
    LoopRun q d s l t d' s' := by
  induction run with
  | done d s l h => exact LoopRun.done d s l h
  | iter d s l t d' s' h rest ih =>
    have h0 : GetUInt16 p d = GetUInt16 q d := by
      have := hsame d false (by simp [entryEvents])
      simpa [SameField] using this
    have h2 : GetUInt16 p (d + 2) = GetUInt16 q (d + 2) := by
      have := hsame (d + 2) false (by simp [entryEvents])
      simpa [SameField] using this
    have h4 : GetUInt16 p (d + 4) % 4096 = GetUInt16 q (d + 4) % 4096 := by
      have := hsame (d + 4) true (by simp [entryEvents])
      simpa [SameField] using this
    have hlen : entryLength p d l = entryLength q d l := by
      unfold entryLength
      rw [h4]
    have hev : entryEvents p d s l = entryEvents q d s l := by
      unfold entryEvents
      rw [h0, h2, hlen]
    rw [hev]
    rw [hlen] at rest ih
    exact LoopRun.iter d s l t d' s' h
      (ih (fun o m hm => hsame o m (List.mem_append_right _ hm)))

theorem LoopRun.unique {p : List Byte} {d s l : Nat} {t : List Event} {d' s' : Nat}
    (run : LoopRun p d s l t d' s') :
    ∀ t₂ d₂ s₂, LoopRun p d s l t₂ d₂ s₂ → t₂ = t ∧ d₂ = d' ∧ s₂ = s' := by
  induction run with
  | done d s l h =>
    intro t₂ d₂ s₂ run₂
    cases run₂ with
    | done => exact ⟨rfl, rfl, rfl⟩
    | iter _ _ _ _ _ _ h' _ => omega
  | iter d s l t d' s' h rest ih =>
    intro t₂ d₂ s₂ run₂
    cases run₂ with
    | done _ _ _ h' => omega
    | iter _ _ _ t₃ _ _ h' rest₂ =>
      obtain ⟨rfl, rfl, rfl⟩ := ih _ _ _ rest₂
      exact ⟨rfl, rfl, rfl⟩

theorem mem_topEvents_read (sec : Section) (o : Nat) (m : Bool)
    (h : Event.getUInt16 o m ∈ topEvents sec) : o = 0 ∧ m = true := by
  unfold topEvents at h
  split at h <;> simpa using h

theorem DisplaySection_reads_apart (sec : Section) (t : List Event)
    (ht : DisplaySection sec = some t) :
    ∀ o m o' m', Event.getUInt16 o m ∈ t → Event.getUInt16 o' m' ∈ t →
      (o = o' ∧ m = m') ∨ o + 2 ≤ o' ∨ o' + 2 ≤ o := by
  by_cases h : 2 ≤ sec.payloadSize
  · by_cases h2 : 2 ≤ sec.payloadSize - 2 - topLength sec
    · obtain ⟨tl, d, s, hrun, heq⟩ := DisplaySection_entries sec h h2
      rw [heq] at ht
      cases ht
      have key : ∀ o m, Event.getUInt16 o m ∈ topEvents sec ++
          [Event.getUInt16 (2 + topLength sec) true,
            Event.decSize (sec.payloadSize - 2 - topLength sec) 2] ++ tl ++
          [Event.extraData d s] →
          (o = 0 ∧ m = true) ∨ (o = 2 + topLength sec ∧ m = true) ∨
            (Event.getUInt16 o m ∈ tl) := by
        intro o m hm
        simp only [List.mem_append, List.mem_cons, List.mem_singleton, List.not_mem_nil,
          or_false, Event.getUInt16.injEq] at hm
        rcases hm with ((hm | hm) | hm) | hm
        · exact Or.inl (mem_topEvents_read sec o m hm)
        · rcases hm with hm | hm
          · exact Or.inr (Or.inl hm)
          · cases hm
        · exact Or.inr (Or.inr hm)
        · cases hm
      intro o m o' m' hm hm'
      rcases key o m hm with h1 | h1 | h1 <;> rcases key o' m' hm' with h1' | h1' | h1'
      · obtain ⟨rfl, rfl⟩ := h1; obtain ⟨rfl, rfl⟩ := h1'; simp
      · omega
      · have := hrun.reads_ge o' m' h1'; omega
      · omega
      · obtain ⟨rfl, rfl⟩ := h1; obtain ⟨rfl, rfl⟩ := h1'; simp
      · have := hrun.reads_ge o' m' h1'; omega
      · have := hrun.reads_ge o m h1; omega
      · have := hrun.reads_ge o m h1; omega
      · exact hrun.reads_apart o m o' m' h1 h1'
    · rw [DisplaySection_noEntries sec h (by omega)] at ht
      cases ht
      intro o m o' m' hm hm'
      simp only [List.mem_append, List.mem_singleton] at hm hm'
      rcases hm with hm | hm
      · rcases hm' with hm' | hm'
        · obtain ⟨rfl, rfl⟩ := mem_topEvents_read sec o m hm
          obtain ⟨rfl, rfl⟩ := mem_topEvents_read sec o' m' hm'
          simp
        · cases hm'
      · cases hm
  · rw [DisplaySection_short sec (by omega)] at ht
    cases ht
    intro o m o' m' hm
    simp at hm

theorem DisplaySection_congr (sec₁ sec₂ : Section) (t : List Event)
    (hlen : sec₁.payload.length = sec₂.payload.length)
    (ht : DisplaySection sec₁ = some t)
    (hsame : ∀ o m, Event.getUInt16 o m ∈ t → SameField sec₁.payload sec₂.payload o m) :
    DisplaySection sec₂ = some t := by
  have hsz : sec₂.payloadSize = sec₁.payloadSize := hlen.symm
  by_cases h : 2 ≤ sec₁.payloadSize
  · have htop : topLength sec₂ = topLength sec₁ := by
      have h0 : SameField sec₁.payload sec₂.payload 0 true := by
        apply hsame
        by_cases h2 : 2 ≤ sec₁.payloadSize - 2 - topLength sec₁
        · obtain ⟨tl, d, s, _, heq⟩ := DisplaySection_entries sec₁ h h2
          rw [heq] at ht
          cases ht
          simp [topEvents]
        · rw [DisplaySection_noEntries sec₁ h (by omega)] at ht
          cases ht
          simp [topEvents]
      unfold topLength
      rw [hsz]
      simp only [SameField, if_true] at h0
      rw [h0]
    have htopev : topEvents sec₂ = topEvents sec₁ := by
      unfold topEvents
      rw [htop, hsz]
    by_cases h2 : 2 ≤ sec₁.payloadSize - 2 - topLength sec₁
    · obtain ⟨tl, d, s, hrun, heq⟩ := DisplaySection_entries sec₁ h h2
      rw [heq] at ht
      cases ht
      have hent : entriesLength sec₂ = entriesLength sec₁ := by
        have h0 : SameField sec₁.payload sec₂.payload (2 + topLength sec₁) true := by
          apply hsame
          simp
        unfold entriesLength
        rw [hsz, htop]
        simp only [SameField, if_true] at h0
        rw [h0]
      obtain ⟨tl₂, d₂, s₂, hrun₂, heq₂⟩ := DisplaySection_entries sec₂ (by omega)
        (by rw [hsz, htop]; exact h2)
      rw [hsz, htop, hent] at hrun₂
      have hrun' : LoopRun sec₂.payload (2 + topLength sec₁ + 2)
          (sec₁.payloadSize - 2 - topLength sec₁ - 2) (entriesLength sec₁) tl d s :=
        hrun.congr (fun o m hm => hsame o m (by simp [hm]))
      obtain ⟨rfl, rfl, rfl⟩ := hrun'.unique _ _ _ hrun₂
      rw [heq₂, htopev, hsz, htop]
    · rw [DisplaySection_noEntries sec₁ h (by omega)] at ht
      cases ht
      rw [DisplaySection_noEntries sec₂ (by omega) (by rw [hsz, htop]; omega), htopev, hsz, htop]
  · rw [DisplaySection_short sec₁ (by omega)] at ht
    cases ht
    rw [DisplaySection_short sec₂ (by omega), hsz]

theorem SameField_of_masked_byte (p q : List Byte) (i o : Nat) (m : Bool)
    (hsame : ∀ j, j ≠ i → p.getD j 0 = q.getD j 0)
    (hlow : (p.getD i 0).val % 16 = (q.getD i 0).val % 16)
    (hsep : (o = i ∧ m = true) ∨ o + 2 ≤ i ∨ i + 2 ≤ o) :
    SameField p q o m := by
  rcases hsep with ⟨rfl, rfl⟩ | hsep
  · have h1 := hsame (o + 1) (by omega)
    simp only [SameField, if_true, GetUInt16]
    rw [h1]
    omega
  · have h0 := hsame o (by omega)
    have h1 := hsame (o + 1) (by omega)
    have : GetUInt16 p o = GetUInt16 q o := by
      simp only [GetUInt16]
      rw [h0, h1]
    unfold SameField
    split
    · rw [this]
    · exact this

/-- C4. 12-bit masking: when two sections of the same size differ at most in
the high 4 bits of one 16-bit length field that the walk over the first one
reads (the field at offset `i`: every byte other than byte `i` is the same, and
byte `i` has the same low 4 bits), the walk performs the same events on both:
the same descriptor regions, the same entries and the same extra data. -/
theorem DisplaySection_masking (sec₁ sec₂ : Section) (i : Nat)
    (hlen : sec₁.payload.length = sec₂.payload.length)
    (hread : ∃ t, DisplaySection sec₁ = some t ∧ Event.getUInt16 i true ∈ t)
    (hsame : ∀ j, j ≠ i → sec₁.payload.getD j 0 = sec₂.payload.getD j 0)
    (hlow : (sec₁.payload.getD i 0).val % 16 = (sec₂.payload.getD i 0).val % 16) :
    DisplaySection sec₂ = DisplaySection sec₁ := by
  obtain ⟨t, ht, hi⟩ := hread
  rw [ht]
  apply DisplaySection_congr sec₁ sec₂ t hlen ht
  intro o m hm
  apply SameField_of_masked_byte _ _ i o m hsame hlow
  rcases DisplaySection_reads_apart sec₁ t ht o m i true hm hi with h | h | h
  · exact Or.inl h
  · exact Or.inr (Or.inl h)
  · exact Or.inr (Or.inr h)

/-- Witness of `DisplaySection_outer_lengths`: on `sampleClamped` the top-level
list takes 2 bytes and the entries region is clamped from 4095 to 6 bytes. -/
theorem DisplaySection_outer_lengths_witness :
    2 ≤ sampleClamped.payloadSize ∧
    ∃ rest, DisplaySection sampleClamped = some
        ([Event.getUInt16 0 true, Event.decSize 12 2] ++
          (if 0 < 2 then [Event.descriptorList 2 2] else []) ++
          Event.decSize 10 2 :: rest) ∧
      (2 ≤ 12 - 2 - 2 →
        ∃ rest', rest = Event.getUInt16 4 true :: Event.decSize 8 2 ::
          Event.whileTest 6 6 6 :: rest') :=
  ⟨by decide, DisplaySection_outer_lengths sampleClamped (by decide) 2 6 (by decide) (by decide)⟩

/-- Witness of `DisplaySection_masking`: the length field `F123` is walked like
`0123`. -/
theorem DisplaySection_masking_witness :
    DisplaySection sampleLowBits = DisplaySection sampleHighBits :=
  DisplaySection_masking sampleHighBits sampleLowBits 0 (by decide)
    ⟨(DisplaySection sampleHighBits).getD [], by decide, by decide⟩
    (fun j hj => by
      cases j with
      | zero => exact absurd rfl hj
      | succ j => rfl)
    (by decide)

end NIT
end ts

/-! ## Theorems: the Sub-Record Map -/

namespace ts

theorem TransportStreamId.lt_def (a b : TransportStreamId) :
    a < b ↔ a.transport_stream_id < b.transport_stream_id ∨
      (a.transport_stream_id = b.transport_stream_id ∧
        a.original_network_id < b.original_network_id) := Iff.rfl

theorem TransportStreamId.eq_def (a b : TransportStreamId) :
    a = b ↔ a.transport_stream_id = b.transport_stream_id ∧
      a.original_network_id = b.original_network_id := by
  cases a; cases b; simp

theorem TransportStreamId.lt_irrefl (a : TransportStreamId) : ¬ a < a := by
  rw [TransportStreamId.lt_def]; omega

theorem TransportStreamId.lt_trans {a b c : TransportStreamId} (h1 : a < b) (h2 : b < c) :
    a < c := by
  rw [TransportStreamId.lt_def] at *; omega

theorem TransportStreamId.lt_asymm {a b : TransportStreamId} (h1 : a < b) : ¬ b < a := by
  rw [TransportStreamId.lt_def] at *; omega

theorem TransportStreamId.lt_of_not {a b : TransportStreamId} (h1 : ¬ a < b) (h2 : a ≠ b) :
    b < a := by
  rw [Ne, TransportStreamId.eq_def] at h2
  rw [TransportStreamId.lt_def] at *; omega

namespace TransportMap

theorem find?_set_self (m : TransportMap) (k : TransportStreamId) (v : Transport) :
    find? (set m k v) k = some v := by
  induction m with
  | nil => simp [set, find?]
  | cons e rest ih =>
    obtain ⟨k', v'⟩ := e
    unfold set
    split
    · simp [find?]
    · split
      · simp [find?]
      · rename_i h1 h2
        simp [find?, h2, ih]

theorem find?_set_other (m : TransportMap) (k k' : TransportStreamId) (v : Transport)
    (h : k' ≠ k) : find? (set m k v) k' = find? m k' := by
  induction m with
  | nil => simp [set, find?, h]
  | cons e rest ih =>
    obtain ⟨k₀, v₀⟩ := e
    unfold set
    split
    · simp [find?, h]
    · split
      · rename_i h1 h2
        subst h2
        simp [find?, h]
      · simp [find?, ih]

theorem at_set_self (m : TransportMap) (k : TransportStreamId) (v : Transport) :
    TransportMap.at (set m k v) k = v := by
  simp [TransportMap.at, find?_set_self]

theorem set_set (m : TransportMap) (k : TransportStreamId) (v v' : Transport) :
    set (set m k v) k v' = set m k v' := by
  induction m with
  | nil => simp [set, TransportStreamId.lt_irrefl]
  | cons e rest ih =>
    obtain ⟨k₀, v₀⟩ := e
    by_cases h1 : k < k₀
    · simp [set, h1, TransportStreamId.lt_irrefl]
    · by_cases h2 : k = k₀
      · subst h2
        simp [set, TransportStreamId.lt_irrefl]
      · simp [set, h1, h2, ih]

theorem mem_set (m : TransportMap) (k : TransportStreamId) (v : Transport)
    (e : TransportStreamId × Transport) (h : e ∈ set m k v) : e = (k, v) ∨ e ∈ m := by
  induction m with
  | nil => simpa [set] using h
  | cons e₀ rest ih =>
    obtain ⟨k₀, v₀⟩ := e₀
    unfold set at h
    split at h
    · simpa using h
    · split at h
      · simp only [List.mem_cons] at h ⊢
        rcases h with h | h
        · exact Or.inl h
        · exact Or.inr (Or.inr h)
      · simp only [List.mem_cons] at h ⊢
        rcases h with h | h
        · exact Or.inr (Or.inl h)
        · rcases ih h with h | h
          · exact Or.inl h
          · exact Or.inr (Or.inr h)

theorem sorted_set (m : TransportMap) (k : TransportStreamId) (v : Transport)
    (hm : Sorted m) : Sorted (set m k v) := by
  induction m with
  | nil => simp [set, Sorted]
  | cons e₀ rest ih =>
    obtain ⟨k₀, v₀⟩ := e₀
    unfold Sorted at hm
    rw [List.pairwise_cons] at hm
    obtain ⟨hm1, hm2⟩ := hm
    unfold set
    split
    · rename_i h1
      unfold Sorted
      rw [List.pairwise_cons, List.pairwise_cons]
      refine ⟨?_, hm1, hm2⟩
      intro e he
      rw [List.mem_cons] at he
      rcases he with he | he
      · subst he; exact h1
      · exact TransportStreamId.lt_trans h1 (hm1 e he)
    · split
      · rename_i h1 h2
        subst h2
        unfold Sorted
        rw [List.pairwise_cons]
        exact ⟨hm1, hm2⟩
      · rename_i h1 h2
        unfold Sorted
        rw [List.pairwise_cons]
        refine ⟨?_, ih hm2⟩
        intro e he
        rcases mem_set rest k v e he with he | he
        · subst he
          exact TransportStreamId.lt_of_not h1 h2
        · exact hm1 e he

theorem set_append_last (m : TransportMap) (k : TransportStreamId) (v : Transport)
    (h : Sorted (m ++ [(k, v)])) : set m k v = m ++ [(k, v)] := by
  induction m with
  | nil => simp [set]
  | cons e₀ rest ih =>
    obtain ⟨k₀, v₀⟩ := e₀
    unfold Sorted at h
    rw [List.cons_append, List.pairwise_cons] at h
    obtain ⟨h1, h2⟩ := h
    have hlt : k₀ < k := h1 (k, v) (by simp)
    have hn1 : ¬ k < k₀ := TransportStreamId.lt_asymm hlt
    have hn2 : k ≠ k₀ := by
      rintro rfl
      exact TransportStreamId.lt_irrefl _ hlt
    simp [set, hn1, hn2, ih h2]

theorem foldl_set_sorted (post pre : TransportMap) (h : Sorted (pre ++ post)) :
    post.foldl (fun m e => set m e.1 e.2) pre = pre ++ post := by
  induction post generalizing pre with
  | nil => simp
  | cons e rest ih =>
    have h' : Sorted ((pre ++ [e]) ++ rest) := by simpa using h
    have h1 : Sorted (pre ++ [e]) := by
      unfold Sorted at h' ⊢
      exact (List.pairwise_append.mp h').1
    rw [List.foldl_cons, set_append_last pre e.1 e.2 h1, ih _ h']
    simp

theorem find?_of_sorted_filter (m : TransportMap) (k : TransportStreamId) (v : Transport)
    (hm : Sorted m) (hf : find? m k = some v) :
    m.filter (fun e => e.1 = k) = [(k, v)] := by
  induction m with
  | nil => simp [find?] at hf
  | cons e₀ rest ih =>
    obtain ⟨k₀, v₀⟩ := e₀
    unfold Sorted at hm
    rw [List.pairwise_cons] at hm
    obtain ⟨hm1, hm2⟩ := hm
    by_cases hk : k = k₀
    · subst hk
      simp only [find?, if_true, Option.some.injEq] at hf
      subst hf
      have : rest.filter (fun e => e.1 = k) = [] := by
        rw [List.filter_eq_nil_iff]
        intro e he
        have := hm1 e he
        simp only [decide_eq_true_eq]
        rintro rfl
        exact TransportStreamId.lt_irrefl _ this
      simp [List.filter_cons, this]
    · have hk' : ¬ k₀ = k := fun h => hk h.symm
      simp only [find?, if_neg hk] at hf
      simp [List.filter_cons, hk', ih hm2 hf]

end TransportMap

end ts

/-! ## Theorems: attributes and descriptor lists -/

namespace ts

namespace NIT

theorem getIntAttribute_required_iff (conv : Conv) (e : xml.Element) (value : Int)
    (name : String) (d lo hi : Int) :
    (e.getIntAttribute conv value name true d lo hi).1 = true ↔ IntAttrIn conv e name lo hi := by
  unfold xml.Element.getIntAttribute IntAttrIn
  cases h1 : e.attribute name with
  | none => simp
  | some text =>
    cases h2 : conv.toInteger text with
    | none => simp [h2]
    | some v =>
      by_cases h3 : v < lo ∨ v > hi
      · simp only [h2, h3, if_true]
        constructor
        · intro h; cases h
        · rintro ⟨t, w, ht, hw, h4, h5⟩
          cases ht
          rw [h2] at hw
          cases hw
          omega
      · simp only [h2, h3, if_false, true_iff]
        exact ⟨text, v, rfl, h2, by omega, by omega⟩

theorem getIntAttribute_optional_iff (conv : Conv) (e : xml.Element) (value : Int)
    (name : String) (d lo hi : Int) :
    (e.getIntAttribute conv value name false d lo hi).1 = true ↔
      (Absent e name ∨ IntAttrIn conv e name lo hi) := by
  unfold xml.Element.getIntAttribute IntAttrIn Absent
  cases h1 : e.attribute name with
  | none => simp
  | some text =>
    cases h2 : conv.toInteger text with
    | none => simp [h2]
    | some v =>
      by_cases h3 : v < lo ∨ v > hi
      · simp only [h2, h3, if_true]
        constructor
        · intro h; cases h
        · rintro (h | ⟨t, w, ht, hw, h4, h5⟩)
          · cases h
          · cases ht
            rw [h2] at hw
            cases hw
            omega
      · simp only [h2, h3, if_false, true_iff]
        exact Or.inr ⟨text, v, rfl, h2, by omega, by omega⟩

theorem getIntAttribute_value (conv : Conv) (e : xml.Element) (value : Int)
    (name : String) (required : Bool) (d lo hi : Int) (h : IntAttrIn conv e name lo hi) :
    e.getIntAttribute conv value name required d lo hi = (true, intAttr conv e name) := by
  obtain ⟨text, v, h1, h2, h3, h4⟩ := h
  have h5 : ¬ (v < lo ∨ v > hi) := by omega
  simp [xml.Element.getIntAttribute, intAttr, h1, h2, h5]

theorem getIntAttribute_absent (conv : Conv) (e : xml.Element) (value : Int)
    (name : String) (required : Bool) (d lo hi : Int) (h : Absent e name) :
    e.getIntAttribute conv value name required d lo hi = (!required, d) := by
  unfold Absent at h
  simp [xml.Element.getIntAttribute, h]

theorem getBoolAttribute_optional_iff (conv : Conv) (e : xml.Element) (value : Bool)
    (name : String) (d : Bool) :
    (e.getBoolAttribute conv value name false d).1 = true ↔
      (Absent e name ∨ BoolAttr conv e name) := by
  unfold xml.Element.getBoolAttribute BoolAttr Absent
  cases h1 : e.attribute name with
  | none => simp
  | some text =>
    cases h2 : conv.toBool text with
    | none => simp [h2]
    | some b => simp [h2]

theorem getBoolAttribute_absent (conv : Conv) (e : xml.Element) (value : Bool)
    (name : String) (required d : Bool) (h : Absent e name) :
    e.getBoolAttribute conv value name required d = (!required, d) := by
  unfold Absent at h
  simp [xml.Element.getBoolAttribute, h]

theorem absent_or_intAttrIn (conv : Conv) (e : xml.Element) (name : String) (lo hi : Int)
    (h : Absent e name ∨ IntAttrIn conv e name lo hi) :
    e.hasAttribute name = false ∧ Absent e name ∨
      e.hasAttribute name = true ∧ IntAttrIn conv e name lo hi := by
  rcases h with h | h
  · left
    refine ⟨?_, h⟩
    unfold Absent at h
    simp [xml.Element.hasAttribute, h]
  · right
    refine ⟨?_, h⟩
    obtain ⟨text, v, h1, _⟩ := h
    simp [xml.Element.hasAttribute, h1]

end NIT

namespace DescriptorList

theorem fromNodes_cons_other (conv : Conv) (allowed : List String) (node : xml.Element)
    (rest : List xml.Element) (h : node.name ∈ allowed) :
    fromNodes conv allowed (node :: rest) =
      ((fromNodes conv allowed rest).1, (fromNodes conv allowed rest).2.1,
        node :: (fromNodes conv allowed rest).2.2) := by
  have h' : allowed.contains node.name = true := by simpa using h
  rw [fromNodes]
  simp only [h', if_true]

theorem fromNodes_cons_desc (conv : Conv) (allowed : List String) (node : xml.Element)
    (rest : List xml.Element) (d : Descriptor) (h : node.name ∉ allowed)
    (hd : conv.descFromXML node = some d) :
    fromNodes conv allowed (node :: rest) =
      ((fromNodes conv allowed rest).1, d :: (fromNodes conv allowed rest).2.1,
        (fromNodes conv allowed rest).2.2) := by
  have h' : allowed.contains node.name = false := by simpa using h
  rw [fromNodes]
  simp only [h', hd, Bool.false_eq_true, if_false]

theorem fromNodes_cons_bad (conv : Conv) (allowed : List String) (node : xml.Element)
    (rest : List xml.Element) (h : node.name ∉ allowed)
    (hd : conv.descFromXML node = none) :
    fromNodes conv allowed (node :: rest) =
      (false, (fromNodes conv allowed rest).2.1, (fromNodes conv allowed rest).2.2) := by
  have h' : allowed.contains node.name = false := by simpa using h
  rw [fromNodes]
  simp only [h', hd, Bool.false_eq_true, if_false]

theorem fromNodes_flag (conv : Conv) (allowed : List String) (nodes : List xml.Element) :
    (fromNodes conv allowed nodes).1 = true ↔
      ∀ n ∈ nodes, n.name ∉ allowed → conv.descFromXML n ≠ none := by
  induction nodes with
  | nil => simp [fromNodes]
  | cons node rest ih =>
    by_cases h1 : node.name ∈ allowed
    · rw [fromNodes_cons_other conv allowed node rest h1]
      simp [ih, h1]
    · cases h2 : conv.descFromXML node with
      | none =>
        rw [fromNodes_cons_bad conv allowed node rest h1 h2]
        simp [h1, h2]
      | some d =>
        rw [fromNodes_cons_desc conv allowed node rest d h1 h2]
        simp [ih, h1, h2]

theorem fromNodes_others (conv : Conv) (allowed : List String) (nodes : List xml.Element) :
    (fromNodes conv allowed nodes).2.2 = nodes.filter (fun n => decide (n.name ∈ allowed)) := by
  induction nodes with
  | nil => simp [fromNodes]
  | cons node rest ih =>
    by_cases h1 : node.name ∈ allowed
    · rw [fromNodes_cons_other conv allowed node rest h1]
      simp [ih, h1, List.filter_cons]
    · cases h2 : conv.descFromXML node with
      | none =>
        rw [fromNodes_cons_bad conv allowed node rest h1 h2]
        simp [ih, h1, List.filter_cons]
      | some d =>
        rw [fromNodes_cons_desc conv allowed node rest d h1 h2]
        simp [ih, h1, List.filter_cons]

theorem fromNodes_descs (conv : Conv) (allowed : List String) (nodes : List xml.Element) :
    (fromNodes conv allowed nodes).2.1 =
      (nodes.filter (fun n => decide (n.name ∉ allowed))).filterMap conv.descFromXML := by
  induction nodes with
  | nil => simp [fromNodes]
  | cons node rest ih =>
    by_cases h1 : node.name ∈ allowed
    · rw [fromNodes_cons_other conv allowed node rest h1]
      simp [ih, h1, List.filter_cons]
    · cases h2 : conv.descFromXML node with
      | none =>
        rw [fromNodes_cons_bad conv allowed node rest h1 h2]
        simp [ih, h1, h2, List.filter_cons, List.filterMap_cons]
      | some d =>
        rw [fromNodes_cons_desc conv allowed node rest d h1 h2]
        simp [ih, h1, h2, List.filter_cons, List.filterMap_cons]

end DescriptorList

end ts

/-! ## Theorems: the loop of `fromXML` -/

namespace ts

namespace NIT

theorem fromNodes_noOthers_flag (conv : Conv) (c : xml.Element) :
    (DescriptorList.fromXML conv c []).1 = true ↔ ∀ n ∈ c.children, conv.descFromXML n ≠ none := by
  unfold DescriptorList.fromXML
  rw [DescriptorList.fromNodes_flag]
  simp

theorem fromNodes_noOthers_descs (conv : Conv) (c : xml.Element) :
    (DescriptorList.fromXML conv c []).2.1 = c.children.filterMap conv.descFromXML := by
  unfold DescriptorList.fromXML
  rw [DescriptorList.fromNodes_descs]
  simp

theorem fromXMLChild_bad_tsid (conv : Conv) (c : xml.Element) (s : NIT)
    (h : ¬ IntAttrIn conv c "transport_stream_id" 0 0xFFFF) :
    fromXMLChild conv c s =
      { s with
        _is_valid := false
        transports := s.transports.set
          ⟨(c.getIntAttribute conv 0 "transport_stream_id" true 0 0 0xFFFF).2, 0⟩
          { s.transports.at
              ⟨(c.getIntAttribute conv 0 "transport_stream_id" true 0 0 0xFFFF).2, 0⟩ with
            preferred_section := -1 } } := by
  have hr : (c.getIntAttribute conv 0 "transport_stream_id" true 0 0 0xFFFF).1 = false := by
    rw [← Bool.not_eq_true, getIntAttribute_required_iff]
    exact h
  simp [fromXMLChild, hr]

theorem fromXMLChild_bad_onid (conv : Conv) (c : xml.Element) (s : NIT)
    (h1 : IntAttrIn conv c "transport_stream_id" 0 0xFFFF)
    (h : ¬ IntAttrIn conv c "original_network_id" 0 0xFFFF) :
    fromXMLChild conv c s =
      { s with
        _is_valid := false
        transports := s.transports.set
          ⟨intAttr conv c "transport_stream_id",
            (c.getIntAttribute conv 0 "original_network_id" true 0 0 0xFFFF).2⟩
          { s.transports.at
              ⟨intAttr conv c "transport_stream_id",
                (c.getIntAttribute conv 0 "original_network_id" true 0 0 0xFFFF).2⟩ with
            preferred_section := -1 } } := by
  have hr1 := getIntAttribute_value conv c 0 "transport_stream_id" true 0 0 0xFFFF h1
  have hr : (c.getIntAttribute conv 0 "original_network_id" true 0 0 0xFFFF).1 = false := by
    rw [← Bool.not_eq_true, getIntAttribute_required_iff]
    exact h
  simp [fromXMLChild, hr1, hr]

theorem fromXMLChild_bad_descs (conv : Conv) (c : xml.Element) (s : NIT)
    (h1 : IntAttrIn conv c "transport_stream_id" 0 0xFFFF)
    (h2 : IntAttrIn conv c "original_network_id" 0 0xFFFF)
    (h : ¬ ∀ n ∈ c.children, conv.descFromXML n ≠ none) :
    fromXMLChild conv c s =
      { s with
        _is_valid := false
        transports := s.transports.set (childKey conv c)
          { descs := c.children.filterMap conv.descFromXML, preferred_section := -1 } } := by
  have hr1 := getIntAttribute_value conv c 0 "transport_stream_id" true 0 0 0xFFFF h1
  have hr2 := getIntAttribute_value conv c 0 "original_network_id" true 0 0 0xFFFF h2
  have hr : (DescriptorList.fromXML conv c []).1 = false := by
    rw [← Bool.not_eq_true, fromNodes_noOthers_flag]
    exact h
  simp [fromXMLChild, hr1, hr2, hr, fromNodes_noOthers_descs, childKey,
    TransportMap.at_set_self, TransportMap.set_set]

theorem fromXMLChild_bad_pref (conv : Conv) (c : xml.Element) (s : NIT)
    (h1 : IntAttrIn conv c "transport_stream_id" 0 0xFFFF)
    (h2 : IntAttrIn conv c "original_network_id" 0 0xFFFF)
    (h3 : ∀ n ∈ c.children, conv.descFromXML n ≠ none)
    (h : ¬ (Absent c "preferred_section" ∨ IntAttrIn conv c "preferred_section" 0 255)) :
    fromXMLChild conv c s =
      { s with
        _is_valid := false
        transports := s.transports.set (childKey conv c)
          { descs := c.children.filterMap conv.descFromXML,
            preferred_section := (s.transports.at (childKey conv c)).preferred_section } } := by
  have hr1 := getIntAttribute_value conv c 0 "transport_stream_id" true 0 0 0xFFFF h1
  have hr2 := getIntAttribute_value conv c 0 "original_network_id" true 0 0 0xFFFF h2
  have hr : (DescriptorList.fromXML conv c []).1 = true := by
    rw [fromNodes_noOthers_flag]
    exact h3
  have hp : c.hasAttribute "preferred_section" = true := by
    by_contra hc
    apply h
    left
    unfold Absent
    simpa [xml.Element.hasAttribute] using hc
  have hq : ∀ value, c.getIntAttribute conv value "preferred_section" true 0 0 255 =
      (false, value) := by
    intro value
    have hf : (c.getIntAttribute conv value "preferred_section" true 0 0 255).1 = false := by
      rw [← Bool.not_eq_true, getIntAttribute_required_iff]
      exact fun hc => h (Or.inr hc)
    have hv : (c.getIntAttribute conv value "preferred_section" true 0 0 255).2 = value := by
      unfold xml.Element.getIntAttribute at hf ⊢
      cases ha : c.attribute "preferred_section" with
      | none => simp [xml.Element.hasAttribute, ha] at hp
      | some text =>
        simp only [ha] at hf ⊢
        cases ht : conv.toInteger text with
        | none => rfl
        | some v =>
          simp only [ht] at hf ⊢
          by_cases hh : v < 0 ∨ v > 255
          · simp only [hh, if_true]
          · simp only [hh, if_false] at hf
            cases hf
    exact Prod.ext hf hv
  simp [fromXMLChild, hr1, hr2, hr, hp, hq, fromNodes_noOthers_descs, childKey,
    TransportMap.at_set_self, TransportMap.set_set]

theorem fromXMLChild_valid (conv : Conv) (c : xml.Element) (s : NIT)
    (h : ChildValid conv c) :
    fromXMLChild conv c s =
      { s with
        _is_valid := true
        transports := s.transports.set (childKey conv c) (childEntry conv c) } := by
  obtain ⟨h1, h2, h3, h4⟩ := h
  have hr1 := getIntAttribute_value conv c 0 "transport_stream_id" true 0 0 0xFFFF h1
  have hr2 := getIntAttribute_value conv c 0 "original_network_id" true 0 0 0xFFFF h2
  have hr : (DescriptorList.fromXML conv c []).1 = true := by
    rw [fromNodes_noOthers_flag]
    exact h3
  rcases absent_or_intAttrIn conv c "preferred_section" 0 255 h4 with ⟨hp, _⟩ | ⟨hp, hin⟩
  · simp [fromXMLChild, hr1, hr2, hr, hp, fromNodes_noOthers_descs, childKey, childEntry,
      TransportMap.at_set_self, TransportMap.set_set]
  · have hq := fun value =>
      getIntAttribute_value conv c value "preferred_section" true 0 0 255 hin
    simp [fromXMLChild, hr1, hr2, hr, hp, hq, fromNodes_noOthers_descs, childKey, childEntry,
      TransportMap.at_set_self, TransportMap.set_set]

theorem fromXMLChild_valid_iff (conv : Conv) (c : xml.Element) (s : NIT) :
    (fromXMLChild conv c s)._is_valid = true ↔ ChildValid conv c := by
  constructor
  · intro hv
    by_contra hc
    by_cases h1 : IntAttrIn conv c "transport_stream_id" 0 0xFFFF
    · by_cases h2 : IntAttrIn conv c "original_network_id" 0 0xFFFF
      · by_cases h3 : ∀ n ∈ c.children, conv.descFromXML n ≠ none
        · by_cases h4 : Absent c "preferred_section" ∨ IntAttrIn conv c "preferred_section" 0 255
          · exact hc ⟨h1, h2, h3, h4⟩
          · rw [fromXMLChild_bad_pref conv c s h1 h2 h3 h4] at hv
            cases hv
        · rw [fromXMLChild_bad_descs conv c s h1 h2 h3] at hv
          cases hv
      · rw [fromXMLChild_bad_onid conv c s h1 h2] at hv
        cases hv
    · rw [fromXMLChild_bad_tsid conv c s h1] at hv
      cases hv
  · intro h
    rw [fromXMLChild_valid conv c s h]

theorem fromXMLLoop_invalid (conv : Conv) (cs : List xml.Element) (s : NIT)
    (h : s._is_valid = false) : fromXMLLoop conv cs s = s := by
  cases cs with
  | nil => rfl
  | cons c rest => simp [fromXMLLoop, h]

theorem fromXMLLoop_valid_iff (conv : Conv) (cs : List xml.Element) (s : NIT) :
    (fromXMLLoop conv cs s)._is_valid = true ↔
      s._is_valid = true ∧ ∀ c ∈ cs, ChildValid conv c := by
  induction cs generalizing s with
  | nil => simp [fromXMLLoop]
  | cons c rest ih =>
    by_cases hs : s._is_valid = true
    · simp only [fromXMLLoop, hs, if_true, ih, fromXMLChild_valid_iff, List.mem_cons,
        forall_eq_or_imp, true_and]
    · have hs' : s._is_valid = false := by simpa using hs
      rw [fromXMLLoop_invalid conv _ s hs']
      simp [hs']

theorem fromXMLLoop_all_valid (conv : Conv) (cs : List xml.Element) (s : NIT)
    (hs : s._is_valid = true) (h : ∀ c ∈ cs, ChildValid conv c) :
    fromXMLLoop conv cs s =
      { s with
        transports := cs.foldl (fun m c => m.set (childKey conv c) (childEntry conv c))
          s.transports } := by
  induction cs generalizing s with
  | nil =>
    simp [fromXMLLoop]
  | cons c rest ih =>
    have hc : ChildValid conv c := h c (List.mem_cons_self _ _)
    simp only [fromXMLLoop, hs, if_true]
    rw [fromXMLChild_valid conv c s hc, ih _ rfl (fun c' hc' => h c' (List.mem_cons_of_mem _ hc'))]
    cases s
    simp at hs
    simp [hs]

theorem fromXMLLoop_stop (conv : Conv) (pre post : List xml.Element) (c : xml.Element)
    (s : NIT) (hc : ¬ ChildValid conv c) :
    fromXMLLoop conv (pre ++ c :: post) s = fromXMLLoop conv (pre ++ [c]) s := by
  induction pre generalizing s with
  | nil =>
    by_cases hs : s._is_valid = true
    · have hf : (fromXMLChild conv c s)._is_valid = false := by
        rw [← Bool.not_eq_true, fromXMLChild_valid_iff]
        exact hc
      simp only [List.nil_append, fromXMLLoop, hs, if_true]
      rw [fromXMLLoop_invalid conv post _ hf]
    · have hs' : s._is_valid = false := by simpa using hs
      rw [fromXMLLoop_invalid conv _ s hs', fromXMLLoop_invalid conv _ s hs']
  | cons p rest ih =>
    by_cases hs : s._is_valid = true
    · simp only [List.cons_append, fromXMLLoop, hs, if_true]
      exact ih _
    · have hs' : s._is_valid = false := by simpa using hs
      rw [fromXMLLoop_invalid conv _ s hs', fromXMLLoop_invalid conv _ s hs']

end NIT

end ts

/-! ## Theorems: the attributes of the table and the whole decoder -/

namespace ts

namespace NIT

theorem getIntAttribute_optional_value (conv : Conv) (e : xml.Element) (value : Int)
    (name : String) (d lo hi : Int) (h : Absent e name ∨ IntAttrIn conv e name lo hi) :
    e.getIntAttribute conv value name false d lo hi = (true, optIntAttr conv e name d) := by
  rcases absent_or_intAttrIn conv e name lo hi h with ⟨hp, ha⟩ | ⟨hp, hi'⟩
  · rw [getIntAttribute_absent conv e value name false d lo hi ha]
    simp [optIntAttr, hp]
  · rw [getIntAttribute_value conv e value name false d lo hi hi']
    simp [optIntAttr, hp]

theorem getBoolAttribute_optional_value (conv : Conv) (e : xml.Element) (value : Bool)
    (name : String) (d : Bool) (h : Absent e name ∨ BoolAttr conv e name) :
    e.getBoolAttribute conv value name false d = (true, optBoolAttr conv e name d) := by
  rcases h with h | ⟨text, b, h1, h2⟩
  · rw [getBoolAttribute_absent conv e value name false d h]
    unfold Absent at h
    simp [optBoolAttr, xml.Element.hasAttribute, h]
  · simp [xml.Element.getBoolAttribute, optBoolAttr, boolAttr, xml.Element.hasAttribute, h1, h2]

theorem fromXMLHeader_valid_iff (conv : Conv) (e : xml.Element) (s : NIT) :
    (fromXMLHeader conv e s).1._is_valid = true ↔
      (e.name = MY_XML_NAME ∧
        (Absent e "version" ∨ IntAttrIn conv e "version" 0 31) ∧
        (Absent e "current" ∨ BoolAttr conv e "current") ∧
        IntAttrIn conv e "network_id" 0 0xFFFF ∧
        (Absent e "actual" ∨ BoolAttr conv e "actual") ∧
        (∀ c ∈ e.children, c.name ≠ "transport_stream" → conv.descFromXML c ≠ none)) := by
  have k1 := getIntAttribute_optional_iff conv e s.version "version" 0 0 31
  have k2 := getBoolAttribute_optional_iff conv e s.is_current "current" true
  have k3 := getIntAttribute_required_iff conv e s.network_id "network_id" 0 0 0xFFFF
  have k4 := getBoolAttribute_optional_iff conv e true "actual" true
  have k5 := DescriptorList.fromNodes_flag conv ["transport_stream"] e.children
  simp only [List.mem_singleton] at k5
  rw [← k1, ← k2, ← k3, ← k4, ← k5]
  unfold fromXMLHeader
  by_cases h0 : checkXMLName e = true
  · have h0' : e.name = MY_XML_NAME := by simpa [checkXMLName] using h0
    simp only [h0, h0', Bool.not_true, Bool.false_eq_true, if_false, true_and]
    by_cases h1 : (e.getIntAttribute conv s.version "version" false 0 0 31).1 = true
    · simp only [h1, Bool.not_true, Bool.false_eq_true, if_false, true_and]
      by_cases h2 : (e.getBoolAttribute conv s.is_current "current" false true).1 = true
      · simp only [h2, Bool.not_true, Bool.false_eq_true, if_false, true_and]
        by_cases h3 : (e.getIntAttribute conv s.network_id "network_id" true 0 0 0xFFFF).1 = true
        · simp only [h3, Bool.not_true, Bool.false_eq_true, if_false, true_and]
          by_cases h4 : (e.getBoolAttribute conv true "actual" false true).1 = true
          · simp only [h4, Bool.not_true, Bool.false_eq_true, if_false, true_and]
            rfl
          · simp [h4]
        · simp [h3]
      · simp [h2]
    · simp [h1]
  · have h0' : ¬ e.name = MY_XML_NAME := by simpa [checkXMLName] using h0
    simp [h0, h0']

theorem fromXMLHeader_valid (conv : Conv) (e : xml.Element) (s : NIT)
    (h0 : e.name = MY_XML_NAME)
    (h1 : Absent e "version" ∨ IntAttrIn conv e "version" 0 31)
    (h2 : Absent e "current" ∨ BoolAttr conv e "current")
    (h3 : IntAttrIn conv e "network_id" 0 0xFFFF)
    (h4 : Absent e "actual" ∨ BoolAttr conv e "actual")
    (h5 : ∀ c ∈ e.children, c.name ≠ "transport_stream" → conv.descFromXML c ≠ none) :
    fromXMLHeader conv e s =
      ({ s with
          _is_valid := true
          version := optIntAttr conv e "version" 0
          is_current := optBoolAttr conv e "current" true
          network_id := intAttr conv e "network_id"
          descs := (descriptorChildren e).filterMap conv.descFromXML },
        optBoolAttr conv e "actual" true, transportChildren e) := by
  have k0 : checkXMLName e = true := by simp [checkXMLName, h0]
  have k1 := getIntAttribute_optional_value conv e s.version "version" 0 0 31 h1
  have k2 := getBoolAttribute_optional_value conv e s.is_current "current" true h2
  have k3 := getIntAttribute_value conv e s.network_id "network_id" true 0 0 0xFFFF h3
  have k4 := getBoolAttribute_optional_value conv e true "actual" true h4
  have k5 : (DescriptorList.fromXML conv e ["transport_stream"]).1 = true := by
    unfold DescriptorList.fromXML
    rw [DescriptorList.fromNodes_flag]
    simpa using h5
  have k6 : (DescriptorList.fromXML conv e ["transport_stream"]).2.1 =
      (descriptorChildren e).filterMap conv.descFromXML := by
    unfold DescriptorList.fromXML descriptorChildren
    rw [DescriptorList.fromNodes_descs]
    simp
  have k7 : (DescriptorList.fromXML conv e ["transport_stream"]).2.2 = transportChildren e := by
    unfold DescriptorList.fromXML transportChildren
    rw [DescriptorList.fromNodes_others]
    simp
  unfold fromXMLHeader
  simp only [k0, k1, k2, k3, k4, k5, k6, k7, Bool.not_true, Bool.false_eq_true, if_false]

theorem fromXML_valid_iff (conv : Conv) (e : xml.Element) (init : NIT) :
    (fromXML conv e init)._is_valid = true ↔ TreeValid conv e := by
  unfold fromXML
  simp only []
  rw [fromXMLLoop_valid_iff]
  have hset : ∀ (s : NIT) (b : Bool), (setActual s b)._is_valid = s._is_valid := fun _ _ => rfl
  rw [hset, fromXMLHeader_valid_iff]
  unfold TreeValid
  constructor
  · rintro ⟨⟨h0, h1, h2, h3, h4, h5⟩, h6⟩
    refine ⟨h0, h1, h2, h3, h4, h5, ?_⟩
    rw [fromXMLHeader_valid conv e _ h0 h1 h2 h3 h4 h5] at h6
    intro c hc hn
    exact h6 c (by simp [transportChildren, hc, hn])
  · rintro ⟨h0, h1, h2, h3, h4, h5, h6⟩
    refine ⟨⟨h0, h1, h2, h3, h4, h5⟩, ?_⟩
    rw [fromXMLHeader_valid conv e _ h0 h1 h2 h3 h4 h5]
    intro c hc
    simp only [transportChildren, List.mem_filter, decide_eq_true_eq] at hc
    exact h6 c hc.1 hc.2

theorem fromXML_valid (conv : Conv) (e : xml.Element) (init : NIT) (h : TreeValid conv e) :
    fromXML conv e init = decoded conv e := by
  obtain ⟨h0, h1, h2, h3, h4, h5, h6⟩ := h
  unfold fromXML
  simp only []
  rw [fromXMLHeader_valid conv e _ h0 h1 h2 h3 h4 h5]
  rw [fromXMLLoop_all_valid conv _ _ rfl (by
    intro c hc
    simp only [transportChildren, List.mem_filter, decide_eq_true_eq] at hc
    exact h6 c hc.1 hc.2)]
  rfl

end NIT

end ts

/-! ## Theorems: the tree decoder -/

namespace ts

namespace NIT

theorem fromXMLHeader_congr (conv : Conv) (name : String) (attrs : List (String × String))
    (ch₁ ch₂ : List xml.Element) (s : NIT)
    (h1 : (DescriptorList.fromNodes conv ["transport_stream"] ch₁).1 =
      (DescriptorList.fromNodes conv ["transport_stream"] ch₂).1)
    (h2 : (DescriptorList.fromNodes conv ["transport_stream"] ch₁).2.1 =
      (DescriptorList.fromNodes conv ["transport_stream"] ch₂).2.1) :
    (fromXMLHeader conv (.mk name attrs ch₁) s).1 = (fromXMLHeader conv (.mk name attrs ch₂) s).1 ∧
    (fromXMLHeader conv (.mk name attrs ch₁) s).2.1 =
      (fromXMLHeader conv (.mk name attrs ch₂) s).2.1 := by
  have e0 : checkXMLName (.mk name attrs ch₁) = checkXMLName (.mk name attrs ch₂) := rfl
  have e1 : ∀ v n r d lo hi, (xml.Element.mk name attrs ch₁).getIntAttribute conv v n r d lo hi =
      (xml.Element.mk name attrs ch₂).getIntAttribute conv v n r d lo hi := fun _ _ _ _ _ _ => rfl
  have e2 : ∀ v n r d, (xml.Element.mk name attrs ch₁).getBoolAttribute conv v n r d =
      (xml.Element.mk name attrs ch₂).getBoolAttribute conv v n r d := fun _ _ _ _ => rfl
  have e3 : ∀ ch, DescriptorList.fromXML conv (.mk name attrs ch) ["transport_stream"] =
      DescriptorList.fromNodes conv ["transport_stream"] ch := fun _ => rfl
  unfold fromXMLHeader
  simp only [e0, e1, e2, e3, h1, h2]
  split_ifs <;> exact ⟨rfl, rfl⟩

theorem fromXML_truncate (conv : Conv) (name : String) (attrs : List (String × String))
    (pre post : List xml.Element) (c : xml.Element) (init : NIT)
    (hc : c.name = "transport_stream") (hbad : ¬ ChildValid conv c) :
    fromXML conv (.mk name attrs (pre ++ c :: post)) init =
      fromXML conv (.mk name attrs
        (pre ++ c :: post.filter (fun x => x.name ≠ "transport_stream"))) init := by
  have hflag : (DescriptorList.fromNodes conv ["transport_stream"] (pre ++ c :: post)).1 =
      (DescriptorList.fromNodes conv ["transport_stream"]
        (pre ++ c :: post.filter (fun x => x.name ≠ "transport_stream"))).1 := by
    rw [Bool.eq_iff_iff, DescriptorList.fromNodes_flag, DescriptorList.fromNodes_flag]
    simp only [List.mem_append, List.mem_cons, List.mem_filter, decide_eq_true_eq,
      List.mem_singleton]
    constructor
    · rintro h n (hn | hn | ⟨hn, _⟩) hne
      · exact h n (Or.inl hn) hne
      · exact h n (Or.inr (Or.inl hn)) hne
      · exact h n (Or.inr (Or.inr hn)) hne
    · rintro h n (hn | hn | hn) hne
      · exact h n (Or.inl hn) hne
      · exact h n (Or.inr (Or.inl hn)) hne
      · exact h n (Or.inr (Or.inr ⟨hn, fun hh => hne (Or.inl hh)⟩)) hne
  have hdescs : (DescriptorList.fromNodes conv ["transport_stream"] (pre ++ c :: post)).2.1 =
      (DescriptorList.fromNodes conv ["transport_stream"]
        (pre ++ c :: post.filter (fun x => x.name ≠ "transport_stream"))).2.1 := by
    rw [DescriptorList.fromNodes_descs, DescriptorList.fromNodes_descs]
    simp [List.filter_append, List.filter_cons, List.filter_filter]
  obtain ⟨k1, k2⟩ := fromXMLHeader_congr conv name attrs _ _
    { init with descs := [], transports := [] } hflag hdescs
  unfold fromXML
  simp only []
  rw [← k1, ← k2]
  by_cases hv : (fromXMLHeader conv (.mk name attrs (pre ++ c :: post))
      { init with descs := [], transports := [] }).1._is_valid = true
  · have hv2 : (fromXMLHeader conv (.mk name attrs
        (pre ++ c :: post.filter (fun x => x.name ≠ "transport_stream")))
        { init with descs := [], transports := [] }).1._is_valid = true := by
      rw [← k1]; exact hv
    rw [fromXMLHeader_valid_iff] at hv hv2
    obtain ⟨a0, a1, a2, a3, a4, a5⟩ := hv
    obtain ⟨b0, b1, b2, b3, b4, b5⟩ := hv2
    have o1 := fromXMLHeader_valid conv _ { init with descs := [], transports := [] }
      a0 a1 a2 a3 a4 a5
    have o2 := fromXMLHeader_valid conv _ { init with descs := [], transports := [] }
      b0 b1 b2 b3 b4 b5
    have t1 : (fromXMLHeader conv (.mk name attrs (pre ++ c :: post))
        { init with descs := [], transports := [] }).2.2 =
        pre.filter (fun x => x.name = "transport_stream") ++ c ::
          post.filter (fun x => x.name = "transport_stream") := by
      rw [o1]
      simp [transportChildren, xml.Element.children, List.filter_append, List.filter_cons, hc]
    have t2 : (fromXMLHeader conv (.mk name attrs
        (pre ++ c :: post.filter (fun x => x.name ≠ "transport_stream")))
        { init with descs := [], transports := [] }).2.2 =
        pre.filter (fun x => x.name = "transport_stream") ++ [c] := by
      rw [o2]
      simp [transportChildren, xml.Element.children, List.filter_append, List.filter_cons, hc,
        List.filter_filter]
    rw [t1, t2]
    exact fromXMLLoop_stop conv _ _ c _ hbad
  · have hv' : (setActual (fromXMLHeader conv (.mk name attrs (pre ++ c :: post))
        { init with descs := [], transports := [] }).1
        (fromXMLHeader conv (.mk name attrs (pre ++ c :: post))
          { init with descs := [], transports := [] }).2.1)._is_valid = false := by
      simpa [setActual] using hv
    rw [fromXMLLoop_invalid conv _ _ hv', fromXMLLoop_invalid conv _ _ hv']

/-- C6. Validity signal of the tree decoder: for every tree and every prior
content of the object, `fromXML` ends with `_is_valid = true` exactly when the
tree is valid for the table (`TreeValid`: the name of the table, `version`
absent or in [0, 31], `current` absent or a boolean, `network_id` present and in
[0, 0xFFFF], `actual` absent or a boolean, descriptor children that parse, and
every `transport_stream` child with both ids present and in [0, 0xFFFF], a
descriptor list that parses and `preferred_section` absent or in [0, 255]); in
particular `network_id` missing or out of range, or a `transport_stream` child
whose `transport_stream_id` or `original_network_id` is missing or out of
range, gives `_is_valid = false`. -/
theorem fromXML_validity (conv : Conv) (e : xml.Element) (init : NIT) :
    ((fromXML conv e init)._is_valid = true ↔ TreeValid conv e) ∧
    (¬ IntAttrIn conv e "network_id" 0 0xFFFF → (fromXML conv e init)._is_valid = false) ∧
    (∀ c ∈ e.children, c.name = "transport_stream" →
      (¬ IntAttrIn conv c "transport_stream_id" 0 0xFFFF ∨
        ¬ IntAttrIn conv c "original_network_id" 0 0xFFFF) →
      (fromXML conv e init)._is_valid = false) := by
  have key := fromXML_valid_iff conv e init
  refine ⟨key, ?_, ?_⟩
  · intro h
    rw [← Bool.not_eq_true, key]
    exact fun hv => h hv.2.2.2.1
  · intro c hc hn hbad
    rw [← Bool.not_eq_true, key]
    intro hv
    have hcv := hv.2.2.2.2.2.2 c hc hn
    rcases hbad with hbad | hbad
    · exact hbad hcv.1
    · exact hbad hcv.2.1

/-- C7 (the code at the failing inputs). A `transport_stream` child without ids
leaves an entry of its own in the map, at the key (0, 0) of a default-constructed
`TransportStreamId`; and when an earlier child stored an entry at that key, its
`preferred_section` (5 here) is replaced by -1. -/
theorem fromXML_failed_child_entry :
    (fromXML sampleConv sampleTreeMissingIds NIT.blank)._is_valid = false ∧
    (fromXML sampleConv sampleTreeMissingIds NIT.blank).transports =
      [(⟨0, 0⟩, { descs := [], preferred_section := -1 })] ∧
    (fromXML sampleConv sampleTreeValidThenMissingIds NIT.blank)._is_valid = false ∧
    (fromXML sampleConv sampleTreeValidThenMissingIds NIT.blank).transports =
      [(⟨0, 0⟩, { descs := [], preferred_section := -1 })] ∧
    (fromXMLChild sampleConv
      (.mk "transport_stream" [("transport_stream_id", "0"), ("original_network_id", "0"),
        ("preferred_section", "5")] [])
      { NIT.blank with _is_valid := true }).transports =
      [(⟨0, 0⟩, { descs := [], preferred_section := 5 })] := by
  decide

/-- C8. Abort on first failure: when a `transport_stream` child `c` of the tree
fails validation, `fromXML` ends with `_is_valid = false` and the resulting
model is the one obtained from the same tree without the `transport_stream`
children that follow `c`: no child after `c` is processed. -/
theorem fromXML_abort_on_failure (conv : Conv) (name : String)
    (attrs : List (String × String)) (pre post : List xml.Element) (c : xml.Element)
    (init : NIT) (hc : c.name = "transport_stream") (hbad : ¬ ChildValid conv c) :
    (fromXML conv (.mk name attrs (pre ++ c :: post)) init)._is_valid = false ∧
    fromXML conv (.mk name attrs (pre ++ c :: post)) init =
      fromXML conv (.mk name attrs
        (pre ++ c :: post.filter (fun x => x.name ≠ "transport_stream"))) init := by
  refine ⟨?_, fromXML_truncate conv name attrs pre post c init hc hbad⟩
  rw [← Bool.not_eq_true, fromXML_valid_iff]
  intro hv
  exact hbad (hv.2.2.2.2.2.2 c (by simp [xml.Element.children]) hc)

end NIT

end ts

/-! ## Theorems: defaults and repeated keys -/

namespace ts

namespace NIT

theorem find?_foldl_other (conv : Conv) (cs : List xml.Element) (m : TransportMap)
    (k : TransportStreamId) (h : ∀ c ∈ cs, childKey conv c ≠ k) :
    TransportMap.find? (cs.foldl (fun m c => m.set (childKey conv c) (childEntry conv c)) m) k =
      TransportMap.find? m k := by
  induction cs generalizing m with
  | nil => rfl
  | cons c rest ih =>
    rw [List.foldl_cons, ih _ (fun c' hc' => h c' (List.mem_cons_of_mem _ hc'))]
    exact TransportMap.find?_set_other m _ k _ (fun hk => h c (List.mem_cons_self _ _) hk.symm)

theorem find?_foldl_last (conv : Conv) (pre post : List xml.Element) (c : xml.Element)
    (m : TransportMap) (h : ∀ c' ∈ post, childKey conv c' ≠ childKey conv c) :
    TransportMap.find?
      ((pre ++ c :: post).foldl (fun m c => m.set (childKey conv c) (childEntry conv c)) m)
      (childKey conv c) = some (childEntry conv c) := by
  rw [List.foldl_append, List.foldl_cons, find?_foldl_other conv post _ _ h,
    TransportMap.find?_set_self]

theorem sorted_foldl_set (conv : Conv) (cs : List xml.Element) (m : TransportMap)
    (hm : TransportMap.Sorted m) :
    TransportMap.Sorted
      (cs.foldl (fun m c => m.set (childKey conv c) (childEntry conv c)) m) := by
  induction cs generalizing m with
  | nil => exact hm
  | cons c rest ih =>
    rw [List.foldl_cons]
    exact ih _ (TransportMap.sorted_set m _ _ hm)

theorem transportChildren_split (e : xml.Element) (pre post : List xml.Element)
    (c : xml.Element) (hch : e.children = pre ++ c :: post) (hc : c.name = "transport_stream") :
    transportChildren e = pre.filter (fun x => x.name = "transport_stream") ++ c ::
      post.filter (fun x => x.name = "transport_stream") := by
  unfold transportChildren
  rw [hch]
  simp [List.filter_append, List.filter_cons, hc]

theorem decoded_find?_last (conv : Conv) (e : xml.Element) (pre post : List xml.Element)
    (c : xml.Element) (hch : e.children = pre ++ c :: post) (hc : c.name = "transport_stream")
    (hlast : ∀ c' ∈ post, c'.name = "transport_stream" → childKey conv c' ≠ childKey conv c) :
    TransportMap.find? (decoded conv e).transports (childKey conv c) =
      some (childEntry conv c) := by
  unfold decoded
  simp only []
  rw [transportChildren_split e pre post c hch hc]
  apply find?_foldl_last
  intro c' hc'
  simp only [List.mem_filter, decide_eq_true_eq] at hc'
  exact hlast c' hc'.1 hc'.2

theorem decoded_sorted (conv : Conv) (e : xml.Element) :
    TransportMap.Sorted (decoded conv e).transports := by
  unfold decoded
  exact sorted_foldl_set conv _ [] List.Pairwise.nil

/-- C9. Default attributes: for every valid tree, `fromXML` gives
`is_current = true` when `current` is absent, the table id `TID_NIT_ACT` (the
actual variant) when `actual` is absent, and `preferred_section = -1` to the
entry of a `transport_stream` child that has no `preferred_section` attribute:
the entry has it once the child is processed, and it has it in the resulting
map when the child is the last one of the tree with its key. -/
theorem fromXML_defaults (conv : Conv) (e : xml.Element) (init : NIT)
    (h : TreeValid conv e) :
    (Absent e "current" → (fromXML conv e init).is_current = true) ∧
    (Absent e "actual" →
      (fromXML conv e init)._table_id = TID_NIT_ACT ∧ (fromXML conv e init).isActual = true) ∧
    (∀ pre c post, e.children = pre ++ c :: post → c.name = "transport_stream" →
      Absent c "preferred_section" →
      (∀ c' ∈ post, c'.name = "transport_stream" → childKey conv c' ≠ childKey conv c) →
      ∃ entry, TransportMap.find? (fromXML conv e init).transports (childKey conv c) = some entry ∧
        entry.preferred_section = -1) ∧
    (∀ c ∈ e.children, c.name = "transport_stream" → Absent c "preferred_section" →
      ∀ s : NIT, ∃ entry,
        TransportMap.find? (fromXMLChild conv c s).transports (childKey conv c) = some entry ∧
          entry.preferred_section = -1) := by
  rw [fromXML_valid conv e init h]
  refine ⟨?_, ?_, ?_, ?_⟩
  · intro ha
    unfold Absent at ha
    simp [decoded, optBoolAttr, xml.Element.hasAttribute, ha]
  · intro ha
    unfold Absent at ha
    simp [decoded, optBoolAttr, xml.Element.hasAttribute, ha, isActual]
  · intro pre c post hch hc ha hlast
    refine ⟨childEntry conv c, decoded_find?_last conv e pre post c hch hc hlast, ?_⟩
    unfold Absent at ha
    simp [childEntry, xml.Element.hasAttribute, ha]
  · intro c hc hn ha s
    rw [fromXMLChild_valid conv c s (h.2.2.2.2.2.2 c hc hn)]
    refine ⟨childEntry conv c, TransportMap.find?_set_self _ _ _, ?_⟩
    unfold Absent at ha
    simp [childEntry, xml.Element.hasAttribute, ha]

/-- C10. Key overwrite: for every valid tree with two `transport_stream` children
`c₁` and, later, `c₂` that name the same key, `c₂` being the last child with this
key, the map that `fromXML` yields has exactly one entry for the key, and this
entry holds the descriptor list and the `preferred_section` of `c₂` (-1 when
`c₂` has no such attribute, whatever `c₁` had). -/
theorem fromXML_key_overwrite (conv : Conv) (e : xml.Element) (init : NIT)
    (pre mid post : List xml.Element) (c₁ c₂ : xml.Element)
    (h : TreeValid conv e)
    (hch : e.children = pre ++ c₁ :: (mid ++ c₂ :: post))
    (h1 : c₁.name = "transport_stream") (h2 : c₂.name = "transport_stream")
    (hk : childKey conv c₁ = childKey conv c₂)
    (hlast : ∀ c' ∈ post, c'.name = "transport_stream" → childKey conv c' ≠ childKey conv c₂) :
    (fromXML conv e init).transports.filter (fun it => it.1 = childKey conv c₂) =
      [(childKey conv c₂,
        { descs := c₂.children.filterMap conv.descFromXML,
          preferred_section :=
            if c₂.hasAttribute "preferred_section" then intAttr conv c₂ "preferred_section"
            else -1 })] := by
  rw [fromXML_valid conv e init h]
  have hch' : e.children = (pre ++ c₁ :: mid) ++ c₂ :: post := by
    rw [hch]; simp
  exact TransportMap.find?_of_sorted_filter _ _ _ (decoded_sorted conv e)
    (decoded_find?_last conv e _ post c₂ hch' h2 hlast)

end NIT

end ts

/-! ## Theorems: the tree round trip -/

namespace ts

namespace NIT

theorem buildXML_transport (conv : Conv) (it : TransportStreamId × Transport) :
    DescriptorList.toXML conv it.2.descs
      (if it.2.preferred_section ≥ 0 then
        (((xml.Element.mk "transport_stream" [] []).setIntAttribute conv "transport_stream_id"
          it.1.transport_stream_id true).setIntAttribute conv "original_network_id"
          it.1.original_network_id true).setIntAttribute conv "preferred_section"
          it.2.preferred_section false
      else
        ((xml.Element.mk "transport_stream" [] []).setIntAttribute conv "transport_stream_id"
          it.1.transport_stream_id true).setIntAttribute conv "original_network_id"
          it.1.original_network_id true) = transportElement conv it := by
  by_cases hp : it.2.preferred_section ≥ 0
  · simp [hp, transportElement, DescriptorList.toXML, xml.Element.setIntAttribute,
      xml.Element.setAttribute, xml.setAttributeText, xml.Element.name, xml.Element.attributes,
      xml.Element.children]
  · simp [hp, transportElement, DescriptorList.toXML, xml.Element.setIntAttribute,
      xml.Element.setAttribute, xml.setAttributeText, xml.Element.name, xml.Element.attributes,
      xml.Element.children]

theorem buildXML_loop (conv : Conv) (ts : TransportMap) (root : xml.Element) :
    ts.foldl (fun root it =>
      let e := xml.Element.mk "transport_stream" [] []
      let e := e.setIntAttribute conv "transport_stream_id" it.1.transport_stream_id true
      let e := e.setIntAttribute conv "original_network_id" it.1.original_network_id true
      let e := if it.2.preferred_section ≥ 0 then
          e.setIntAttribute conv "preferred_section" it.2.preferred_section false
        else e
      let e := DescriptorList.toXML conv it.2.descs e
      root.addChild e) root =
    .mk root.name root.attributes (root.children ++ ts.map (transportElement conv)) := by
  induction ts generalizing root with
  | nil => cases root; simp [xml.Element.name, xml.Element.attributes, xml.Element.children]
  | cons it rest ih =>
    rw [List.foldl_cons, ih]
    simp only []
    rw [buildXML_transport conv it]
    simp [xml.Element.addChild, xml.Element.name, xml.Element.attributes, xml.Element.children]

theorem buildXML_fresh (conv : Conv) (M : NIT) (name : String) :
    buildXML conv M (.mk name [] []) =
      .mk name
        [("version", conv.decimal M.version), ("current", conv.boolean M.is_current),
          ("network_id", conv.hexa M.network_id), ("actual", conv.boolean M.isActual)]
        (M.descs.map conv.descToXML ++ M.transports.map (transportElement conv)) := by
  unfold buildXML
  simp only []
  rw [buildXML_loop]
  simp [DescriptorList.toXML, xml.Element.setIntAttribute, xml.Element.setBoolAttribute,
    xml.Element.setAttribute, xml.setAttributeText, xml.Element.name, xml.Element.attributes,
    xml.Element.children]

theorem filterMap_descToXML (conv : Conv) (ds : DescriptorList)
    (h : ∀ d ∈ ds, DescriptorRoundTrip conv d) :
    (ds.map conv.descToXML).filterMap conv.descFromXML = ds := by
  induction ds with
  | nil => rfl
  | cons d rest ih =>
    have hd := (h d (List.mem_cons_self _ _)).1
    rw [List.map_cons, List.filterMap_cons, hd]
    simp only []
    rw [ih (fun d' hd' => h d' (List.mem_cons_of_mem _ hd'))]

theorem filter_descToXML (conv : Conv) (ds : DescriptorList)
    (h : ∀ d ∈ ds, DescriptorRoundTrip conv d) :
    (ds.map conv.descToXML).filter (fun c => c.name ≠ "transport_stream") =
        ds.map conv.descToXML ∧
      (ds.map conv.descToXML).filter (fun c => c.name = "transport_stream") = [] := by
  constructor
  · rw [List.filter_eq_self]
    intro c hc
    obtain ⟨d, hd, rfl⟩ := List.mem_map.mp hc
    simpa using (h d hd).2
  · rw [List.filter_eq_nil_iff]
    intro c hc
    obtain ⟨d, hd, rfl⟩ := List.mem_map.mp hc
    simpa using (h d hd).2

theorem filter_transportElement (conv : Conv) (ts : TransportMap) :
    (ts.map (transportElement conv)).filter (fun c => c.name ≠ "transport_stream") = [] ∧
      (ts.map (transportElement conv)).filter (fun c => c.name = "transport_stream") =
        ts.map (transportElement conv) := by
  constructor
  · rw [List.filter_eq_nil_iff]
    intro c hc
    obtain ⟨it, _, rfl⟩ := List.mem_map.mp hc
    simp [transportElement, xml.Element.name]
  · rw [List.filter_eq_self]
    intro c hc
    obtain ⟨it, _, rfl⟩ := List.mem_map.mp hc
    simp [transportElement, xml.Element.name]

theorem childKey_transportElement (conv : Conv) (it : TransportStreamId × Transport)
    (h1 : conv.toInteger (conv.hexa it.1.transport_stream_id) = some it.1.transport_stream_id)
    (h2 : conv.toInteger (conv.hexa it.1.original_network_id) = some it.1.original_network_id) :
    childKey conv (transportElement conv it) = it.1 := by
  simp [childKey, intAttr, transportElement, xml.Element.attribute, xml.Element.attributes,
    List.lookup, h1, h2]

theorem childEntry_transportElement (conv : Conv) (it : TransportStreamId × Transport)
    (h1 : 0 ≤ it.2.preferred_section →
      conv.toInteger (conv.decimal it.2.preferred_section) = some it.2.preferred_section)
    (h2 : ∀ d ∈ it.2.descs, DescriptorRoundTrip conv d)
    (h3 : -1 ≤ it.2.preferred_section) :
    childEntry conv (transportElement conv it) = it.2 := by
  obtain ⟨k, ⟨ds, pref⟩⟩ := it
  simp only at h1 h2 h3
  by_cases hp : pref ≥ 0
  · simp [childEntry, intAttr, transportElement, xml.Element.attribute, xml.Element.attributes,
      xml.Element.hasAttribute, xml.Element.children, List.lookup, hp, h1 hp,
      filterMap_descToXML conv ds h2]
  · have hp' : pref = -1 := by omega
    simp [childEntry, intAttr, transportElement, xml.Element.attribute, xml.Element.attributes,
      xml.Element.hasAttribute, xml.Element.children, List.lookup, hp, hp',
      filterMap_descToXML conv ds h2]

theorem childValid_transportElement (conv : Conv) (it : TransportStreamId × Transport)
    (h1 : conv.toInteger (conv.hexa it.1.transport_stream_id) = some it.1.transport_stream_id)
    (h2 : conv.toInteger (conv.hexa it.1.original_network_id) = some it.1.original_network_id)
    (h3 : 0 ≤ it.2.preferred_section →
      conv.toInteger (conv.decimal it.2.preferred_section) = some it.2.preferred_section)
    (h4 : ∀ d ∈ it.2.descs, DescriptorRoundTrip conv d)
    (r1 : 0 ≤ it.1.transport_stream_id ∧ it.1.transport_stream_id ≤ 0xFFFF)
    (r2 : 0 ≤ it.1.original_network_id ∧ it.1.original_network_id ≤ 0xFFFF)
    (r3 : it.2.preferred_section ≤ 255) :
    ChildValid conv (transportElement conv it) := by
  refine ⟨⟨_, _, ?_, h1, r1.1, r1.2⟩, ⟨_, _, ?_, h2, r2.1, r2.2⟩, ?_, ?_⟩
  · simp [transportElement, xml.Element.attribute, xml.Element.attributes, List.lookup]
  · simp [transportElement, xml.Element.attribute, xml.Element.attributes, List.lookup]
  · intro n hn
    simp only [transportElement, xml.Element.children] at hn
    obtain ⟨d, hd, rfl⟩ := List.mem_map.mp hn
    rw [(h4 d hd).1]
    simp
  · by_cases hp : it.2.preferred_section ≥ 0
    · right
      refine ⟨_, _, ?_, h3 hp, hp, r3⟩
      simp [transportElement, xml.Element.attribute, xml.Element.attributes, List.lookup, hp]
    · left
      simp [Absent, transportElement, xml.Element.attribute, xml.Element.attributes,
        List.lookup, hp]

theorem foldl_transportElement (conv : Conv) (ts : TransportMap) (m : TransportMap)
    (h : ∀ it ∈ ts, childKey conv (transportElement conv it) = it.1 ∧
      childEntry conv (transportElement conv it) = it.2) :
    (ts.map (transportElement conv)).foldl
        (fun m c => m.set (childKey conv c) (childEntry conv c)) m =
      ts.foldl (fun m it => TransportMap.set m it.1 it.2) m := by
  induction ts generalizing m with
  | nil => rfl
  | cons it rest ih =>
    obtain ⟨hk, he⟩ := h it (List.mem_cons_self _ _)
    rw [List.map_cons, List.foldl_cons, List.foldl_cons, hk, he,
      ih _ (fun it' hit' => h it' (List.mem_cons_of_mem _ hit'))]

theorem treeValid_buildXML (conv : Conv) (M : NIT)
    (hty : WellTyped M) (hver : 0 ≤ M.version ∧ M.version ≤ 31)
    (hpref : ∀ it ∈ M.transports,
      -1 ≤ it.2.preferred_section ∧ it.2.preferred_section ≤ 255)
    (hrt : RoundTripOn conv M) :
    TreeValid conv (buildXML conv M (.mk MY_XML_NAME [] [])) := by
  obtain ⟨t1, t2, t3, _⟩ := hty
  obtain ⟨c1, c2, c3, c4, c5, c6⟩ := hrt
  rw [buildXML_fresh]
  refine ⟨rfl, Or.inr ⟨_, _, ?_, c1, hver.1, hver.2⟩, Or.inr ⟨_, _, ?_, c2⟩,
    ⟨_, _, ?_, c3, t1, t2⟩, Or.inr ⟨_, _, ?_, c4⟩, ?_, ?_⟩
  · simp [xml.Element.attribute, xml.Element.attributes, List.lookup]
  · simp [xml.Element.attribute, xml.Element.attributes, List.lookup]
  · simp [xml.Element.attribute, xml.Element.attributes, List.lookup]
  · simp [xml.Element.attribute, xml.Element.attributes, List.lookup]
  · intro c hc hn
    simp only [xml.Element.children, List.mem_append] at hc
    rcases hc with hc | hc
    · obtain ⟨d, hd, rfl⟩ := List.mem_map.mp hc
      rw [(c5 d hd).1]
      simp
    · obtain ⟨it, _, rfl⟩ := List.mem_map.mp hc
      exact absurd rfl hn
  · intro c hc hn
    simp only [xml.Element.children, List.mem_append] at hc
    rcases hc with hc | hc
    · obtain ⟨d, hd, rfl⟩ := List.mem_map.mp hc
      exact absurd hn (c5 d hd).2
    · obtain ⟨it, hit, rfl⟩ := List.mem_map.mp hc
      obtain ⟨k1, k2, k3, k4⟩ := c6 it hit
      obtain ⟨r1, r2, r3, r4⟩ := t3 it hit
      exact childValid_transportElement conv it k1 k2 k3 k4 ⟨r1, r2⟩ ⟨r3, r4⟩ (hpref it hit).2

theorem decoded_buildXML (conv : Conv) (M : NIT)
    (hty : WellTyped M)
    (hpref : ∀ it ∈ M.transports,
      -1 ≤ it.2.preferred_section ∧ it.2.preferred_section ≤ 255)
    (hrt : RoundTripOn conv M) :
    decoded conv (buildXML conv M (.mk MY_XML_NAME [] [])) =
      { M with
        _is_valid := true
        _table_id := if M.isActual then TID_NIT_ACT else TID_NIT_OTH } := by
  obtain ⟨_, _, _, t4⟩ := hty
  obtain ⟨c1, c2, c3, c4, c5, c6⟩ := hrt
  rw [buildXML_fresh]
  have hd : descriptorChildren (.mk MY_XML_NAME
      [("version", conv.decimal M.version), ("current", conv.boolean M.is_current),
        ("network_id", conv.hexa M.network_id), ("actual", conv.boolean M.isActual)]
      (M.descs.map conv.descToXML ++ M.transports.map (transportElement conv))) =
      M.descs.map conv.descToXML := by
    unfold descriptorChildren
    simp only [xml.Element.children, List.filter_append, (filter_descToXML conv M.descs c5).1,
      (filter_transportElement conv M.transports).1, List.append_nil]
  have ht : transportChildren (.mk MY_XML_NAME
      [("version", conv.decimal M.version), ("current", conv.boolean M.is_current),
        ("network_id", conv.hexa M.network_id), ("actual", conv.boolean M.isActual)]
      (M.descs.map conv.descToXML ++ M.transports.map (transportElement conv))) =
      M.transports.map (transportElement conv) := by
    unfold transportChildren
    simp only [xml.Element.children, List.filter_append, (filter_descToXML conv M.descs c5).2,
      (filter_transportElement conv M.transports).2, List.nil_append]
  have hfold : (M.transports.map (transportElement conv)).foldl
      (fun (m : TransportMap) c => m.set (childKey conv c) (childEntry conv c)) [] =
      M.transports := by
    rw [foldl_transportElement conv M.transports [] (fun it hit => by
      obtain ⟨k1, k2, k3, k4⟩ := c6 it hit
      exact ⟨childKey_transportElement conv it k1 k2,
        childEntry_transportElement conv it k3 k4 (hpref it hit).1⟩)]
    simpa using TransportMap.foldl_set_sorted M.transports [] (by simpa using t4)
  unfold decoded
  rw [hd, ht, hfold, filterMap_descToXML conv M.descs c5]
  cases M
  simp [optIntAttr, optBoolAttr, intAttr, boolAttr, xml.Element.hasAttribute,
    xml.Element.attribute, xml.Element.attributes, List.lookup] at c1 c2 c3 c4 ⊢
  simp [c1, c2, c3, c4]

/-- C5. Tree round trip: for every model `M` with a version in [0, 31], placement
hints in [-1, 255] and fields within their types, and for conversions that are a
round trip on what `M` holds, `fromXML` applied (to an object of any prior
content) to the tree that `buildXML` makes of `M` ends with `_is_valid = true`
and yields the version, current flag, network id, variant, top-level
descriptor list and map of `M`. -/
theorem tree_round_trip (conv : Conv) (M init : NIT)
    (hty : WellTyped M) (hver : 0 ≤ M.version ∧ M.version ≤ 31)
    (hpref : ∀ it ∈ M.transports,
      -1 ≤ it.2.preferred_section ∧ it.2.preferred_section ≤ 255)
    (hrt : RoundTripOn conv M) :
    (fromXML conv (buildXML conv M (.mk MY_XML_NAME [] [])) init)._is_valid = true ∧
    (fromXML conv (buildXML conv M (.mk MY_XML_NAME [] [])) init).version = M.version ∧
    (fromXML conv (buildXML conv M (.mk MY_XML_NAME [] [])) init).is_current = M.is_current ∧
    (fromXML conv (buildXML conv M (.mk MY_XML_NAME [] [])) init).network_id = M.network_id ∧
    (fromXML conv (buildXML conv M (.mk MY_XML_NAME [] [])) init).isActual = M.isActual ∧
    (fromXML conv (buildXML conv M (.mk MY_XML_NAME [] [])) init).descs = M.descs ∧
    (fromXML conv (buildXML conv M (.mk MY_XML_NAME [] [])) init).transports = M.transports := by
  rw [fromXML_valid conv _ init (treeValid_buildXML conv M hty hver hpref hrt),
    decoded_buildXML conv M hty hpref hrt]
  refine ⟨rfl, rfl, rfl, rfl, ?_, rfl, rfl⟩
  cases h : M.isActual <;> simp [isActual, h, TID_NIT_ACT, TID_NIT_OTH]

end NIT

end ts

/-! ## Theorems: instances on the sample trees -/

namespace ts

namespace NIT

/-- Witness of `tree_round_trip` on `sampleModel` with the conversions
`sampleConv`. -/
theorem tree_round_trip_witness :
    (fromXML sampleConv (buildXML sampleConv sampleModel (.mk MY_XML_NAME [] []))
      NIT.blank)._is_valid = true ∧
    (fromXML sampleConv (buildXML sampleConv sampleModel (.mk MY_XML_NAME [] []))
      NIT.blank).version = 5 ∧
    (fromXML sampleConv (buildXML sampleConv sampleModel (.mk MY_XML_NAME [] []))
      NIT.blank).is_current = false ∧
    (fromXML sampleConv (buildXML sampleConv sampleModel (.mk MY_XML_NAME [] []))
      NIT.blank).network_id = 0x1234 ∧
    (fromXML sampleConv (buildXML sampleConv sampleModel (.mk MY_XML_NAME [] []))
      NIT.blank).isActual = false ∧
    (fromXML sampleConv (buildXML sampleConv sampleModel (.mk MY_XML_NAME [] []))
      NIT.blank).descs = sampleModel.descs ∧
    (fromXML sampleConv (buildXML sampleConv sampleModel (.mk MY_XML_NAME [] []))
      NIT.blank).transports = sampleModel.transports :=
  tree_round_trip sampleConv sampleModel NIT.blank
    (by unfold WellTyped TransportMap.Sorted; decide)
    (by decide)
    (by decide)
    (by unfold RoundTripOn DescriptorRoundTrip; decide)

/-- Witness of `fromXML_abort_on_failure`: the child after the one whose id is
out of range is not processed. -/
theorem fromXML_abort_on_failure_witness :
    (fromXML sampleConv
      (.mk "NIT" [("network_id", "1")] ([sampleChildA] ++ sampleChildBad :: [sampleChildC]))
      NIT.blank)._is_valid = false ∧
    fromXML sampleConv
      (.mk "NIT" [("network_id", "1")] ([sampleChildA] ++ sampleChildBad :: [sampleChildC]))
      NIT.blank =
    fromXML sampleConv
      (.mk "NIT" [("network_id", "1")]
        ([sampleChildA] ++ sampleChildBad ::
          [sampleChildC].filter (fun x => x.name ≠ "transport_stream")))
      NIT.blank :=
  fromXML_abort_on_failure sampleConv "NIT" [("network_id", "1")] [sampleChildA] [sampleChildC]
    sampleChildBad NIT.blank rfl
    (fun h => absurd
      ((getIntAttribute_required_iff sampleConv sampleChildBad 0 "transport_stream_id" 0 0
        0xFFFF).mpr h.1)
      (by decide))

/-- Witness of `fromXML_defaults` on `sampleTreeDuplicate`, which has no
`current` and no `actual`, and whose last child has no `preferred_section`. -/
theorem fromXML_defaults_witness :
    TreeValid sampleConv sampleTreeDuplicate ∧
    (fromXML sampleConv sampleTreeDuplicate NIT.blank).is_current = true ∧
    (fromXML sampleConv sampleTreeDuplicate NIT.blank)._table_id = TID_NIT_ACT ∧
    ∃ entry, TransportMap.find? (fromXML sampleConv sampleTreeDuplicate NIT.blank).transports
        (childKey sampleConv sampleChildA2) = some entry ∧ entry.preferred_section = -1 :=
  have hv : TreeValid sampleConv sampleTreeDuplicate :=
    (fromXML_valid_iff sampleConv sampleTreeDuplicate NIT.blank).mp (by decide)
  have h := fromXML_defaults sampleConv sampleTreeDuplicate NIT.blank hv
  ⟨hv, h.1 rfl, (h.2.1 rfl).1,
    h.2.2.1 [sampleChildA, sampleChildC] sampleChildA2 [] rfl rfl rfl (by simp)⟩

/-- Witness of `fromXML_key_overwrite` on `sampleTreeDuplicate`: the entry of the
key (1, 2) is the one of the later child, with `preferred_section = -1`. -/
theorem fromXML_key_overwrite_witness :
    (fromXML sampleConv sampleTreeDuplicate NIT.blank).transports.filter
        (fun it => it.1 = ⟨1, 2⟩) =
      [(⟨1, 2⟩, { descs := [⟨66, []⟩], preferred_section := -1 })] :=
  fromXML_key_overwrite sampleConv sampleTreeDuplicate NIT.blank [] [sampleChildC] []
    sampleChildA sampleChildA2
    ((fromXML_valid_iff sampleConv sampleTreeDuplicate NIT.blank).mp (by decide))
    rfl rfl rfl rfl (by simp)

end NIT

end ts

/-! ## Theorems: what the walk reports -/

namespace ts

namespace NIT

theorem reportedEntries_entryEvents (p : List Byte) (d s l : Nat) (t : List Event) :
    reportedEntries (entryEvents p d s l ++ t) =
      (GetUInt16 p d, GetUInt16 p (d + 2), d + 6, entryLength p d l) :: reportedEntries t := by
  simp [entryEvents, reportedEntries]

theorem LoopRun.entries_append {p : List Byte} {d s l : Nat} {t : List Event} {d' s' : Nat}
    (run : LoopRun p d s l t d' s') (post : List Event) :
    reportedEntries (t ++ post) = reportedEntries t ++ reportedEntries post := by
  induction run with
  | done d s l h => simp [reportedEntries]
  | iter d s l t d' s' h rest ih =>
    rw [List.append_assoc, reportedEntries_entryEvents, reportedEntries_entryEvents, ih]
    rfl

theorem LoopRun.account {p : List Byte} {d s l : Nat} {t : List Event} {d' s' : Nat}
    (run : LoopRun p d s l t d' s') (hls : l ≤ s) :
    entryBytes t + s' = s ∧ d' = d + entryBytes t ∧ entryBytes t ≤ l ∧
      (reportedEntries t).length * 6 ≤ l ∧
      (∀ dd ss ll, ll < 6 → Event.whileTest dd ss ll ∈ t → dd = d' ∧ ss = s' ∧ ll ≤ s') := by
  induction run with
  | done d s l h =>
    refine ⟨by simp [entryBytes, reportedEntries], by simp [entryBytes, reportedEntries],
      by simp [entryBytes, reportedEntries], by simp [reportedEntries], ?_⟩
    intro dd ss ll _ hm
    simp only [List.mem_singleton, Event.whileTest.injEq] at hm
    obtain ⟨rfl, rfl, rfl⟩ := hm
    exact ⟨rfl, rfl, hls⟩
  | iter d s l t d' s' h rest ih =>
    have hlen : entryLength p d l ≤ l - 6 := Nat.min_le_right _ _
    obtain ⟨i1, i2, i3, i4, i5⟩ := ih (by omega)
    have hb : entryBytes (entryEvents p d s l ++ t) = 6 + entryLength p d l + entryBytes t := by
      unfold entryBytes
      rw [reportedEntries_entryEvents]
      simp
    have hc : (reportedEntries (entryEvents p d s l ++ t)).length =
        (reportedEntries t).length + 1 := by
      rw [reportedEntries_entryEvents]
      simp
    refine ⟨by omega, by omega, by omega, by omega, ?_⟩
    intro dd ss ll hll hm
    rw [List.mem_append] at hm
    rcases hm with hm | hm
    · simp only [entryEvents, List.mem_cons, List.mem_singleton, Event.whileTest.injEq,
        reduceCtorEq, List.not_mem_nil, or_false] at hm
      omega
    · exact i5 dd ss ll hll hm

theorem LoopRun.observables {p : List Byte} {d s l : Nat} {t : List Event} {d' s' : Nat}
    (run : LoopRun p d s l t d' s') (post : List Event) :
    topRegion (t ++ post) = none ∧ outerFields (t ++ post) = 0 := by
  obtain ⟨t', rfl⟩ := run.head
  simp [topRegion, outerFields]

theorem extraData_not_in_loop {p : List Byte} {d s l : Nat} {t : List Event} {d' s' : Nat}
    (run : LoopRun p d s l t d' s') (a b : Nat) : Event.extraData a b ∉ t := by
  induction run with
  | done d s l h => simp
  | iter d s l t d' s' h rest ih =>
    rw [List.mem_append]
    rintro (hm | hm)
    · simp [entryEvents] at hm
    · exact ih hm

theorem topEvents_observables (sec : Section) (rest : List Event) :
    reportedEntries (topEvents sec ++ rest) = reportedEntries rest ∧
    (topRegion rest = none → topBytes (topEvents sec ++ rest) = topLength sec) ∧
    outerFields (topEvents sec ++ rest) = 1 + outerFields rest ∧
    (∀ a b, Event.extraData a b ∉ topEvents sec) := by
  unfold topEvents topBytes
  by_cases h : 0 < topLength sec
  · refine ⟨?_, ?_, ?_, ?_⟩
    · simp [h, reportedEntries]
    · intro _
      simp [h, topRegion]
    · simp [h, outerFields]
    · simp [h]
  · have h0 : topLength sec = 0 := by omega
    refine ⟨?_, ?_, ?_, ?_⟩
    · simp [h0, reportedEntries]
    · intro hr
      simp [h0, topRegion, hr]
    · simp [h0, outerFields]
    · simp [h0]

/-- The three shapes of a trace, with what each one reports. -/
theorem DisplaySection_report (sec : Section) :
    ∃ t pre off len, DisplaySection sec = some t ∧ t = pre ++ [Event.extraData off len] ∧
      (∀ a b, Event.extraData a b ∉ pre) ∧
      off + len = sec.payloadSize ∧
      2 * outerFields t + topBytes t + entryBytes t = off ∧
      (∀ d s l, l < 6 → Event.whileTest d s l ∈ t → d = off ∧ s = len ∧ l ≤ len) ∧
      (sec.payloadSize < 2 → pre = []) ∧
      (2 ≤ sec.payloadSize → topBytes t = topLength sec) ∧
      (2 ≤ sec.payloadSize → sec.payloadSize - 2 - topLength sec < 2 →
        reportedEntries t = [] ∧ outerFields t = 1 ∧
          ∀ e ∈ t, ∀ a b c, e ≠ Event.whileTest a b c) ∧
      (2 ≤ sec.payloadSize → 2 ≤ sec.payloadSize - 2 - topLength sec →
        (reportedEntries t).length * 6 ≤ entriesLength sec ∧ outerFields t = 2) := by
  by_cases h : 2 ≤ sec.payloadSize
  · have hle : topLength sec ≤ sec.payloadSize - 2 := Nat.min_le_right _ _
    by_cases h2 : 2 ≤ sec.payloadSize - 2 - topLength sec
    · obtain ⟨tl, d, s, hrun, heq⟩ := DisplaySection_entries sec h h2
      have hle2 : entriesLength sec ≤ sec.payloadSize - 2 - topLength sec - 2 :=
        Nat.min_le_right _ _
      obtain ⟨a1, a2, a3, a4, a5⟩ := hrun.account hle2
      have heq' : DisplaySection sec = some ((topEvents sec ++
          ([Event.getUInt16 (2 + topLength sec) true,
            Event.decSize (sec.payloadSize - 2 - topLength sec) 2] ++ tl)) ++
          [Event.extraData d s]) := by
        rw [heq]
        simp only [List.append_assoc]
      obtain ⟨o1, o2, o3, o4⟩ := topEvents_observables sec
        ([Event.getUInt16 (2 + topLength sec) true,
          Event.decSize (sec.payloadSize - 2 - topLength sec) 2] ++ tl ++ [Event.extraData d s])
      obtain ⟨l1, l2⟩ := hrun.observables [Event.extraData d s]
      have l3 := hrun.entries_append [Event.extraData d s]
      have hre : reportedEntries ((topEvents sec ++
          ([Event.getUInt16 (2 + topLength sec) true,
            Event.decSize (sec.payloadSize - 2 - topLength sec) 2] ++ tl)) ++
          [Event.extraData d s]) = reportedEntries tl := by
        have e1 : (topEvents sec ++
            ([Event.getUInt16 (2 + topLength sec) true,
              Event.decSize (sec.payloadSize - 2 - topLength sec) 2] ++ tl)) ++
            [Event.extraData d s] = topEvents sec ++
            ([Event.getUInt16 (2 + topLength sec) true,
              Event.decSize (sec.payloadSize - 2 - topLength sec) 2] ++ tl ++
              [Event.extraData d s]) := by simp only [List.append_assoc]
        rw [e1, o1]
        have e2 : reportedEntries ([Event.getUInt16 (2 + topLength sec) true,
            Event.decSize (sec.payloadSize - 2 - topLength sec) 2] ++ tl ++
            [Event.extraData d s]) = reportedEntries (tl ++ [Event.extraData d s]) := by
          simp [reportedEntries]
        rw [e2, l3]
        simp [reportedEntries]
      have hof : outerFields ((topEvents sec ++
          ([Event.getUInt16 (2 + topLength sec) true,
            Event.decSize (sec.payloadSize - 2 - topLength sec) 2] ++ tl)) ++
          [Event.extraData d s]) = 2 := by
        have e1 : (topEvents sec ++
            ([Event.getUInt16 (2 + topLength sec) true,
              Event.decSize (sec.payloadSize - 2 - topLength sec) 2] ++ tl)) ++
            [Event.extraData d s] = topEvents sec ++
            ([Event.getUInt16 (2 + topLength sec) true,
              Event.decSize (sec.payloadSize - 2 - topLength sec) 2] ++ tl ++
              [Event.extraData d s]) := by simp only [List.append_assoc]
        rw [e1, o3]
        have e2 : outerFields ([Event.getUInt16 (2 + topLength sec) true,
            Event.decSize (sec.payloadSize - 2 - topLength sec) 2] ++ tl ++
            [Event.extraData d s]) = 1 + outerFields (tl ++ [Event.extraData d s]) := by
          simp [outerFields]
        rw [e2, l2]
      have htb : topBytes ((topEvents sec ++
          ([Event.getUInt16 (2 + topLength sec) true,
            Event.decSize (sec.payloadSize - 2 - topLength sec) 2] ++ tl)) ++
          [Event.extraData d s]) = topLength sec := by
        have e1 : (topEvents sec ++
            ([Event.getUInt16 (2 + topLength sec) true,
              Event.decSize (sec.payloadSize - 2 - topLength sec) 2] ++ tl)) ++
            [Event.extraData d s] = topEvents sec ++
            ([Event.getUInt16 (2 + topLength sec) true,
              Event.decSize (sec.payloadSize - 2 - topLength sec) 2] ++ tl ++
              [Event.extraData d s]) := by simp only [List.append_assoc]
        rw [e1]
        apply o2
        have e2 : topRegion ([Event.getUInt16 (2 + topLength sec) true,
            Event.decSize (sec.payloadSize - 2 - topLength sec) 2] ++ tl ++
            [Event.extraData d s]) = topRegion (tl ++ [Event.extraData d s]) := by
          simp [topRegion]
        rw [e2, l1]
      refine ⟨_, _, d, s, heq', rfl, ?_, by omega, ?_, ?_, fun hh => by omega, fun _ => htb,
        fun _ hh => by omega, fun _ _ => ⟨by rw [hre]; exact a4, hof⟩⟩
      · intro a b hm
        simp only [List.mem_append, List.mem_cons, List.mem_singleton, List.not_mem_nil,
          or_false, reduceCtorEq, false_or] at hm
        rcases hm with hm | hm
        · exact o4 a b hm
        · exact extraData_not_in_loop hrun a b hm
      · unfold entryBytes at a1 a2 a3 ⊢
        rw [hof, htb, hre]
        omega
      · intro dd ss ll hll hm
        simp only [List.mem_append, List.mem_cons, List.mem_singleton, List.not_mem_nil,
          or_false, reduceCtorEq, false_or] at hm
        rcases hm with hm | hm
        · exact absurd rfl (topEvents_not_whileTest sec _ hm dd ss ll)
        · exact a5 dd ss ll hll hm
    · have h2' : sec.payloadSize - 2 - topLength sec < 2 := by omega
      obtain ⟨o1, o2, o3, o4⟩ := topEvents_observables sec
        [Event.extraData (2 + topLength sec) (sec.payloadSize - 2 - topLength sec)]
      have htb : topBytes (topEvents sec ++
          [Event.extraData (2 + topLength sec) (sec.payloadSize - 2 - topLength sec)]) =
          topLength sec := o2 (by simp [topRegion])
      have hre : reportedEntries (topEvents sec ++
          [Event.extraData (2 + topLength sec) (sec.payloadSize - 2 - topLength sec)]) = [] := by
        rw [o1]
        simp [reportedEntries]
      have hof : outerFields (topEvents sec ++
          [Event.extraData (2 + topLength sec) (sec.payloadSize - 2 - topLength sec)]) = 1 := by
        rw [o3]
        simp [outerFields]
      have hnw : ∀ e ∈ topEvents sec ++
          [Event.extraData (2 + topLength sec) (sec.payloadSize - 2 - topLength sec)],
          ∀ a b c, e ≠ Event.whileTest a b c := by
        intro e he a b c
        rw [List.mem_append] at he
        rcases he with he | he
        · exact topEvents_not_whileTest sec e he a b c
        · simp only [List.mem_singleton] at he
          subst he
          simp
      refine ⟨_, _, _, _, DisplaySection_noEntries sec h h2', rfl, o4, by omega, ?_, ?_,
        fun hh => by omega, fun _ => htb, fun _ _ => ⟨hre, hof, hnw⟩, fun _ hh => by omega⟩
      · unfold entryBytes
        rw [hof, htb, hre]
        simp
      · intro dd ss ll _ hm
        exact absurd rfl (hnw _ hm dd ss ll)
  · have h' : sec.payloadSize < 2 := by omega
    refine ⟨_, [], 0, sec.payloadSize, DisplaySection_short sec h', rfl, by simp, by omega,
      by simp [outerFields, topBytes, topRegion, entryBytes, reportedEntries], ?_, fun _ => rfl,
      fun hh => by omega, fun hh => by omega, fun hh => by omega⟩
    intro dd ss ll _ hm
    simp at hm

end NIT

end ts

/-! ## Theorems: extra data, early stop and termination of the walk -/

namespace ts

namespace NIT

theorem transportLoop_run_div (p : List Byte) :
    ∀ (fuel d s l : Nat), l ≤ s → s < SIZE_T_MOD → l / 6 < fuel →
      ∃ t d' s', transportLoop p fuel d s l = some (t, d', s') ∧ LoopRun p d s l t d' s' := by
  intro fuel
  induction fuel with
  | zero => intro d s l _ _ h; omega
  | succ fuel ih =>
    intro d s l hls hs hf
    by_cases h6 : 6 ≤ l
    · have hlen : entryLength p d l ≤ l - 6 := Nat.min_le_right _ _
      obtain ⟨t, d', s', ht, hrun⟩ := ih (d + 6 + entryLength p d l) (s - 6 - entryLength p d l)
        (l - 6 - entryLength p d l) (by omega) (by omega) (by omega)
      refine ⟨entryEvents p d s l ++ t, d', s', ?_, LoopRun.iter d s l t d' s' h6 hrun⟩
      rw [transportLoop_ge p fuel d s l h6 hls hs, ht]
    · exact ⟨_, _, _, transportLoop_lt p fuel d s l (by omega), LoopRun.done d s l (by omega)⟩

theorem DisplaySection_loop_steps (sec : Section) (t : List Event)
    (ht : DisplaySection sec = some t) :
    ∀ d s l post, (Event.whileTest d s l :: post) <:+ t →
      (l < 6 → post = [Event.extraData d s]) ∧
      (6 ≤ l → ∃ post', post = (entryEvents sec.payload d s l).tail ++
        Event.whileTest (d + 6 + entryLength sec.payload d l) (s - 6 - entryLength sec.payload d l)
          (l - 6 - entryLength sec.payload d l) :: post') := by
  by_cases h : 2 ≤ sec.payloadSize
  · by_cases h2 : 2 ≤ sec.payloadSize - 2 - topLength sec
    · obtain ⟨tl, d₀, s₀, hrun, heq⟩ := DisplaySection_entries sec h h2
      rw [heq] at ht
      cases ht
      intro d s l post hsuf
      rw [List.append_assoc] at hsuf
      have hsuf' := whileTest_suffix_prefix _ _ d s l post (by
        intro e he a b c
        rw [List.mem_append] at he
        rcases he with he | he
        · exact topEvents_not_whileTest sec e he a b c
        · simp only [List.mem_cons, List.mem_singleton, List.not_mem_nil, or_false] at he
          rcases he with he | he <;> subst he <;> simp) hsuf
      exact hrun.steps d s l post hsuf'
    · rw [DisplaySection_noEntries sec h (by omega)] at ht
      cases ht
      intro d s l post hsuf
      exfalso
      have hsuf' := whileTest_suffix_prefix _ [Event.extraData (2 + topLength sec)
        (sec.payloadSize - 2 - topLength sec)] d s l post
        (topEvents_not_whileTest sec) hsuf
      simp [List.suffix_cons_iff] at hsuf'
  · rw [DisplaySection_short sec (by omega)] at ht
    cases ht
    intro d s l post hsuf
    simp [List.suffix_cons_iff] at hsuf

/-- C11. Extra data accounting: for every section the walk ends with one report
of extra data, at offset `off` for `len` bytes, which is the suffix of the
payload (`off + len = payloadSize`) that follows what was consumed: 2 bytes for
each loop length field read, the top-level descriptor bytes, and 6 bytes plus
the descriptor bytes for each entry reported, so that these and `len` add up to
the payload size. When the loop stops with `l < 6` bytes left in the entries
region, the extra data starts at the data pointer and holds these `l` bytes;
a payload of less than 2 bytes is reported as extra data as a whole. -/
theorem DisplaySection_extra_data (sec : Section) :
    ∃ t pre off len, DisplaySection sec = some t ∧ t = pre ++ [Event.extraData off len] ∧
      (∀ a b, Event.extraData a b ∉ pre) ∧
      off + len = sec.payloadSize ∧
      2 * outerFields t + topBytes t + ((reportedEntries t).map (fun e => 6 + e.2.2.2)).sum =
        off ∧
      2 * outerFields t + topBytes t + ((reportedEntries t).map (fun e => 6 + e.2.2.2)).sum +
        len = sec.payloadSize ∧
      (∀ d s l, l < 6 → Event.whileTest d s l ∈ t → d = off ∧ s = len ∧ l ≤ len) ∧
      (sec.payloadSize < 2 → t = [Event.extraData 0 sec.payloadSize]) := by
  obtain ⟨t, pre, off, len, h1, h2, h3, h4, h5, h6, h7, _⟩ := DisplaySection_report sec
  refine ⟨t, pre, off, len, h1, h2, h3, h4, h5, ?_, h6, ?_⟩
  · unfold entryBytes at h5
    omega
  · intro hs
    rw [DisplaySection_short sec hs] at h1
    cases h1
    rfl

/-- C13. Early stop: when the payload has less than 2 bytes the walk reports
nothing but the extra data (no top-level descriptor list, no entry); when less
than 2 bytes remain after the top-level descriptor list (of `a` bytes), it reads
no second loop length, does not enter the loop and reports no entry. -/
theorem DisplaySection_early_stop (sec : Section) :
    ∃ t, DisplaySection sec = some t ∧
      (sec.payloadSize < 2 →
        t = [Event.extraData 0 sec.payloadSize] ∧ topRegion t = none ∧
          reportedEntries t = []) ∧
      (2 ≤ sec.payloadSize → ∀ a : Nat,
        a = min (((sec.payload.getD 0 0).val * 256 + (sec.payload.getD 1 0).val) % 4096)
              (sec.payloadSize - 2) →
        sec.payloadSize - 2 - a < 2 →
        reportedEntries t = [] ∧ outerFields t = 1 ∧
          (∀ e ∈ t, ∀ x y z, e ≠ Event.whileTest x y z) ∧
          (∀ e ∈ t, ∀ x y, e ≠ Event.transport x y)) := by
  by_cases h : 2 ≤ sec.payloadSize
  · by_cases h2 : sec.payloadSize - 2 - topLength sec < 2
    · obtain ⟨t, pre, off, len, h1, _, _, _, _, _, _, _, h9, _⟩ := DisplaySection_report sec
      refine ⟨t, h1, fun hh => by omega, ?_⟩
      intro _ a ha _
      obtain ⟨r1, r2, r3⟩ := h9 h h2
      refine ⟨r1, r2, r3, ?_⟩
      rw [DisplaySection_noEntries sec h h2] at h1
      cases h1
      intro e he x y hc
      subst hc
      simp only [List.mem_append, List.mem_singleton, reduceCtorEq, or_false] at he
      unfold topEvents at he
      split at he <;> simp at he
    · obtain ⟨t, _, _, _, h1, _⟩ := DisplaySection_report sec
      refine ⟨t, h1, fun hh => by omega, ?_⟩
      intro _ a ha hlt
      have ha' : a = topLength sec := ha
      subst ha'
      exact absurd hlt h2
  · have hs : sec.payloadSize < 2 := by omega
    refine ⟨_, DisplaySection_short sec hs, fun _ => ⟨rfl, ?_, ?_⟩, fun hh => by omega⟩
    · simp [topRegion]
    · simp [reportedEntries]

/-- C17. Termination of the walk: the loop returns as soon as it is given more
than `l / 6` evaluations of its condition (from any state with
`loop_length = l <= size`), and the walk returns for every section; in its trace
each evaluation of the loop condition with `6 <= l` is followed, 9 events later,
by the next one with at least 6 bytes less in the entries region; the number of
entries reported is at most a sixth of the length `b` of the entries region,
at most 682 and at most `(payloadSize - 4) / 6`. -/
theorem DisplaySection_terminates (sec : Section) :
    (∀ fuel d s l, l ≤ s → s < SIZE_T_MOD → l / 6 < fuel →
      ∃ r, transportLoop sec.payload fuel d s l = some r) ∧
    ∃ t, DisplaySection sec = some t ∧
      (∀ d s l post, (Event.whileTest d s l :: post) <:+ t → 6 ≤ l →
        ∃ evs d₂ s₂ l₂ post', post = evs ++ Event.whileTest d₂ s₂ l₂ :: post' ∧
          evs.length = 9 ∧ l₂ + 6 ≤ l) ∧
      (reportedEntries t).length ≤ 682 ∧
      (reportedEntries t).length ≤ (sec.payloadSize - 4) / 6 ∧
      (2 ≤ sec.payloadSize → ∀ a b : Nat,
        a = min (((sec.payload.getD 0 0).val * 256 + (sec.payload.getD 1 0).val) % 4096)
              (sec.payloadSize - 2) →
        b = min (((sec.payload.getD (2 + a) 0).val * 256 +
                (sec.payload.getD (2 + a + 1) 0).val) % 4096)
              (sec.payloadSize - 2 - a - 2) →
        2 ≤ sec.payloadSize - 2 - a → (reportedEntries t).length ≤ b / 6) := by
  refine ⟨?_, ?_⟩
  · intro fuel d s l hls hs hf
    obtain ⟨t, d', s', ht, _⟩ := transportLoop_run_div sec.payload fuel d s l hls hs hf
    exact ⟨_, ht⟩
  · obtain ⟨t, pre, off, len, h1, _, _, _, _, _, _, _, h9, h10⟩ := DisplaySection_report sec
    have hb1 : entriesLength sec ≤ 4095 := by
      unfold entriesLength
      have : GetUInt16 sec.payload (2 + topLength sec) % 4096 < 4096 := Nat.mod_lt _ (by omega)
      omega
    have hb2 : entriesLength sec ≤ sec.payloadSize - 2 - topLength sec - 2 :=
      Nat.min_le_right _ _
    have hcount : (reportedEntries t).length * 6 ≤ 4095 ∧
        (reportedEntries t).length * 6 ≤ sec.payloadSize - 4 := by
      by_cases h : 2 ≤ sec.payloadSize
      · by_cases h2 : 2 ≤ sec.payloadSize - 2 - topLength sec
        · have := (h10 h h2).1
          omega
        · rw [(h9 h (by omega)).1]
          simp
      · rw [DisplaySection_short sec (by omega)] at h1
        cases h1
        simp [reportedEntries]
    refine ⟨t, h1, ?_, by omega, by omega, ?_⟩
    · intro d s l post hsuf h6
      obtain ⟨post', hp⟩ := (DisplaySection_loop_steps sec t h1 d s l post hsuf).2 h6
      have hlen : entryLength sec.payload d l ≤ l - 6 := Nat.min_le_right _ _
      exact ⟨_, _, _, _, post', hp, by simp [entryEvents], by omega⟩
    · intro h a b ha hb h2
      have ha' : a = topLength sec := ha
      subst ha'
      have hb' : b = entriesLength sec := hb
      subst hb'
      have := (h10 h h2).1
      omega

end NIT

end ts

/-! ## Theorems: the walk of a well-formed payload -/

namespace ts

namespace NIT

theorem getD_append_add (pre l : List Byte) (k : Nat) :
    (pre ++ l).getD (pre.length + k) 0 = l.getD k 0 := by
  induction pre with
  | nil => simp
  | cons x xs ih =>
    have : (x :: xs).length + k = (xs.length + k) + 1 := by simp; omega
    rw [List.cons_append, this, List.getD_cons_succ, ih]

theorem GetUInt16_be16 (pre post : List Byte) (x : Nat) :
    GetUInt16 (pre ++ (be16 x ++ post)) pre.length = x % 65536 := by
  unfold GetUInt16
  have h0 := getD_append_add pre (be16 x ++ post) 0
  have h1 := getD_append_add pre (be16 x ++ post) 1
  rw [Nat.add_zero] at h0
  rw [h0, h1]
  simp only [be16, List.cons_append, List.getD_cons_zero, List.getD_cons_succ]
  omega

theorem length_be16 (x : Nat) : (be16 x).length = 2 := rfl

theorem length_lengthField (r n : Nat) : (lengthField r n).length = 2 := rfl

theorem length_entryBytes (e : EntryLayout) : e.bytes.length = 6 + e.descs.length := by
  simp [EntryLayout.bytes, length_be16, length_lengthField]
  omega

theorem length_entriesBytes (es : List EntryLayout) :
    (entriesBytes es).length = entriesSize es := by
  induction es with
  | nil => rfl
  | cons e rest ih =>
    simp [entriesBytes, entriesSize, length_entryBytes, ih]

theorem region_append (pre descs post : List Byte) :
    region (pre ++ (descs ++ post)) pre.length descs.length = descs := by
  simp [region]

theorem layout_loop (es : List EntryLayout) :
    ∀ (pre post : List Byte),
      (∀ e ∈ es, e.descs.length ≤ 4095 ∧ e.id1 < 65536 ∧ e.id2 < 65536) →
      ∃ t, LoopRun (pre ++ (entriesBytes es ++ post)) pre.length (entriesSize es)
          (entriesSize es) t (pre.length + entriesSize es) 0 ∧
        (reportedEntries t).map
            (fun e => (e.1, e.2.1, region (pre ++ (entriesBytes es ++ post)) e.2.2.1 e.2.2.2)) =
          es.map (fun e => (e.id1, e.id2, e.descs)) := by
  induction es with
  | nil =>
    intro pre post _
    refine ⟨_, LoopRun.done _ _ _ (by simp [entriesSize]), ?_⟩
    simp [reportedEntries]
  | cons e rest ih =>
    intro pre post hall
    obtain ⟨hd, h1, h2⟩ := hall e (List.mem_cons_self _ _)
    have hrest : ∀ e' ∈ rest, e'.descs.length ≤ 4095 ∧ e'.id1 < 65536 ∧ e'.id2 < 65536 :=
      fun e' he' => hall e' (List.mem_cons_of_mem _ he')
    -- the payload, seen from the start of this entry and from the start of the next one
    have hp : pre ++ (entriesBytes (e :: rest) ++ post) =
        (pre ++ e.bytes) ++ (entriesBytes rest ++ post) := by
      simp [entriesBytes]
    have hlenpre : (pre ++ e.bytes).length = pre.length + 6 + e.descs.length := by
      rw [List.length_append, length_entryBytes]
      omega
    obtain ⟨t, hrun, hent⟩ := ih (pre ++ e.bytes) post hrest
    -- the three fields of the entry
    have g0 : GetUInt16 (pre ++ (entriesBytes (e :: rest) ++ post)) pre.length = e.id1 := by
      have := GetUInt16_be16 pre
        (be16 e.id2 ++ (lengthField e.reserved e.descs.length ++ e.descs) ++
          (entriesBytes rest ++ post)) e.id1
      rw [Nat.mod_eq_of_lt h1] at this
      rw [← this]
      simp [entriesBytes, EntryLayout.bytes]
    have g2 : GetUInt16 (pre ++ (entriesBytes (e :: rest) ++ post)) (pre.length + 2) =
        e.id2 := by
      have := GetUInt16_be16 (pre ++ be16 e.id1)
        ((lengthField e.reserved e.descs.length ++ e.descs) ++ (entriesBytes rest ++ post)) e.id2
      rw [Nat.mod_eq_of_lt h2, List.length_append, length_be16] at this
      rw [← this]
      simp [entriesBytes, EntryLayout.bytes]
    have g4 : GetUInt16 (pre ++ (entriesBytes (e :: rest) ++ post)) (pre.length + 4) % 4096 =
        e.descs.length := by
      have := GetUInt16_be16 (pre ++ (be16 e.id1 ++ be16 e.id2))
        (e.descs ++ (entriesBytes rest ++ post))
        (e.reserved % 16 * 4096 + e.descs.length % 4096)
      rw [List.length_append, List.length_append, length_be16, length_be16] at this
      have e1 : pre ++ (entriesBytes (e :: rest) ++ post) =
          pre ++ (be16 e.id1 ++ be16 e.id2) ++
            (be16 (e.reserved % 16 * 4096 + e.descs.length % 4096) ++
              (e.descs ++ (entriesBytes rest ++ post))) := by
        simp [entriesBytes, EntryLayout.bytes, lengthField]
      rw [e1, show pre.length + 4 = pre.length + (2 + 2) by rfl, this]
      omega
    have hel : entryLength (pre ++ (entriesBytes (e :: rest) ++ post)) pre.length
        (entriesSize (e :: rest)) = e.descs.length := by
      unfold entryLength
      rw [g4]
      simp [entriesSize]
      omega
    have hs1 : entriesSize (e :: rest) - 6 - e.descs.length = entriesSize rest := by
      simp [entriesSize]
      omega
    have hd1 : pre.length + 6 + e.descs.length + entriesSize rest =
        pre.length + entriesSize (e :: rest) := by
      simp [entriesSize]
      omega
    rw [← hp, hlenpre, hd1] at hrun
    refine ⟨entryEvents (pre ++ (entriesBytes (e :: rest) ++ post)) pre.length
      (entriesSize (e :: rest)) (entriesSize (e :: rest)) ++ t,
      LoopRun.iter _ _ _ t _ _ (by simp only [entriesSize]; omega)
        (by rw [hel, hs1]; exact hrun), ?_⟩
    rw [reportedEntries_entryEvents, List.map_cons, List.map_cons, g0, g2, hel]
    rw [← hp] at hent
    rw [hent]
    have hreg : region (pre ++ (entriesBytes (e :: rest) ++ post)) (pre.length + 6)
        e.descs.length = e.descs := by
      have := region_append (pre ++ (be16 e.id1 ++ (be16 e.id2 ++
        lengthField e.reserved e.descs.length))) e.descs (entriesBytes rest ++ post)
      simp only [List.length_append, length_be16, length_lengthField] at this
      have e1 : pre ++ (entriesBytes (e :: rest) ++ post) =
          pre ++ (be16 e.id1 ++ (be16 e.id2 ++ lengthField e.reserved e.descs.length)) ++
            (e.descs ++ (entriesBytes rest ++ post)) := by
        simp [entriesBytes, EntryLayout.bytes]
      rw [e1, show pre.length + 6 = pre.length + (2 + (2 + 2)) by rfl]
      exact this
    rw [hreg]

theorem reportedEntries_trace (sec : Section) {p : List Byte} {d₀ s₀ l₀ : Nat}
    {tl : List Event} {d s : Nat} (hrun : LoopRun p d₀ s₀ l₀ tl d s) (x y z : Nat) :
    reportedEntries (topEvents sec ++ [Event.getUInt16 x true, Event.decSize y z] ++ tl ++
      [Event.extraData d s]) = reportedEntries tl := by
  have e1 : topEvents sec ++ [Event.getUInt16 x true, Event.decSize y z] ++ tl ++
      [Event.extraData d s] = topEvents sec ++
      ([Event.getUInt16 x true, Event.decSize y z] ++ tl ++ [Event.extraData d s]) := by
    simp only [List.append_assoc]
  rw [e1, (topEvents_observables sec _).1]
  have e2 : reportedEntries ([Event.getUInt16 x true, Event.decSize y z] ++ tl ++
      [Event.extraData d s]) = reportedEntries (tl ++ [Event.extraData d s]) := by
    simp [reportedEntries]
  rw [e2, hrun.entries_append]
  simp [reportedEntries]

theorem topRegion_topEvents (sec : Section) (rest : List Event) (h : 0 < topLength sec) :
    topRegion (topEvents sec ++ rest) = some (2, topLength sec) := by
  simp [topEvents, h, topRegion]

theorem layout_lengths (r₁ r₂ : Nat) (t : List Byte) (es : List EntryLayout) (sec : Section)
    (hsec : sec.payload = sectionLayout r₁ t r₂ es)
    (ht : t.length ≤ 4095) (hsum : entriesSize es ≤ 4095) :
    sec.payloadSize = 2 + t.length + 2 + entriesSize es ∧ topLength sec = t.length ∧
      entriesLength sec = entriesSize es := by
  have hsize : sec.payloadSize = 2 + t.length + 2 + entriesSize es := by
    unfold Section.payloadSize
    rw [hsec]
    simp [sectionLayout, length_lengthField, length_entriesBytes]
    omega
  have g0 : GetUInt16 sec.payload 0 = r₁ % 16 * 4096 + t.length % 4096 := by
    have := GetUInt16_be16 []
      (t ++ (be16 (r₂ % 16 * 4096 + entriesSize es % 4096) ++ entriesBytes es))
      (r₁ % 16 * 4096 + t.length % 4096)
    rw [hsec]
    simp only [List.nil_append, List.length_nil] at this
    unfold sectionLayout lengthField
    rw [this]
    omega
  have htop : topLength sec = t.length := by
    unfold topLength
    rw [g0, hsize]
    omega
  have g1 : GetUInt16 sec.payload (2 + t.length) =
      r₂ % 16 * 4096 + entriesSize es % 4096 := by
    have := GetUInt16_be16 (lengthField r₁ t.length ++ t) (entriesBytes es)
      (r₂ % 16 * 4096 + entriesSize es % 4096)
    rw [List.length_append, length_lengthField] at this
    rw [hsec]
    have e1 : sectionLayout r₁ t r₂ es = lengthField r₁ t.length ++ t ++
        (be16 (r₂ % 16 * 4096 + entriesSize es % 4096) ++ entriesBytes es) := by
      simp [sectionLayout, lengthField]
    rw [e1, this]
    omega
  refine ⟨hsize, htop, ?_⟩
  unfold entriesLength
  rw [htop, g1, hsize]
  omega

/-- C12. Walk of a well-formed section: when the payload is the layout
`[len(t)] t [size of the entries] ([id1] [id2] [len(d)] d)*` of a top-level
descriptor string `t` of at most 4095 bytes and of entries with 16-bit ids,
descriptor strings of at most 4095 bytes and a total size of at most 4095, with
any reserved bits in the three kinds of length fields, the walk reports `t` as
the top-level list (the region at offset 2, displayed when it is not empty),
then these entries in this order with these ids and descriptor bytes, and no
byte of extra data. -/
theorem DisplaySection_well_formed (r₁ r₂ : Nat) (t : List Byte) (es : List EntryLayout)
    (sec : Section) (hsec : sec.payload = sectionLayout r₁ t r₂ es)
    (ht : t.length ≤ 4095)
    (hes : ∀ e ∈ es, e.descs.length ≤ 4095 ∧ e.id1 < 65536 ∧ e.id2 < 65536)
    (hsum : entriesSize es ≤ 4095) :
    ∃ tr, DisplaySection sec = some tr ∧
      topBytes tr = t.length ∧
      (0 < t.length → topRegion tr = some (2, t.length)) ∧
      region sec.payload 2 t.length = t ∧
      (reportedEntries tr).map (fun e => (e.1, e.2.1, region sec.payload e.2.2.1 e.2.2.2)) =
        es.map (fun e => (e.id1, e.id2, e.descs)) ∧
      ∃ pre, tr = pre ++ [Event.extraData sec.payloadSize 0] ∧
        ∀ a b, Event.extraData a b ∉ pre := by
  obtain ⟨hsize, htop, hent⟩ := layout_lengths r₁ r₂ t es sec hsec ht hsum
  have h : 2 ≤ sec.payloadSize := by omega
  have h2 : 2 ≤ sec.payloadSize - 2 - topLength sec := by omega
  obtain ⟨tl, d, s, hrun, heq⟩ := DisplaySection_entries sec h h2
  have hp : sec.payload =
      (lengthField r₁ t.length ++ (t ++ lengthField r₂ (entriesSize es))) ++
        (entriesBytes es ++ []) := by
    rw [hsec]
    simp [sectionLayout]
  obtain ⟨tl', hrun', hmap⟩ := layout_loop es
    (lengthField r₁ t.length ++ (t ++ lengthField r₂ (entriesSize es))) [] hes
  rw [← hp] at hrun' hmap
  have hlen : (lengthField r₁ t.length ++ (t ++ lengthField r₂ (entriesSize es))).length =
      2 + t.length + 2 := by
    simp [length_lengthField]
    omega
  rw [hlen] at hrun'
  have hs0 : sec.payloadSize - 2 - topLength sec - 2 = entriesSize es := by omega
  rw [htop, hent, show sec.payloadSize - 2 - t.length - 2 = entriesSize es by omega] at hrun
  obtain ⟨rfl, rfl, rfl⟩ := hrun'.unique _ _ _ hrun
  obtain ⟨t0, pre0, off, len, k1, _, _, _, _, _, _, k8, _⟩ := DisplaySection_report sec
  have hk : t0 = topEvents sec ++ [Event.getUInt16 (2 + topLength sec) true,
      Event.decSize (sec.payloadSize - 2 - topLength sec) 2] ++ tl ++
      [Event.extraData (2 + t.length + 2 + entriesSize es) 0] := by
    rw [heq] at k1
    exact (Option.some.inj k1).symm
  refine ⟨_, heq, ?_, ?_, ?_, ?_, ?_⟩
  · rw [← hk, k8 h, htop]
  · intro hpos
    rw [List.append_assoc, List.append_assoc, topRegion_topEvents sec _ (by omega), htop]
  · have := region_append (lengthField r₁ t.length) t
      (lengthField r₂ (entriesSize es) ++ entriesBytes es)
    rw [length_lengthField] at this
    rw [hsec]
    exact this
  · rw [reportedEntries_trace sec hrun', hmap]
  · refine ⟨topEvents sec ++ [Event.getUInt16 (2 + topLength sec) true,
      Event.decSize (sec.payloadSize - 2 - topLength sec) 2] ++ tl, ?_, ?_⟩
    · rw [hsize]
    · intro a b hm
      simp only [List.mem_append, List.mem_cons, List.mem_singleton, List.not_mem_nil,
        or_false, reduceCtorEq, false_or] at hm
      rcases hm with hm | hm
      · exact (topEvents_observables sec []).2.2.2 a b hm
      · exact extraData_not_in_loop hrun' a b hm

/-- Witness of `DisplaySection_well_formed`: the payload
`F0 00 F0 06 00 01 00 02 F0 00` is the layout of no top-level descriptor and one
entry with ids (1, 2) and no descriptor, all reserved bits set; the walk reports
this entry and no extra data. -/
theorem DisplaySection_well_formed_witness :
    ∃ tr, DisplaySection sampleOneEntry = some tr ∧
      topBytes tr = 0 ∧
      (reportedEntries tr).map
          (fun e => (e.1, e.2.1, region sampleOneEntry.payload e.2.2.1 e.2.2.2)) =
        [(1, 2, [])] ∧
      ∃ pre, tr = pre ++ [Event.extraData 10 0] ∧ ∀ a b, Event.extraData a b ∉ pre :=
  have h := DisplaySection_well_formed 15 15 [] [⟨1, 2, 15, []⟩] sampleOneEntry (by decide)
    (by decide) (by decide) (by decide)
  match h with
  | ⟨tr, h1, h2, _, _, h5, h6⟩ => ⟨tr, h1, h2, h5, h6⟩

end NIT

end ts

/-! ## Theorems: instances of the walk on sample payloads -/

namespace ts

namespace NIT

/-- Witness of `DisplaySection_extra_data`: on `sampleFragment` the loop stops
with 3 bytes left in the entries region, and the extra data are these 3 bytes,
at offset 10. -/
theorem DisplaySection_extra_data_witness :
    ∃ t pre, DisplaySection sampleFragment = some t ∧ t = pre ++ [Event.extraData 10 3] ∧
      Event.whileTest 10 3 3 ∈ t ∧
      2 * outerFields t + topBytes t + ((reportedEntries t).map (fun e => 6 + e.2.2.2)).sum + 3 =
        13 :=
  match DisplaySection_extra_data sampleFragment with
  | ⟨t, pre, off, len, h1, h2, _, _, _, h6, _, _⟩ => by
    have ht : DisplaySection sampleFragment = some
        ([Event.getUInt16 0 true, Event.decSize 13 2, Event.decSize 11 0,
          Event.getUInt16 2 true, Event.decSize 11 2, Event.whileTest 4 9 9,
          Event.getUInt16 4 false, Event.getUInt16 6 false, Event.getUInt16 8 true,
          Event.decSize 9 6, Event.decLoop 9 6, Event.transport 1 2,
          Event.descriptorList 10 0, Event.decSize 3 0, Event.decLoop 3 0,
          Event.whileTest 10 3 3] ++ [Event.extraData 10 3]) := by decide
    rw [h1] at ht
    cases ht
    have hlast := List.append_inj' h2 rfl
    have hlen : len = 3 := by
      have := hlast.2
      simp only [List.cons.injEq, Event.extraData.injEq, and_true] at this
      exact this.2.symm
    subst hlen
    exact ⟨_, _, h1, rfl, by simp, h6⟩

/-- Witness of `DisplaySection_early_stop`: the payload `00 00` gives an empty
top-level descriptor list, no entry and no byte of extra data. -/
theorem DisplaySection_early_stop_witness :
    DisplaySection sampleZero = some
        [Event.getUInt16 0 true, Event.decSize 2 2, Event.decSize 0 0, Event.extraData 2 0] ∧
      ∃ t, DisplaySection sampleZero = some t ∧ reportedEntries t = [] ∧ outerFields t = 1 :=
  ⟨by decide,
    match DisplaySection_early_stop sampleZero with
    | ⟨t, h1, _, h3⟩ =>
      ⟨t, h1, (h3 (by decide) 0 (by decide) (by decide)).1,
        (h3 (by decide) 0 (by decide) (by decide)).2.1⟩⟩

end NIT

end ts

/-! ## Theorems: the entry loop of the walk -/

namespace ts

namespace NIT

theorem suffix_skip_prefix (pre t : List Event) (e : Event) (post : List Event)
    (hpre : e ∉ pre) (h : (e :: post) <:+ (pre ++ t)) : (e :: post) <:+ t := by
  induction pre with
  | nil => simpa using h
  | cons x xs ih =>
    rw [List.cons_append, List.suffix_cons_iff] at h
    rcases h with h | h
    · exfalso
      simp only [List.cons.injEq] at h
      exact hpre (by rw [h.1]; exact List.mem_cons_self _ _)
    · exact ih (fun hm => hpre (List.mem_cons_of_mem _ hm)) h

theorem LoopRun.transport_inside {p : List Byte} {d s l : Nat} {t : List Event} {d' s' : Nat}
    (run : LoopRun p d s l t d' s') :
    ∀ x y post, (Event.transport x y :: post) <:+ (t ++ [Event.extraData d' s']) →
      ∃ dd ss ll, 6 ≤ ll ∧ x = GetUInt16 p dd ∧ y = GetUInt16 p (dd + 2) ∧
        (Event.whileTest dd ss ll :: Event.getUInt16 dd false ::
          Event.getUInt16 (dd + 2) false :: Event.getUInt16 (dd + 4) true ::
          Event.decSize ss 6 :: Event.decLoop ll 6 :: Event.transport x y :: post) <:+
          (t ++ [Event.extraData d' s']) := by
  induction run with
  | done d s l h =>
    intro x y post hsuf
    simp [List.suffix_cons_iff] at hsuf
  | iter d s l t d' s' h rest ih =>
    intro x y post hsuf
    simp only [entryEvents, List.cons_append, List.nil_append, List.suffix_cons_iff] at hsuf
    rcases hsuf with hsuf | hsuf | hsuf | hsuf | hsuf | hsuf | hsuf | hsuf | hsuf | hsuf | hsuf
    case inr.inr.inr.inr.inr.inr.inl =>
      simp only [List.cons.injEq, Event.transport.injEq] at hsuf
      obtain ⟨⟨rfl, rfl⟩, rfl⟩ := hsuf
      exact ⟨d, s, l, h, rfl, rfl, by simp [entryEvents]⟩
    case inr.inr.inr.inr.inr.inr.inr.inr.inr.inr =>
      obtain ⟨dd, ss, ll, h6, hx, hy, hs⟩ := ih x y post hsuf
      refine ⟨dd, ss, ll, h6, hx, hy, ?_⟩
      rw [List.append_assoc]
      exact hs.trans (List.suffix_append _ _)
    all_goals simp at hsuf

theorem topEvents_no_transport (sec : Section) (x y : Nat) :
    Event.transport x y ∉ topEvents sec := by
  unfold topEvents
  split <;> simp

theorem DisplaySection_transport_inside (sec : Section) (t : List Event)
    (ht : DisplaySection sec = some t) :
    ∀ x y post, (Event.transport x y :: post) <:+ t →
      ∃ d s l, 6 ≤ l ∧ x = GetUInt16 sec.payload d ∧ y = GetUInt16 sec.payload (d + 2) ∧
        (Event.whileTest d s l :: Event.getUInt16 d false ::
          Event.getUInt16 (d + 2) false :: Event.getUInt16 (d + 4) true ::
          Event.decSize s 6 :: Event.decLoop l 6 :: Event.transport x y :: post) <:+ t := by
  by_cases h : 2 ≤ sec.payloadSize
  · by_cases h2 : 2 ≤ sec.payloadSize - 2 - topLength sec
    · obtain ⟨tl, d₀, s₀, hrun, heq⟩ := DisplaySection_entries sec h h2
      rw [heq] at ht
      cases ht
      intro x y post hsuf
      rw [List.append_assoc] at hsuf
      have hsuf' := suffix_skip_prefix _ _ _ post (by
        intro hm
        rw [List.mem_append] at hm
        rcases hm with hm | hm
        · exact topEvents_no_transport sec x y hm
        · simp at hm) hsuf
      obtain ⟨d, s, l, h6, hx, hy, hs⟩ := hrun.transport_inside x y post hsuf'
      refine ⟨d, s, l, h6, hx, hy, ?_⟩
      rw [List.append_assoc]
      exact hs.trans (List.suffix_append _ _)
    · rw [DisplaySection_noEntries sec h (by omega)] at ht
      cases ht
      intro x y post hsuf
      exfalso
      have hsuf' := suffix_skip_prefix _ [Event.extraData (2 + topLength sec)
        (sec.payloadSize - 2 - topLength sec)] _ post (topEvents_no_transport sec x y) hsuf
      simp [List.suffix_cons_iff] at hsuf'
  · rw [DisplaySection_short sec (by omega)] at ht
    cases ht
    intro x y post hsuf
    simp [List.suffix_cons_iff] at hsuf

theorem DisplaySection_first_test (sec : Section) (t : List Event)
    (ht : DisplaySection sec = some t) (h : 2 ≤ sec.payloadSize)
    (h2 : 2 ≤ sec.payloadSize - 2 - topLength sec) :
    ∃ post, (Event.whileTest (2 + topLength sec + 2) (sec.payloadSize - 2 - topLength sec - 2)
      (entriesLength sec) :: post) <:+ t := by
  obtain ⟨tl, d₀, s₀, hrun, heq⟩ := DisplaySection_entries sec h h2
  rw [heq] at ht
  cases ht
  obtain ⟨tl', rfl⟩ := hrun.head
  refine ⟨tl' ++ [Event.extraData d₀ s₀], ?_⟩
  rw [List.append_assoc]
  exact List.suffix_append _ _

/-- C3. Entry loop: for every section the walk returns, and
(1) at every evaluation of the loop condition, with the data pointer at offset
`d`, `s` bytes left and `l` bytes left in the entries region: when `l < 6` no
entry is read and the walk ends with the extra data at `d`; when `6 <= l` one
entry is read, whose ids are the big-endian 16-bit values at `d` and `d + 2`,
whose descriptor list starts at `d + 6` and has `n` bytes, the minimum of the low
12 bits of the field at `d + 4` and `l - 6`, and the next evaluation takes place
at offset `d + 6 + n` with `n + 6` bytes less in both counters;
(2) the loop condition is evaluated: when at least 2 bytes remain after the
top-level descriptor list (of `a` bytes), the trace holds the first evaluation,
at offset `2 + a + 2` with the clamped entries region of `b` bytes;
(3) an entry is reported only by an iteration of the loop: every "Transport
Stream Id" line comes right after an evaluation of the loop condition with
`6 <= l`, the three reads of the entry and the two decrements by 6, and it
prints the ids read at `d` and `d + 2`. -/
theorem DisplaySection_entry_loop (sec : Section) :
    ∃ t, DisplaySection sec = some t ∧
      (∀ d s l post, (Event.whileTest d s l :: post) <:+ t →
        (l < 6 → post = [Event.extraData d s]) ∧
        (6 ≤ l → ∀ n : Nat,
          n = min (((sec.payload.getD (d + 4) 0).val * 256 +
                (sec.payload.getD (d + 4 + 1) 0).val) % 4096) (l - 6) →
          ∃ post', post =
            Event.getUInt16 d false :: Event.getUInt16 (d + 2) false ::
            Event.getUInt16 (d + 4) true :: Event.decSize s 6 :: Event.decLoop l 6 ::
            Event.transport
              ((sec.payload.getD d 0).val * 256 + (sec.payload.getD (d + 1) 0).val)
              ((sec.payload.getD (d + 2) 0).val * 256 +
                (sec.payload.getD (d + 2 + 1) 0).val) ::
            Event.descriptorList (d + 6) n :: Event.decSize (s - 6) n ::
            Event.decLoop (l - 6) n ::
            Event.whileTest (d + 6 + n) (s - 6 - n) (l - 6 - n) :: post')) ∧
      (2 ≤ sec.payloadSize → ∀ a b : Nat,
        a = min (((sec.payload.getD 0 0).val * 256 + (sec.payload.getD 1 0).val) % 4096)
              (sec.payloadSize - 2) →
        b = min (((sec.payload.getD (2 + a) 0).val * 256 +
                (sec.payload.getD (2 + a + 1) 0).val) % 4096)
              (sec.payloadSize - 2 - a - 2) →
        2 ≤ sec.payloadSize - 2 - a →
        ∃ post, (Event.whileTest (2 + a + 2) (sec.payloadSize - 2 - a - 2) b :: post) <:+ t) ∧
      (∀ x y post, (Event.transport x y :: post) <:+ t →
        ∃ d s l, 6 ≤ l ∧
          x = (sec.payload.getD d 0).val * 256 + (sec.payload.getD (d + 1) 0).val ∧
          y = (sec.payload.getD (d + 2) 0).val * 256 + (sec.payload.getD (d + 2 + 1) 0).val ∧
          (Event.whileTest d s l :: Event.getUInt16 d false ::
            Event.getUInt16 (d + 2) false :: Event.getUInt16 (d + 4) true ::
            Event.decSize s 6 :: Event.decLoop l 6 :: Event.transport x y :: post) <:+ t) := by
  obtain ⟨t, _, _, _, ht, _⟩ := DisplaySection_report sec
  refine ⟨t, ht, ?_, ?_, ?_⟩
  · intro d s l post hsuf
    obtain ⟨hs1, hs2⟩ := DisplaySection_loop_steps sec t ht d s l post hsuf
    refine ⟨hs1, ?_⟩
    intro h6 n hn
    have hn' : n = entryLength sec.payload d l := hn
    subst hn'
    obtain ⟨post', hp⟩ := hs2 h6
    exact ⟨post', by rw [hp]; rfl⟩
  · intro h a b ha hb h2
    have ha' : a = topLength sec := ha
    subst ha'
    have hb' : b = entriesLength sec := hb
    subst hb'
    exact DisplaySection_first_test sec t ht h h2
  · intro x y post hsuf
    exact DisplaySection_transport_inside sec t ht x y post hsuf

/-- Witness of `DisplaySection_entry_loop` on `sampleFragment`, whose entries
region has 9 bytes: from the three parts of the theorem alone, the trace ends
with the first evaluation of the loop condition (9 bytes left), the entry with
ids (1, 2) and no descriptor, the second evaluation (3 bytes left) and the extra
data; the "Transport Stream Id" line found there is inside that iteration. -/
theorem DisplaySection_entry_loop_witness :
    ∃ t, DisplaySection sampleFragment = some t ∧
      ([Event.whileTest 4 9 9, Event.getUInt16 4 false, Event.getUInt16 6 false,
        Event.getUInt16 8 true, Event.decSize 9 6, Event.decLoop 9 6, Event.transport 1 2,
        Event.descriptorList 10 0, Event.decSize 3 0, Event.decLoop 3 0,
        Event.whileTest 10 3 3, Event.extraData 10 3] <:+ t) ∧
      ∃ d s l, 6 ≤ l ∧
        ([Event.whileTest d s l, Event.getUInt16 d false, Event.getUInt16 (d + 2) false,
          Event.getUInt16 (d + 4) true, Event.decSize s 6, Event.decLoop l 6,
          Event.transport 1 2, Event.descriptorList 10 0, Event.decSize 3 0,
          Event.decLoop 3 0, Event.whileTest 10 3 3, Event.extraData 10 3] <:+ t) :=
  match DisplaySection_entry_loop sampleFragment with
  | ⟨t, ht, hsteps, hfirst, hinside⟩ => by
    obtain ⟨post, hp⟩ := hfirst (by decide) 0 9 (by decide) (by decide) (by decide)
    obtain ⟨post', hp'⟩ := (hsteps 4 9 9 post hp).2 (by decide) 0 (by decide)
    subst hp'
    have hsecond : (Event.whileTest 10 3 3 :: post') <:+ t := by
      refine List.IsSuffix.trans ?_ hp
      exact List.suffix_append
        [Event.whileTest 4 9 9, Event.getUInt16 4 false, Event.getUInt16 (4 + 2) false,
          Event.getUInt16 (4 + 4) true, Event.decSize 9 6, Event.decLoop 9 6,
          Event.transport
            ((sampleFragment.payload.getD 4 0).val * 256 +
              (sampleFragment.payload.getD (4 + 1) 0).val)
            ((sampleFragment.payload.getD (4 + 2) 0).val * 256 +
              (sampleFragment.payload.getD (4 + 2 + 1) 0).val),
          Event.descriptorList (4 + 6) 0, Event.decSize (9 - 6) 0, Event.decLoop (9 - 6) 0] _
    have hlast := (hsteps 10 3 3 post' hsecond).1 (by decide)
    subst hlast
    have hwhole : [Event.whileTest 4 9 9, Event.getUInt16 4 false, Event.getUInt16 6 false,
        Event.getUInt16 8 true, Event.decSize 9 6, Event.decLoop 9 6, Event.transport 1 2,
        Event.descriptorList 10 0, Event.decSize 3 0, Event.decLoop 3 0,
        Event.whileTest 10 3 3, Event.extraData 10 3] <:+ t := hp
    refine ⟨t, ht, hwhole, ?_⟩
    have htr : (Event.transport 1 2 :: [Event.descriptorList 10 0, Event.decSize 3 0,
        Event.decLoop 3 0, Event.whileTest 10 3 3, Event.extraData 10 3]) <:+ t :=
      List.IsSuffix.trans (List.suffix_append
        [Event.whileTest 4 9 9, Event.getUInt16 4 false, Event.getUInt16 6 false,
          Event.getUInt16 8 true, Event.decSize 9 6, Event.decLoop 9 6] _) hwhole
    obtain ⟨d, s, l, h6, _, _, hs⟩ := hinside 1 2 _ htr
    exact ⟨d, s, l, h6, hs⟩

end NIT

end ts

/-! ## Theorems: the shape of the encoded tree -/

namespace ts

namespace NIT

theorem lookup_setAttributeText_self (l : List (String × String)) (n v : String) :
    (xml.setAttributeText l n v).lookup n = some v := by
  induction l with
  | nil => simp [xml.setAttributeText, List.lookup]
  | cons a rest ih =>
    obtain ⟨n', v'⟩ := a
    unfold xml.setAttributeText
    by_cases h : n = n'
    · subst h
      simp [List.lookup]
    · have hb : (n == n') = false := by simpa using h
      simp only [hb, Bool.false_eq_true, if_false, List.lookup, ih]

theorem lookup_setAttributeText_other (l : List (String × String)) (n m v : String)
    (h : m ≠ n) : (xml.setAttributeText l n v).lookup m = l.lookup m := by
  induction l with
  | nil =>
    have hb : (m == n) = false := by simpa using h
    simp [xml.setAttributeText, List.lookup, hb]
  | cons a rest ih =>
    obtain ⟨n', v'⟩ := a
    unfold xml.setAttributeText
    by_cases h' : n = n'
    · subst h'
      have hb : (m == n) = false := by simpa using h
      simp [List.lookup, hb]
    · have hb : (n == n') = false := by simpa using h'
      simp only [hb, Bool.false_eq_true, if_false, List.lookup, ih]

theorem buildXML_general (conv : Conv) (M : NIT) (root : xml.Element) :
    buildXML conv M root =
      .mk root.name
        (xml.setAttributeText (xml.setAttributeText (xml.setAttributeText
          (xml.setAttributeText root.attributes "version" (conv.decimal M.version))
          "current" (conv.boolean M.is_current))
          "network_id" (conv.hexa M.network_id))
          "actual" (conv.boolean M.isActual))
        (root.children ++ M.descs.map conv.descToXML ++
          M.transports.map (transportElement conv)) := by
  unfold buildXML
  simp only []
  rw [buildXML_loop]
  simp [DescriptorList.toXML, xml.Element.setIntAttribute, xml.Element.setBoolAttribute,
    xml.Element.setAttribute, xml.Element.name, xml.Element.attributes, xml.Element.children]

theorem forall₂_map_self {α β : Type} (R : β → α → Prop) (f : α → β) (l : List α)
    (h : ∀ x ∈ l, R (f x) x) : List.Forall₂ R (l.map f) l := by
  induction l with
  | nil => exact List.Forall₂.nil
  | cons x rest ih =>
    exact List.Forall₂.cons (h x (List.mem_cons_self _ _))
      (ih (fun y hy => h y (List.mem_cons_of_mem _ hy)))

/-- C14. Placement hint in the encoded tree: for every model whose entries have
`preferred_section` in [-1, 255], the children that `buildXML` adds for the
entries of the map, one per entry and in the order of the map, are such that the
child of an entry has a `preferred_section` attribute exactly when the
`preferred_section` of the entry is not -1, and the attribute then holds the
decimal text of this value. -/
theorem buildXML_preferred_section (conv : Conv) (M : NIT) (root : xml.Element)
    (hpref : ∀ it ∈ M.transports,
      -1 ≤ it.2.preferred_section ∧ it.2.preferred_section ≤ 255) :
    ∃ cs, (buildXML conv M root).children =
        root.children ++ M.descs.map conv.descToXML ++ cs ∧
      List.Forall₂ (fun c it =>
        c.name = "transport_stream" ∧
        (c.hasAttribute "preferred_section" = true ↔ it.2.preferred_section ≠ -1) ∧
        (it.2.preferred_section ≠ -1 →
          c.attribute "preferred_section" = some (conv.decimal it.2.preferred_section)))
        cs M.transports := by
  refine ⟨M.transports.map (transportElement conv), ?_, ?_⟩
  · rw [buildXML_general]
    rfl
  · apply forall₂_map_self
    intro it hit
    obtain ⟨h1, _⟩ := hpref it hit
    by_cases hp : it.2.preferred_section ≥ 0
    · have hne : it.2.preferred_section ≠ -1 := by omega
      simp [transportElement, xml.Element.name, xml.Element.hasAttribute,
        xml.Element.attribute, xml.Element.attributes, List.lookup, hp, hne]
    · have he : it.2.preferred_section = -1 := by omega
      simp [transportElement, xml.Element.name, xml.Element.hasAttribute,
        xml.Element.attribute, xml.Element.attributes, List.lookup, he]

/-- C15. Shape of the encoded tree: for every model and every root element,
after `buildXML` the root carries `version`, `current`, `network_id` and `actual`
with the texts of the version, current flag, network id and variant of the
model, and its children are the former ones, the descriptors of the model and
then one `transport_stream` child per entry of the map, in the order of the map,
each with the `transport_stream_id` and `original_network_id` of the key of its
entry; on a root without children, and when no descriptor node is named
`transport_stream`, these are all the `transport_stream` children. -/
theorem buildXML_shape (conv : Conv) (M : NIT) (root : xml.Element) :
    (buildXML conv M root).name = root.name ∧
    (buildXML conv M root).attribute "version" = some (conv.decimal M.version) ∧
    (buildXML conv M root).attribute "current" = some (conv.boolean M.is_current) ∧
    (buildXML conv M root).attribute "network_id" = some (conv.hexa M.network_id) ∧
    (buildXML conv M root).attribute "actual" = some (conv.boolean M.isActual) ∧
    ∃ cs, (buildXML conv M root).children =
        root.children ++ M.descs.map conv.descToXML ++ cs ∧
      cs.length = M.transports.length ∧
      List.Forall₂ (fun c it =>
        c.name = "transport_stream" ∧
        c.attribute "transport_stream_id" = some (conv.hexa it.1.transport_stream_id) ∧
        c.attribute "original_network_id" = some (conv.hexa it.1.original_network_id))
        cs M.transports ∧
      (root.children = [] → (∀ d ∈ M.descs, (conv.descToXML d).name ≠ "transport_stream") →
        transportChildren (buildXML conv M root) = cs) := by
  rw [buildXML_general]
  refine ⟨rfl, ?_, ?_, ?_, ?_, M.transports.map (transportElement conv), rfl, by simp, ?_, ?_⟩
  · simp only [xml.Element.attribute, xml.Element.attributes]
    rw [lookup_setAttributeText_other _ _ _ _ (by decide),
      lookup_setAttributeText_other _ _ _ _ (by decide),
      lookup_setAttributeText_other _ _ _ _ (by decide), lookup_setAttributeText_self]
  · simp only [xml.Element.attribute, xml.Element.attributes]
    rw [lookup_setAttributeText_other _ _ _ _ (by decide),
      lookup_setAttributeText_other _ _ _ _ (by decide), lookup_setAttributeText_self]
  · simp only [xml.Element.attribute, xml.Element.attributes]
    rw [lookup_setAttributeText_other _ _ _ _ (by decide), lookup_setAttributeText_self]
  · simp only [xml.Element.attribute, xml.Element.attributes]
    rw [lookup_setAttributeText_self]
  · apply forall₂_map_self
    intro it _
    simp [transportElement, xml.Element.name, xml.Element.attribute, xml.Element.attributes,
      List.lookup]
  · intro hroot hdesc
    unfold transportChildren
    change List.filter (fun c => decide (c.name = "transport_stream"))
      (root.children ++ M.descs.map conv.descToXML ++
        M.transports.map (transportElement conv)) = _
    rw [hroot, List.nil_append, List.filter_append]
    have h1 : (M.descs.map conv.descToXML).filter (fun c => c.name = "transport_stream") = [] := by
      rw [List.filter_eq_nil_iff]
      intro c hc
      obtain ⟨d, hd, rfl⟩ := List.mem_map.mp hc
      simpa using hdesc d hd
    rw [h1, (filter_transportElement conv M.transports).2, List.nil_append]

end NIT

end ts

/-! ## Theorems: ranges, table ids and independence from the prior content -/

namespace ts

namespace NIT

theorem intAttr_range (conv : Conv) (e : xml.Element) (name : String) (lo hi : Int)
    (h : IntAttrIn conv e name lo hi) :
    lo ≤ intAttr conv e name ∧ intAttr conv e name ≤ hi := by
  obtain ⟨text, v, h1, h2, h3, h4⟩ := h
  simp [intAttr, h1, h2, h3, h4]

theorem optIntAttr_range (conv : Conv) (e : xml.Element) (name : String) (d lo hi : Int)
    (h : Absent e name ∨ IntAttrIn conv e name lo hi) (hd : lo ≤ d ∧ d ≤ hi) :
    lo ≤ optIntAttr conv e name d ∧ optIntAttr conv e name d ≤ hi := by
  rcases absent_or_intAttrIn conv e name lo hi h with ⟨hp, _⟩ | ⟨hp, hin⟩
  · simp [optIntAttr, hp, hd]
  · simp only [optIntAttr, hp, if_true]
    exact intAttr_range conv e name lo hi hin

theorem mem_foldl_set (conv : Conv) (cs : List xml.Element) (m : TransportMap)
    (it : TransportStreamId × Transport)
    (h : it ∈ cs.foldl (fun m c => m.set (childKey conv c) (childEntry conv c)) m) :
    it ∈ m ∨ ∃ c ∈ cs, it = (childKey conv c, childEntry conv c) := by
  induction cs generalizing m with
  | nil => exact Or.inl h
  | cons c rest ih =>
    rw [List.foldl_cons] at h
    rcases ih _ h with h' | ⟨c', hc', he⟩
    · rcases TransportMap.mem_set m _ _ it h' with h'' | h''
      · exact Or.inr ⟨c, List.mem_cons_self _ _, h''⟩
      · exact Or.inl h''
    · exact Or.inr ⟨c', List.mem_cons_of_mem _ hc', he⟩

theorem decoded_entry (conv : Conv) (e : xml.Element) (it : TransportStreamId × Transport)
    (h : it ∈ (decoded conv e).transports) :
    ∃ c ∈ e.children, c.name = "transport_stream" ∧
      it = (childKey conv c, childEntry conv c) := by
  rcases mem_foldl_set conv (transportChildren e) [] it h with h' | ⟨c, hc, he⟩
  · simp at h'
  · simp only [transportChildren, List.mem_filter, decide_eq_true_eq] at hc
    exact ⟨c, hc.1, hc.2, he⟩

theorem decoded_descriptor (conv : Conv) (e : xml.Element) (d : Descriptor)
    (h : d ∈ (decoded conv e).descs) :
    ∃ c ∈ e.children, conv.descFromXML c = some d := by
  simp only [decoded, descriptorChildren, List.mem_filterMap, List.mem_filter] at h
  obtain ⟨c, ⟨hc, _⟩, hd⟩ := h
  exact ⟨c, hc, hd⟩

theorem isValidTableId_setActual (s : NIT) (b : Bool) :
    isValidTableId (setActual s b)._table_id = true := by
  cases b <;> simp [setActual, isValidTableId]

theorem fromXMLChild_table_id (conv : Conv) (c : xml.Element) (s : NIT) :
    (fromXMLChild conv c s)._table_id = s._table_id := by
  by_cases h1 : IntAttrIn conv c "transport_stream_id" 0 0xFFFF
  · by_cases h2 : IntAttrIn conv c "original_network_id" 0 0xFFFF
    · by_cases h3 : ∀ n ∈ c.children, conv.descFromXML n ≠ none
      · by_cases h4 : Absent c "preferred_section" ∨ IntAttrIn conv c "preferred_section" 0 255
        · rw [fromXMLChild_valid conv c s ⟨h1, h2, h3, h4⟩]
        · rw [fromXMLChild_bad_pref conv c s h1 h2 h3 h4]
      · rw [fromXMLChild_bad_descs conv c s h1 h2 h3]
    · rw [fromXMLChild_bad_onid conv c s h1 h2]
  · rw [fromXMLChild_bad_tsid conv c s h1]

theorem fromXMLLoop_table_id (conv : Conv) (cs : List xml.Element) (s : NIT) :
    (fromXMLLoop conv cs s)._table_id = s._table_id := by
  induction cs generalizing s with
  | nil => rfl
  | cons c rest ih =>
    unfold fromXMLLoop
    split
    · rw [ih, fromXMLChild_table_id]
    · rfl

/-- C16. Range invariants after a successful tree decode: when `fromXML` ends
with `_is_valid = true`, the resulting model has its version in [0, 31], its
network id in [0, 65535], both ids of every key of the map in [0, 65535] and the
`preferred_section` of every entry in [-1, 255]. -/
theorem fromXML_ranges (conv : Conv) (e : xml.Element) (init : NIT)
    (hv : (fromXML conv e init)._is_valid = true) :
    (0 ≤ (fromXML conv e init).version ∧ (fromXML conv e init).version ≤ 31) ∧
    (0 ≤ (fromXML conv e init).network_id ∧ (fromXML conv e init).network_id ≤ 65535) ∧
    (∀ it ∈ (fromXML conv e init).transports,
      (0 ≤ it.1.transport_stream_id ∧ it.1.transport_stream_id ≤ 65535) ∧
      (0 ≤ it.1.original_network_id ∧ it.1.original_network_id ≤ 65535) ∧
      (-1 ≤ it.2.preferred_section ∧ it.2.preferred_section ≤ 255)) := by
  have hvalid : TreeValid conv e := (fromXML_valid_iff conv e init).mp hv
  rw [fromXML_valid conv e init hvalid]
  obtain ⟨_, h1, _, h3, _, _, h6⟩ := hvalid
  refine ⟨optIntAttr_range conv e "version" 0 0 31 h1 (by omega),
    intAttr_range conv e "network_id" 0 0xFFFF h3, ?_⟩
  intro it hit
  obtain ⟨c, hc, hn, rfl⟩ := decoded_entry conv e it hit
  obtain ⟨c1, c2, _, c4⟩ := h6 c hc hn
  refine ⟨intAttr_range conv c "transport_stream_id" 0 0xFFFF c1,
    intAttr_range conv c "original_network_id" 0 0xFFFF c2, ?_⟩
  have := optIntAttr_range conv c "preferred_section" (-1) (-1) 255 (by
    rcases c4 with c4 | ⟨text, v, a1, a2, a3, a4⟩
    · exact Or.inl c4
    · exact Or.inr ⟨text, v, a1, a2, by omega, a4⟩) (by omega)
  simpa [childEntry, optIntAttr] using this

/-- C18. Table id variants: `isValidTableId` accepts exactly `TID_NIT_ACT` and
`TID_NIT_OTH`, the two ids under which the table is registered; the table id
that the constructor chooses (`TID_NIT_ACT` when `is_actual`, `TID_NIT_OTH`
otherwise) is accepted, as is the one that `setActual` stores and the one that
`fromXML` leaves, for every tree and every prior content. -/
theorem isValidTableId_variants :
    (∀ tid : Nat, isValidTableId tid = true ↔ (tid = TID_NIT_ACT ∨ tid = TID_NIT_OTH)) ∧
    (∀ tid : Nat, isValidTableId tid = true ↔ tid ∈ registeredTableIds) ∧
    (∀ is_actual : Bool,
      constructorTableId is_actual = (if is_actual then TID_NIT_ACT else TID_NIT_OTH) ∧
        isValidTableId (constructorTableId is_actual) = true) ∧
    (∀ (s : NIT) (is_actual : Bool),
      (setActual s is_actual)._table_id = (if is_actual then TID_NIT_ACT else TID_NIT_OTH) ∧
        isValidTableId (setActual s is_actual)._table_id = true) ∧
    (∀ (conv : Conv) (e : xml.Element) (init : NIT),
      isValidTableId (fromXML conv e init)._table_id = true) ∧
    (∀ (conv : Conv) (e : xml.Element) (init : NIT), TreeValid conv e →
      (fromXML conv e init)._table_id =
        if optBoolAttr conv e "actual" true then TID_NIT_ACT else TID_NIT_OTH) := by
  refine ⟨?_, ?_, ?_, ?_, ?_, ?_⟩
  · intro tid
    simp [isValidTableId]
  · intro tid
    simp [isValidTableId, registeredTableIds]
  · intro b
    cases b <;> simp [constructorTableId, isValidTableId, TID_NIT_ACT, TID_NIT_OTH]
  · intro s b
    exact ⟨rfl, isValidTableId_setActual s b⟩
  · intro conv e init
    unfold fromXML
    simp only []
    rw [fromXMLLoop_table_id]
    exact isValidTableId_setActual _ _
  · intro conv e init h
    rw [fromXML_valid conv e init h]
    rfl

/-- C19. The tree decoder does not depend on the prior content of the object:
when `fromXML` succeeds on a tree from one initial model, it yields the same
model from any other initial model; every descriptor of the result comes from a
child of the tree and every entry of the map from one of its `transport_stream`
children, so that nothing present before the call survives it. -/
theorem fromXML_independent (conv : Conv) (e : xml.Element) (init₁ init₂ : NIT)
    (hv : (fromXML conv e init₁)._is_valid = true) :
    fromXML conv e init₂ = fromXML conv e init₁ ∧
    (∀ d ∈ (fromXML conv e init₁).descs, ∃ c ∈ e.children, conv.descFromXML c = some d) ∧
    (∀ it ∈ (fromXML conv e init₁).transports,
      ∃ c ∈ e.children, c.name = "transport_stream" ∧
        it = (childKey conv c, childEntry conv c)) := by
  have hvalid : TreeValid conv e := (fromXML_valid_iff conv e init₁).mp hv
  rw [fromXML_valid conv e init₁ hvalid, fromXML_valid conv e init₂ hvalid]
  exact ⟨rfl, decoded_descriptor conv e, decoded_entry conv e⟩

/-- Witness of `buildXML_preferred_section` on `sampleModel`: the child of the
entry without preference has no `preferred_section`, the child of the entry with
preference 7 has the attribute `7`. -/
theorem buildXML_preferred_section_witness :
    ∃ cs, (buildXML sampleConv sampleModel (.mk MY_XML_NAME [] [])).children =
        ([] : List xml.Element) ++ sampleModel.descs.map sampleConv.descToXML ++ cs ∧
      List.Forall₂ (fun c it =>
        c.name = "transport_stream" ∧
        (c.hasAttribute "preferred_section" = true ↔ it.2.preferred_section ≠ -1) ∧
        (it.2.preferred_section ≠ -1 →
          c.attribute "preferred_section" =
            some (sampleConv.decimal it.2.preferred_section)))
        cs sampleModel.transports :=
  buildXML_preferred_section sampleConv sampleModel (.mk MY_XML_NAME [] []) (by decide)

/-- Witness of `fromXML_ranges` on `sampleTreeFull`, whose `version` and
`network_id` are the largest ones allowed. -/
theorem fromXML_ranges_witness :
    (fromXML sampleConv sampleTreeFull sampleModelBefore)._is_valid = true ∧
    (fromXML sampleConv sampleTreeFull sampleModelBefore).version = 31 ∧
    (fromXML sampleConv sampleTreeFull sampleModelBefore).network_id = 65535 ∧
    (∀ it ∈ (fromXML sampleConv sampleTreeFull sampleModelBefore).transports,
      (0 ≤ it.1.transport_stream_id ∧ it.1.transport_stream_id ≤ 65535) ∧
      (0 ≤ it.1.original_network_id ∧ it.1.original_network_id ≤ 65535) ∧
      (-1 ≤ it.2.preferred_section ∧ it.2.preferred_section ≤ 255)) :=
  ⟨by decide, by decide, by decide,
    (fromXML_ranges sampleConv sampleTreeFull sampleModelBefore (by decide)).2.2⟩

/-- Witness of `fromXML_independent` on `sampleTreeFull`: decoding over
`sampleModelBefore` and over a blank model gives the same model, in which the
descriptor and the entry of `sampleModelBefore` are gone. -/
theorem fromXML_independent_witness :
    fromXML sampleConv sampleTreeFull NIT.blank =
        fromXML sampleConv sampleTreeFull sampleModelBefore ∧
      (fromXML sampleConv sampleTreeFull sampleModelBefore).descs = [⟨64, []⟩] ∧
      (fromXML sampleConv sampleTreeFull sampleModelBefore).transports =
        [(⟨1, 2⟩, { descs := [⟨65, [3]⟩], preferred_section := 5 }),
         (⟨3, 4⟩, { descs := [], preferred_section := -1 })] :=
  ⟨(fromXML_independent sampleConv sampleTreeFull sampleModelBefore NIT.blank (by decide)).1,
    by decide, by decide⟩

end NIT

end ts
